import Mathlib

/-! # json-formatter: a shallow embedding of `src/json-formatter.js`

JavaScript strings are sequences of UTF-16 code units, so text is modelled as
`List Nat`.  The platform functions the program calls (`JSON.parse`,
`JSON.stringify`, `String.prototype.trimStart`, regular-expression `replace`,
`Array.prototype.sort`, property assignment on plain objects) are modelled
after ECMA-262; the functions of the program itself keep their source names.

What depends on the platform is a parameter: the numbers (`NumModel`: the
value of a literal and the text of a number, with the two laws ECMA-262 gives
them), the collation behind `localeCompare` (`Collation`: a total preorder)
and `toLowerCase` (any function).  Functions that loop take fuel, and the fuel
they start with is proved to be enough (`parseSyntax_complete`,
`replaceG_fuel`).
-/

namespace JsonFormatter

set_option maxRecDepth 100000

/-! ## Text -/

/-- A JavaScript string: its UTF-16 code units. -/
abbrev Text := List Nat

/-- UTF-16 code units of one Unicode scalar value. -/
def utf16Char (c : Char) : Text :=
  if c.toNat < 0x10000 then [c.toNat]
  else [0xD800 + (c.toNat - 0x10000) / 0x400, 0xDC00 + (c.toNat - 0x10000) % 0x400]

/-- UTF-16 code units of a list of characters. -/
def utf16List : List Char → Text
  | [] => []
  | c :: cs => utf16Char c ++ utf16List cs

/-- The JavaScript string denoted by a string literal. -/
def utf16 (s : String) : Text := utf16List s.data

/-- JSON whitespace (ECMA-404): tab, line feed, carriage return, space. -/
def isJsonWs (c : Nat) : Bool := c = 0x09 || c = 0x0A || c = 0x0D || c = 0x20

/-- The regular-expression class `\s`, which is also what `trim` and
`trimStart` strip: ECMAScript WhiteSpace and LineTerminator. -/
def isSpace (c : Nat) : Bool :=
  c = 0x09 || c = 0x0A || c = 0x0B || c = 0x0C || c = 0x0D || c = 0x20 || c = 0xA0
    || c = 0x1680 || (0x2000 ≤ c && c ≤ 0x200A) || c = 0x2028 || c = 0x2029
    || c = 0x202F || c = 0x205F || c = 0x3000 || c = 0xFEFF

/-- Decimal digit `0`..`9`. -/
def isDigit (c : Nat) : Bool := 0x30 ≤ c && c ≤ 0x39

/-- The regular-expression class `\w`: `[A-Za-z0-9_]`. -/
def isWord (c : Nat) : Bool :=
  (0x41 ≤ c && c ≤ 0x5A) || (0x61 ≤ c && c ≤ 0x7A) || isDigit c || c = 0x5F

/-- ECMAScript LineTerminator: what `.` does not match and where `$` matches
under the `m` flag. -/
def isLineTerminator (c : Nat) : Bool :=
  c = 0x0A || c = 0x0D || c = 0x2028 || c = 0x2029

/-- Drop leading JSON whitespace. -/
def skipWs : Text → Text
  | [] => []
  | c :: cs => if isJsonWs c then skipWs cs else c :: cs

/-- The method `String.prototype.trimStart`. -/
def trimStart : Text → Text
  | [] => []
  | c :: cs => if isSpace c then trimStart cs else c :: cs

/-- The method `String.prototype.startsWith` for a one-unit search string. -/
def startsWith (s : Text) (c : Nat) : Bool :=
  match s with
  | [] => false
  | d :: _ => d = c

/-! ## JSON values -/

/-- A JSON tree with number payload `ν`.  With `ν = Text` it is the parse tree
of a JSON text (numbers are their literals, members are in source order); with
`ν` the platform's numbers it is a JavaScript value: `obj kvs` lists the own
enumerable properties in the order `Object.keys` enumerates them. -/
inductive Json (ν : Type) where
  | null : Json ν
  | bool (b : Bool) : Json ν
  | num (n : ν) : Json ν
  | str (s : Text) : Json ν
  | arr (xs : List (Json ν)) : Json ν
  | obj (kvs : List (Text × Json ν)) : Json ν

/-! ## The JSON grammar (ECMA-404), as `JSON.parse` reads it -/

/-- Value of a hexadecimal digit. -/
def hexVal (c : Nat) : Option Nat :=
  if 0x30 ≤ c ∧ c ≤ 0x39 then some (c - 0x30)
  else if 0x41 ≤ c ∧ c ≤ 0x46 then some (c - 0x41 + 10)
  else if 0x61 ≤ c ∧ c ≤ 0x66 then some (c - 0x61 + 10)
  else none

/-- The code unit written `\uXXXX`. -/
def hex4 (a b c d : Nat) : Option Nat :=
  match hexVal a, hexVal b, hexVal c, hexVal d with
  | some x, some y, some z, some w => some (((x * 16 + y) * 16 + z) * 16 + w)
  | _, _, _, _ => none

/-- The code unit a single-character escape stands for. -/
def unescape (e : Nat) : Option Nat :=
  if e = 0x22 then some 0x22            -- \"
  else if e = 0x5C then some 0x5C       -- \\
  else if e = 0x2F then some 0x2F       -- \/
  else if e = 0x62 then some 0x08       -- \b
  else if e = 0x66 then some 0x0C       -- \f
  else if e = 0x6E then some 0x0A       -- \n
  else if e = 0x72 then some 0x0D       -- \r
  else if e = 0x74 then some 0x09       -- \t
  else none

/-- Put a code unit in front of a parsed string. -/
def consUnit (u : Nat) : Option (Text × Text) → Option (Text × Text)
  | some (s, r) => some (u :: s, r)
  | none => none

/-- Read a JSON string after its opening quote: the decoded string and the
text after the closing quote. -/
def parseString : Text → Option (Text × Text)
  | [] => none
  | c :: rest =>
    if c = 0x22 then some ([], rest)
    else if c = 0x5C then
      match rest with
      | [] => none
      | e :: rest1 =>
        if e = 0x75 then
          match rest1 with
          | a :: b :: c1 :: d :: rest2 =>
            match hex4 a b c1 d with
            | some u => consUnit u (parseString rest2)
            | none => none
          | _ => none
        else
          match unescape e with
          | some u => consUnit u (parseString rest1)
          | none => none
    else if c < 0x20 then none
    else consUnit c (parseString rest)

/-- Longest prefix of decimal digits, and what follows. -/
def spanDigits : Text → Text × Text
  | [] => ([], [])
  | c :: cs =>
    if isDigit c then ((spanDigits cs).1.cons c, (spanDigits cs).2) else ([], c :: cs)

/-- The integer part of a number: `0` or a non-zero digit and more digits. -/
def lexInt : Text → Option (Text × Text)
  | [] => none
  | d :: s =>
    if d = 0x30 then some ([d], s)
    else if isDigit d then some (d :: (spanDigits s).1, (spanDigits s).2)
    else none

/-- The optional fraction: `.` and at least one digit. -/
def lexFrac : Text → Option (Text × Text)
  | [] => some ([], [])
  | c :: s =>
    if c = 0x2E then
      (if (spanDigits s).1 = [] then none else some (c :: (spanDigits s).1, (spanDigits s).2))
    else some ([], c :: s)

/-- The optional exponent: `e` or `E`, an optional sign, at least one digit. -/
def lexExp : Text → Option (Text × Text)
  | [] => some ([], [])
  | c :: s =>
    if c = 0x65 ∨ c = 0x45 then
      match s with
      | [] => none
      | g :: s1 =>
        if g = 0x2B ∨ g = 0x2D then
          (if (spanDigits s1).1 = [] then none
           else some (c :: g :: (spanDigits s1).1, (spanDigits s1).2))
        else
          (if (spanDigits (g :: s1)).1 = [] then none
           else some (c :: (spanDigits (g :: s1)).1, (spanDigits (g :: s1)).2))
    else some ([], c :: s)

/-- Read a JSON number: the literal and what follows it.  A dangling `.` or
`e` fails at once; no JSON text continues after one. -/
def lexUnsigned (s : Text) : Option (Text × Text) :=
  match lexInt s with
  | none => none
  | some (i, r1) =>
    match lexFrac r1 with
    | none => none
    | some (f, r2) =>
      match lexExp r2 with
      | none => none
      | some (e, r3) => some (i ++ f ++ e, r3)

/-- Read a JSON number with its optional minus sign. -/
def lexNumber : Text → Option (Text × Text)
  | [] => none
  | c :: s =>
    if c = 0x2D then
      match lexUnsigned s with
      | some (l, r) => some (c :: l, r)
      | none => none
    else lexUnsigned (c :: s)

/-- A text that is exactly one JSON number literal. -/
def isNumberLiteral (t : Text) : Bool := lexNumber t = some (t, [])

/-- Read a keyword such as `null`: the text after it. -/
def expect : Text → Text → Option Text
  | [], s => some s
  | _ :: _, [] => none
  | k :: ks, c :: s => if k = c then expect ks s else none

mutual
/-- Read one JSON value (after optional whitespace): the parse tree and the
text after the value.  `fuel` bounds the number of nested calls. -/
def parseValue : Nat → Text → Option (Json Text × Text)
  | 0, _ => none
  | fuel + 1, s =>
    match skipWs s with
    | [] => none
    | c :: rest =>
      if c = 0x7B then                                   -- {
        match skipWs rest with
        | [] => none
        | d :: rest1 =>
          if d = 0x7D then some (Json.obj [], rest1)
          else
            match parseMembers fuel (d :: rest1) with
            | some (kvs, r) => some (Json.obj kvs, r)
            | none => none
      else if c = 0x5B then                              -- [
        match skipWs rest with
        | [] => none
        | d :: rest1 =>
          if d = 0x5D then some (Json.arr [], rest1)
          else
            match parseElements fuel (d :: rest1) with
            | some (xs, r) => some (Json.arr xs, r)
            | none => none
      else if c = 0x22 then                              -- "
        match parseString rest with
        | some (str, r) => some (Json.str str, r)
        | none => none
      else if c = 0x6E then                              -- null
        match expect [0x75, 0x6C, 0x6C] rest with
        | some r => some (Json.null, r)
        | none => none
      else if c = 0x74 then                              -- true
        match expect [0x72, 0x75, 0x65] rest with
        | some r => some (Json.bool true, r)
        | none => none
      else if c = 0x66 then                              -- false
        match expect [0x61, 0x6C, 0x73, 0x65] rest with
        | some r => some (Json.bool false, r)
        | none => none
      else
        match lexNumber (c :: rest) with
        | some (l, r) => some (Json.num l, r)
        | none => none
/-- Read the elements of a non-empty array up to and including `]`. -/
def parseElements : Nat → Text → Option (List (Json Text) × Text)
  | 0, _ => none
  | fuel + 1, s =>
    match parseValue fuel s with
    | none => none
    | some (v, r) =>
      match skipWs r with
      | [] => none
      | c :: rest =>
        if c = 0x2C then
          match parseElements fuel rest with
          | some (vs, r1) => some (v :: vs, r1)
          | none => none
        else if c = 0x5D then some ([v], rest)
        else none
/-- Read the members of a non-empty object up to and including `}`. -/
def parseMembers : Nat → Text → Option (List (Text × Json Text) × Text)
  | 0, _ => none
  | fuel + 1, s =>
    match skipWs s with
    | [] => none
    | q :: s1 =>
      if q = 0x22 then
        match parseString s1 with
        | none => none
        | some (k, s2) =>
          match skipWs s2 with
          | [] => none
          | col :: s3 =>
            if col = 0x3A then
              match parseValue fuel s3 with
              | none => none
              | some (v, r) =>
                match skipWs r with
                | [] => none
                | c :: rest =>
                  if c = 0x2C then
                    match parseMembers fuel rest with
                    | some (kvs, r1) => some ((k, v) :: kvs, r1)
                    | none => none
                  else if c = 0x7D then some ([(k, v)], rest)
                  else none
            else none
      else none
end

/-- The parse tree of a complete JSON text, `none` when the text is not JSON
(where `JSON.parse` throws a SyntaxError). -/
def parseSyntax (s : Text) : Option (Json Text) :=
  match parseValue (s.length + 1) s with
  | some (v, rest) => if skipWs rest = [] then some v else none
  | none => none


/-! ## JavaScript numbers -/

/-- The platform's numbers, as far as JSON sees them: `ofLit` is the value of a
number literal, `toText` is `Number::toString` on a finite number and `none`
on a non-finite one (which `JSON.stringify` writes as `null`).  The two laws
are those of ECMA-262: a finite number prints as a JSON number literal, and
reading a printed number back gives a number that prints the same. -/
structure NumModel where
  /-- The number values. -/
  Num : Type
  /-- The value of a JSON number literal. -/
  ofLit : Text → Num
  /-- The decimal text of a finite number. -/
  toText : Num → Option Text
  /-- A printed number is a JSON number literal. -/
  toText_lit : ∀ n t, toText n = some t → isNumberLiteral t = true
  /-- A printed number reads back as a number that prints the same. -/
  toText_ofLit : ∀ n t, toText n = some t → toText (ofLit t) = some t

/-- A number model that keeps a number as its literal; it agrees with
JavaScript on literals that are already in shortest form, such as `1`. -/
def literalNumbers : NumModel where
  Num := Text
  ofLit := fun t => t
  toText := fun t => if isNumberLiteral t = true then some t else none
  toText_lit := by
    intro n t h
    by_cases hl : isNumberLiteral n = true <;> simp_all
  toText_ofLit := by
    intro n t h
    by_cases hl : isNumberLiteral n = true <;> simp_all

/-! ## Properties of plain objects -/

/-- Value of a string of decimal digits. -/
def digitsVal (s : Text) : Nat := s.foldl (fun a c => a * 10 + (c - 0x30)) 0

/-- Decimal digits of `n`, most significant first; `fuel` bounds their number. -/
def natToDecimalAux : Nat → Nat → Text
  | 0, n => [0x30 + n % 10]
  | fuel + 1, n =>
    if n < 10 then [0x30 + n] else natToDecimalAux fuel (n / 10) ++ [0x30 + n % 10]

/-- ToString of a non-negative integer: its decimal digits. -/
def natToDecimal (n : Nat) : Text := natToDecimalAux n n

/-- The array index a property key denotes, if any: the key is a canonical
numeric string (it is the ToString of its numeric value) and the value is
below `2^32 - 1` (ECMA-262, 6.1.7). -/
def arrayIndex (k : Text) : Option Nat :=
  if k = natToDecimal (digitsVal k) ∧ digitsVal k < 4294967295 then some (digitsVal k) else none

/-- Whether an object has an own property `k`. -/
def hasKey {α : Type} (k : Text) : List (Text × α) → Bool
  | [] => false
  | (k1, _) :: rest => k1 = k || hasKey k rest

/-- The own property `o[k]`, when there is one. -/
def getProp {α : Type} (k : Text) : List (Text × α) → Option α
  | [] => none
  | (k1, v) :: rest => if k1 = k then some v else getProp k rest

/-- Overwrite the value of the own property `k`, keeping its place. -/
def replaceProp {α : Type} (k : Text) (v : α) : List (Text × α) → List (Text × α)
  | [] => []
  | (k1, v1) :: rest => if k1 = k then (k1, v) :: rest else (k1, v1) :: replaceProp k v rest

/-- Add a new array-index property: index keys are enumerated first, in
ascending numeric order (OrdinaryOwnPropertyKeys). -/
def insertIndex {α : Type} (i : Nat) (k : Text) (v : α) : List (Text × α) → List (Text × α)
  | [] => [(k, v)]
  | (k1, v1) :: rest =>
    match arrayIndex k1 with
    | some j => if i < j then (k, v) :: (k1, v1) :: rest else (k1, v1) :: insertIndex i k v rest
    | none => (k, v) :: (k1, v1) :: rest

/-- Add a property that the object does not have yet: an array index goes among
the index keys, any other key goes last (creation order). -/
def addProp {α : Type} (o : List (Text × α)) (k : Text) (v : α) : List (Text × α) :=
  match arrayIndex k with
  | some i => insertIndex i k v o
  | none => o ++ [(k, v)]

/-- CreateDataProperty, which `JSON.parse` uses to build an object. -/
def defineProp {α : Type} (o : List (Text × α)) (k : Text) (v : α) : List (Text × α) :=
  if hasKey k o then replaceProp k v o else addProp o k v

/-- The key `__proto__`. -/
def protoKey : Text := [0x5F, 0x5F, 0x70, 0x72, 0x6F, 0x74, 0x6F, 0x5F, 0x5F]

/-- The assignment `o[k] = v` on a plain object (OrdinarySet): an own property
is overwritten; otherwise `__proto__` reaches the accessor inherited from
`Object.prototype`, which changes the prototype (or does nothing) and creates
no own property; any other key becomes a new own property. -/
def setProp {α : Type} (o : List (Text × α)) (k : Text) (v : α) : List (Text × α) :=
  if hasKey k o then replaceProp k v o
  else if k = protoKey then o
  else addProp o k v

/-- Define the members one after the other on the object `o`. -/
def buildPropsFrom {α : Type} (o : List (Text × α)) : List (Text × α) → List (Text × α)
  | [] => o
  | (k, v) :: ms => buildPropsFrom (defineProp o k v) ms

/-- The object that defining the members one after the other builds. -/
def buildProps {α : Type} (ms : List (Text × α)) : List (Text × α) :=
  buildPropsFrom [] ms

/-! ## `JSON.parse` -/

mutual
/-- The JavaScript value of a parse tree. -/
def internalize (M : NumModel) : Json Text → Json M.Num
  | Json.null => Json.null
  | Json.bool b => Json.bool b
  | Json.num l => Json.num (M.ofLit l)
  | Json.str s => Json.str s
  | Json.arr xs => Json.arr (internalizeList M xs)
  | Json.obj ms => Json.obj (buildProps (internalizeMembers M ms))
/-- The values of the elements of an array. -/
def internalizeList (M : NumModel) : List (Json Text) → List (Json M.Num)
  | [] => []
  | x :: xs => internalize M x :: internalizeList M xs
/-- The values of the members of an object, still in source order. -/
def internalizeMembers (M : NumModel) : List (Text × Json Text) → List (Text × Json M.Num)
  | [] => []
  | (k, v) :: ms => (k, internalize M v) :: internalizeMembers M ms
end

/-- The function `JSON.parse`: the value of a JSON text, `none` where it throws. -/
def jsonParse (M : NumModel) (s : Text) : Option (Json M.Num) :=
  match parseSyntax s with
  | some t => some (internalize M t)
  | none => none

/-! ## `JSON.stringify` -/

/-- A lowercase hexadecimal digit. -/
def hexDigit (n : Nat) : Nat := if n < 10 then 0x30 + n else 0x61 + (n - 10)

/-- The escape `\uXXXX` of a code unit (UnicodeEscape). -/
def unicodeEscape (c : Nat) : Text :=
  [0x5C, 0x75, hexDigit (c / 4096 % 16), hexDigit (c / 256 % 16), hexDigit (c / 16 % 16),
    hexDigit (c % 16)]

/-- A leading (high) surrogate. -/
def isHighSurrogate (c : Nat) : Bool := 0xD800 ≤ c && c ≤ 0xDBFF

/-- A trailing (low) surrogate. -/
def isLowSurrogate (c : Nat) : Bool := 0xDC00 ≤ c && c ≤ 0xDFFF

/-- The text that QuoteJSONString writes for one code unit `c`: the short
escapes, `\uXXXX` for the other control characters and for a surrogate that is
not part of a pair, the unit itself otherwise.  `prevHigh` says that the unit
before `c` is a leading surrogate and `nextLow` that the unit after it is a
trailing one. -/
def quoteUnit (prevHigh : Bool) (c : Nat) (nextLow : Bool) : Text :=
  if c = 0x08 then [0x5C, 0x62]
  else if c = 0x09 then [0x5C, 0x74]
  else if c = 0x0A then [0x5C, 0x6E]
  else if c = 0x0C then [0x5C, 0x66]
  else if c = 0x0D then [0x5C, 0x72]
  else if c = 0x22 then [0x5C, 0x22]
  else if c = 0x5C then [0x5C, 0x5C]
  else if c < 0x20 then unicodeEscape c
  else if isHighSurrogate c then (if nextLow then [c] else unicodeEscape c)
  else if isLowSurrogate c then (if prevHigh then [c] else unicodeEscape c)
  else [c]

/-- Whether a text begins with a trailing surrogate. -/
def startsLow : Text → Bool
  | [] => false
  | d :: _ => isLowSurrogate d

/-- The characters of a quoted JSON string from some point on; `prevHigh` as
in `quoteUnit`. -/
def quoteFrom (prevHigh : Bool) : Text → Text
  | [] => []
  | c :: rest => quoteUnit prevHigh c (startsLow rest) ++ quoteFrom (isHighSurrogate c) rest

/-- The characters of a quoted JSON string (QuoteJSONString, without the
enclosing quotes). -/
def quoteBody (s : Text) : Text := quoteFrom false s

/-- QuoteJSONString. -/
def quote (s : Text) : Text := 0x22 :: (quoteBody s ++ [0x22])

/-- The text of a number in JSON: non-finite numbers are written `null`. -/
def numberText (M : NumModel) (n : M.Num) : Text :=
  match M.toText n with
  | some t => t
  | none => [0x6E, 0x75, 0x6C, 0x6C]

mutual
/-- SerializeJSONProperty for a value at indentation `indent`, with `gap` the
indentation unit (empty for compact output). -/
def serialize (M : NumModel) (gap indent : Text) : Json M.Num → Text
  | Json.null => [0x6E, 0x75, 0x6C, 0x6C]
  | Json.bool b => if b then [0x74, 0x72, 0x75, 0x65] else [0x66, 0x61, 0x6C, 0x73, 0x65]
  | Json.num n => numberText M n
  | Json.str s => quote s
  | Json.arr xs =>
    match xs with
    | [] => [0x5B, 0x5D]
    | _ :: _ =>
      if gap = [] then 0x5B :: (serializeElems M gap (indent ++ gap) xs ++ [0x5D])
      else 0x5B :: 0x0A :: ((indent ++ gap) ++ serializeElems M gap (indent ++ gap) xs
        ++ 0x0A :: (indent ++ [0x5D]))
  | Json.obj kvs =>
    match kvs with
    | [] => [0x7B, 0x7D]
    | _ :: _ =>
      if gap = [] then 0x7B :: (serializeMembers M gap (indent ++ gap) kvs ++ [0x7D])
      else 0x7B :: 0x0A :: ((indent ++ gap) ++ serializeMembers M gap (indent ++ gap) kvs
        ++ 0x0A :: (indent ++ [0x7D]))
/-- The elements of an array, joined by `,` or by `,` newline indent. -/
def serializeElems (M : NumModel) (gap indent : Text) : List (Json M.Num) → Text
  | [] => []
  | [x] => serialize M gap indent x
  | x :: y :: rest =>
    serialize M gap indent x
      ++ (if gap = [] then [0x2C] else 0x2C :: 0x0A :: indent)
      ++ serializeElems M gap indent (y :: rest)
/-- The members of an object: quoted key, `:` (and a space when indenting),
value; joined like array elements. -/
def serializeMembers (M : NumModel) (gap indent : Text) : List (Text × Json M.Num) → Text
  | [] => []
  | [(k, v)] =>
    quote k ++ (if gap = [] then [0x3A] else [0x3A, 0x20]) ++ serialize M gap indent v
  | (k, v) :: m :: rest =>
    quote k ++ (if gap = [] then [0x3A] else [0x3A, 0x20]) ++ serialize M gap indent v
      ++ (if gap = [] then [0x2C] else 0x2C :: 0x0A :: indent)
      ++ serializeMembers M gap indent (m :: rest)
end

/-- The call `JSON.stringify(value, null, 2)`. -/
def stringify2 (M : NumModel) (v : Json M.Num) : Text := serialize M [0x20, 0x20] [] v

/-- The call `JSON.stringify(value)`. -/
def stringify (M : NumModel) (v : Json M.Num) : Text := serialize M [] [] v

/-! ## Regular-expression replacement

A pattern is modelled by a matcher: tried at the start of a text, it gives the
replacement for the match found there and the text after the match.  All the
patterns of the program match at least one code unit. -/

/-- The scan of `String.prototype.replace` with a global pattern: where the
pattern matches, the replacement is written and the scan goes on after the
match; elsewhere one code unit is copied. -/
def replaceAll (m : Text → Option (Text × Text)) : Nat → Text → Text
  | 0, s => s
  | _ + 1, [] => []
  | fuel + 1, c :: cs =>
    match m (c :: cs) with
    | some (rep, rest) => rep ++ replaceAll m fuel rest
    | none => c :: replaceAll m fuel cs

/-- Global replace over a whole text. -/
def replaceG (m : Text → Option (Text × Text)) (s : Text) : Text := replaceAll m s.length s

/-- What a greedy `\s*` leaves. -/
def skipSpaces : Text → Text
  | [] => []
  | c :: cs => if isSpace c then skipSpaces cs else c :: cs

/-- What a greedy `\w*` takes, and what it leaves. -/
def spanWord : Text → Text × Text
  | [] => ([], [])
  | c :: cs => if isWord c then ((spanWord cs).1.cons c, (spanWord cs).2) else ([], c :: cs)

/-- The pattern `/,\s*([\]}])/` with replacement `$1`. -/
def matchTrailingComma : Text → Option (Text × Text)
  | [] => none
  | c :: s =>
    if c = 0x2C then
      match skipSpaces s with
      | [] => none
      | d :: r => if d = 0x5D ∨ d = 0x7D then some ([d], r) else none
    else none

/-- The pattern `/'/` with replacement `"`. -/
def matchSingleQuote : Text → Option (Text × Text)
  | [] => none
  | c :: s => if c = 0x27 then some ([0x22], s) else none

/-- The patterns `/{\s*(\w+)\s*:/` and `/,\s*(\w+)\s*:/` (`o` is the opening
`{` or `,`) with replacements `{"$1":` and `,"$1":`.  The classes `\s` and
`\w` are disjoint, so the greedy match is the only one. -/
def matchBareKey (o : Nat) : Text → Option (Text × Text)
  | [] => none
  | c :: s =>
    if c = o then
      (if (spanWord (skipSpaces s)).1 = [] then none
       else
        match skipSpaces (spanWord (skipSpaces s)).2 with
        | [] => none
        | d :: r =>
          if d = 0x3A then some (o :: 0x22 :: ((spanWord (skipSpaces s)).1 ++ [0x22, 0x3A]), r)
          else none)
    else none

/-- What `.*` leaves: the text from the next line terminator on. -/
def skipLine : Text → Text
  | [] => []
  | c :: cs => if isLineTerminator c then c :: cs else skipLine cs

/-- The pattern `/\/\/.*$/m` with empty replacement. -/
def matchLineComment : Text → Option (Text × Text)
  | [] => none
  | c :: s =>
    if c = 0x2F ∧ startsWith s 0x2F then some ([], skipLine s.tail) else none

/-- The text after the first `*/`, if there is one. -/
def afterBlockEnd : Text → Option Text
  | [] => none
  | c :: s => if c = 0x2A ∧ startsWith s 0x2F then some s.tail else afterBlockEnd s

/-- The pattern `/\/\*[\s\S]*?\*\//` with empty replacement. -/
def matchBlockComment : Text → Option (Text × Text)
  | [] => none
  | c :: s =>
    if c = 0x2F ∧ startsWith s 0x2A then
      match afterBlockEnd s.tail with
      | some r => some ([], r)
      | none => none
    else none

/-- Whether the leading run of `\s` characters contains a line feed. -/
def spacesHaveNewline : Text → Bool
  | [] => false
  | c :: cs => if isSpace c then (c = 0x0A || spacesHaveNewline cs) else false

/-- The patterns `/"\s*\n\s*"/`, `/}\s*\n\s*"/` and `/]\s*\n\s*"/` (`o` is the
first character) with replacements `",\n"`, `},\n"` and `],\n"`: the run of
whitespace after `o` has a line feed in it and a `"` follows the run. -/
def matchMissingComma (o : Nat) : Text → Option (Text × Text)
  | [] => none
  | c :: s =>
    if c = o ∧ spacesHaveNewline s = true then
      match skipSpaces s with
      | [] => none
      | d :: r => if d = 0x22 then some ([o, 0x2C, 0x0A, 0x22], r) else none
    else none

/-! ## The auto-fixer -/

/-- One entry of the `fixes` table. -/
structure Fix where
  /-- The field `name`. -/
  name : Text
  /-- The field `fn`; `none` is the `null` the last rule can return. -/
  fn : Text → Option Text
  /-- The field `desc`. -/
  desc : Text

/-- What `tryAutoFix` returns when it finds a fix. -/
structure FixResult where
  /-- The field `result`. -/
  result : Text
  /-- The field `description`. -/
  description : Text

/-- The rule `移除尾部逗号`. -/
def fixTrailingComma (s : Text) : Option Text := some (replaceG matchTrailingComma s)

/-- The rule `单引号→双引号`. -/
def fixSingleQuotes (s : Text) : Option Text := some (replaceG matchSingleQuote s)

/-- The rule `补全缺失引号`. -/
def fixBareKeys (s : Text) : Option Text :=
  some (replaceG (matchBareKey 0x2C) (replaceG (matchBareKey 0x7B) s))

/-- The rule `移除注释`. -/
def fixComments (s : Text) : Option Text :=
  some (replaceG matchBlockComment (replaceG matchLineComment s))

/-- The rule `修复缺失逗号`. -/
def fixMissingCommas (s : Text) : Option Text :=
  some (replaceG (matchMissingComma 0x5D)
    (replaceG (matchMissingComma 0x7D) (replaceG (matchMissingComma 0x22) s)))

/-- The rule `补全括号`: braces are counted first, and when closing braces are
missing they are appended and the rule returns; brackets are counted only
otherwise. -/
def fixBrackets (s : Text) : Option Text :=
  if s.count 0x7B > s.count 0x7D then
    some (s ++ List.replicate (s.count 0x7B - s.count 0x7D) 0x7D)
  else if s.count 0x5B > s.count 0x5D then
    some (s ++ List.replicate (s.count 0x5B - s.count 0x5D) 0x5D)
  else none

/-- The table `fixes` of `tryAutoFix`, in its order. -/
def fixes : List Fix :=
  [ { name := utf16 "移除尾部逗号", fn := fixTrailingComma,
      desc := utf16 "移除了对象/数组末尾多余的逗号" },
    { name := utf16 "单引号→双引号", fn := fixSingleQuotes,
      desc := utf16 "将单引号替换为标准的双引号" },
    { name := utf16 "补全缺失引号", fn := fixBareKeys,
      desc := utf16 "为未加引号的 Key 添加了双引号" },
    { name := utf16 "移除注释", fn := fixComments,
      desc := utf16 "移除了 JSON 中不允许的注释" },
    { name := utf16 "修复缺失逗号", fn := fixMissingCommas,
      desc := utf16 "在相邻的元素之间补充了缺失的逗号" },
    { name := utf16 "补全括号", fn := fixBrackets,
      desc := utf16 "补全了缺失的闭合括号" } ]

/-- The test `result && result !== raw`: the rule returned a non-empty string
that differs from its input. -/
def usable (result : Option Text) (raw : Text) : Option Text :=
  match result with
  | some r => if r ≠ [] ∧ r ≠ raw then some r else none
  | none => none

/-- The first loop of `tryAutoFix`: each rule alone on `raw`. -/
def trySingle (M : NumModel) (raw : Text) : List Fix → Option FixResult
  | [] => none
  | fix :: rest =>
    match usable (fix.fn raw) raw with
    | some result =>
      match jsonParse M result with
      | some v => some { result := stringify2 M v, description := fix.desc }
      | none => trySingle M raw rest
    | none => trySingle M raw rest

/-- The second loop of `tryAutoFix`: the rules one after the other, each on
the output of the ones before; the text and the descriptions applied. -/
def combineFixes (fs : List Fix) (raw : Text) : Text × List Text :=
  fs.foldl
    (fun st fix =>
      match usable (fix.fn st.1) st.1 with
      | some r => (r, st.2 ++ [fix.desc])
      | none => st)
    (raw, [])

/-- The method `Array.prototype.join`. -/
def joinWith (sep : Text) : List Text → Text
  | [] => []
  | [x] => x
  | x :: y :: rest => x ++ sep ++ joinWith sep (y :: rest)

/-- The function `tryAutoFix`; `none` is its `null`. -/
def tryAutoFix (M : NumModel) (raw : Text) : Option FixResult :=
  match trySingle M raw fixes with
  | some r => some r
  | none =>
    if (combineFixes fixes raw).1 ≠ raw then
      match jsonParse M (combineFixes fixes raw).1 with
      | some v =>
        some { result := stringify2 M v,
               description := utf16 "组合修复：" ++ joinWith (utf16 "；") (combineFixes fixes raw).2 }
      | none => none
    else none

/-! ## Notions used to state and prove the properties -/

/-- A text made of JSON whitespace only. -/
def AllWs (s : Text) : Prop := ∀ c ∈ s, isJsonWs c = true

/-- A text in front of which a number literal ends: it does not begin with a
digit, `.`, `e` or `E`. -/
def Boundary (s : Text) : Prop :=
  ∀ c, s.head? = some c → isDigit c = false ∧ c ≠ 0x2E ∧ c ≠ 0x65 ∧ c ≠ 0x45

mutual
/-- The parse tree that the serialization of a value has: a finite number is
its printed literal, a non-finite number is `null`. -/
def syn (M : NumModel) : Json M.Num → Json Text
  | Json.null => Json.null
  | Json.bool b => Json.bool b
  | Json.num n =>
    match M.toText n with
    | some t => Json.num t
    | none => Json.null
  | Json.str s => Json.str s
  | Json.arr xs => Json.arr (synList M xs)
  | Json.obj kvs => Json.obj (synMembers M kvs)
/-- The parse trees of the elements of an array. -/
def synList (M : NumModel) : List (Json M.Num) → List (Json Text)
  | [] => []
  | x :: xs => syn M x :: synList M xs
/-- The parse trees of the members of an object. -/
def synMembers (M : NumModel) : List (Text × Json M.Num) → List (Text × Json Text)
  | [] => []
  | (k, v) :: kvs => (k, syn M v) :: synMembers M kvs
end

mutual
/-- An upper bound on the nesting of parser calls that reading the
serialization of a value takes. -/
def cost {ν : Type} : Json ν → Nat
  | Json.null => 1
  | Json.bool _ => 1
  | Json.num _ => 1
  | Json.str _ => 1
  | Json.arr xs => 1 + costList xs
  | Json.obj kvs => 1 + costMembers kvs
/-- The bound for the elements of an array. -/
def costList {ν : Type} : List (Json ν) → Nat
  | [] => 0
  | x :: xs => 1 + cost x + costList xs
/-- The bound for the members of an object. -/
def costMembers {ν : Type} : List (Text × Json ν) → Nat
  | [] => 0
  | (_, v) :: kvs => 1 + cost v + costMembers kvs
end

/-- A text that begins with a character with which a JSON value can begin, as
far as the parser needs it: not whitespace and not a closing bracket. -/
def ValueStart (s : Text) : Prop :=
  ∃ c r, s = c :: r ∧ isJsonWs c = false ∧ c ≠ 0x5D ∧ c ≠ 0x7D

/-- The keys of an object, in enumeration order. -/
def keys {α : Type} : List (Text × α) → List Text
  | [] => []
  | (k, _) :: rest => k :: keys rest

/-- The order in which a plain object enumerates two of its keys: array
indices in ascending numeric order, and before every other key. -/
def keyBefore (a b : Text) : Bool :=
  match arrayIndex a, arrayIndex b with
  | some i, some j => decide (i ≤ j)
  | some _, none => true
  | none, some _ => false
  | none, none => true

/-- A list of keys as a plain object can enumerate them: no key twice, array
indices first and ascending. -/
def JsOrdered (ks : List Text) : Prop :=
  ks.Nodup ∧ ks.Pairwise (fun a b => keyBefore a b = true)

mutual
/-- A value all of whose objects enumerate their keys as a plain object does. -/
def WellFormed {ν : Type} : Json ν → Prop
  | Json.null => True
  | Json.bool _ => True
  | Json.num _ => True
  | Json.str _ => True
  | Json.arr xs => WellFormedList xs
  | Json.obj kvs => JsOrdered (keys kvs) ∧ WellFormedMembers kvs
/-- Well-formedness of the elements of an array. -/
def WellFormedList {ν : Type} : List (Json ν) → Prop
  | [] => True
  | x :: xs => WellFormed x ∧ WellFormedList xs
/-- Well-formedness of the values of the members of an object. -/
def WellFormedMembers {ν : Type} : List (Text × Json ν) → Prop
  | [] => True
  | (_, v) :: kvs => WellFormed v ∧ WellFormedMembers kvs
end

/-! ## Type detection -/

/-- The document types `'json'`, `'xml'` and `'unknown'`. -/
inductive DocType where
  | json : DocType
  | xml : DocType
  | unknown : DocType
  deriving DecidableEq

/-- The test `/<\w/.test(s)`. -/
def testTagStart : Text → Bool
  | [] => false
  | c :: s => (c = 0x3C && (match s with | [] => false | d :: _ => isWord d)) || testTagStart s

/-- The function `detectType`. -/
def detectType (M : NumModel) (s : Text) : DocType :=
  if startsWith (trimStart s) 0x3C then DocType.xml
  else if startsWith (trimStart s) 0x7B || startsWith (trimStart s) 0x5B then DocType.json
  else
    match jsonParse M s with
    | some _ => DocType.json
    | none => if testTagStart s then DocType.xml else DocType.unknown

/-- The first character of a text that is not whitespace. -/
def firstNonSpace (s : Text) : Option Nat := s.find? (fun c => !isSpace c)

/-- An ASCII letter. -/
def isLetter (c : Nat) : Bool := (0x41 ≤ c && c ≤ 0x5A) || (0x61 ≤ c && c ≤ 0x7A)

/-- Whether a text contains a `<` immediately followed by a character of the
class `follow`. -/
def hasAngleThen (follow : Nat → Bool) (s : Text) : Bool :=
  (s.zip s.tail).any (fun p => p.1 = 0x3C && follow p.2)

/-- The detection policy as the specification words it, with `follow` the
class of characters that may come after `<`: xml when the first non-whitespace
character is `<`; otherwise json when it is `{` or `[`; otherwise json when the
text parses as JSON; otherwise xml when the text contains `<` and a `follow`
character; otherwise unknown. -/
def detectTypePolicy (follow : Nat → Bool) (M : NumModel) (s : Text) : DocType :=
  if firstNonSpace s = some 0x3C then DocType.xml
  else if firstNonSpace s = some 0x7B ∨ firstNonSpace s = some 0x5B then DocType.json
  else if (jsonParse M s).isSome then DocType.json
  else if hasAngleThen follow s then DocType.xml
  else DocType.unknown

/-! ## Sorting the keys of an object -/

/-- The platform's `String.prototype.localeCompare`, which depends on the
locale; ECMA-402 requires it to be a consistent comparison function, which
makes `compare a b ≤ 0` a total preorder. -/
structure Collation where
  /-- The call `a.localeCompare(b)`. -/
  compare : Text → Text → Int
  /-- Any two strings are comparable. -/
  total : ∀ a b, compare a b ≤ 0 ∨ compare b a ≤ 0
  /-- The order is transitive. -/
  trans : ∀ a b c, compare a b ≤ 0 → compare b c ≤ 0 → compare a c ≤ 0

/-- Comparison of strings by code units, one possible collation. -/
def compareUnits : Text → Text → Int
  | [], [] => 0
  | [], _ :: _ => -1
  | _ :: _, [] => 1
  | a :: as, b :: bs => if a < b then -1 else if b < a then 1 else compareUnits as bs

/-- Comparison by code units is a collation. -/
def codeUnitCollation : Collation where
  compare := compareUnits
  total := by
    intro a
    induction a with
    | nil => intro b; cases b <;> simp [compareUnits]
    | cons a as ih =>
      intro b
      cases b with
      | nil => simp [compareUnits]
      | cons b bs =>
        simp only [compareUnits]
        by_cases h1 : a < b
        · simp [h1]
        · by_cases h2 : b < a
          · simp [h2]
          · simp only [h1, h2, if_false]
            exact ih bs
  trans := by
    intro a
    induction a with
    | nil => intro b c _ _; cases c <;> simp [compareUnits]
    | cons a as ih =>
      intro b c h1 h2
      cases b with
      | nil => simp [compareUnits] at h1
      | cons b bs =>
        cases c with
        | nil => simp [compareUnits] at h2
        | cons c cs =>
          simp only [compareUnits] at h1 h2 ⊢
          by_cases hab : a < b
          · by_cases hbc : b < c
            · have : a < c := by omega
              simp [this]
            · by_cases hcb : c < b
              · simp [hbc, hcb] at h2
              · have : a < c := by omega
                simp [this]
          · by_cases hba : b < a
            · simp [hab, hba] at h1
            · simp only [hab, hba, if_false] at h1
              have e : a = b := by omega
              subst e
              by_cases hbc : a < c
              · simp [hbc]
              · by_cases hcb : c < a
                · simp [hbc, hcb] at h2
                · simp only [hbc, hcb, if_false] at h2 ⊢
                  exact ih bs cs h1 h2

/-- The call `keys.sort((a, b) => a.localeCompare(b))`: `Array.prototype.sort`
is stable, and with a consistent comparator its result is the stable sort. -/
def sortKeys (C : Collation) (ks : List Text) : List Text :=
  ks.insertionSort (fun a b => C.compare a b ≤ 0)

/-- One step of the `reduce` of `sortObjectKeys`: `acc[key] = value`, where
`value` is the sorted `obj[key]`, found in `src`, the members of `obj` with
their values already sorted.  The key comes from `Object.keys(obj)`, so the
lookup succeeds. -/
def assignSorted {ν : Type} (src : List (Text × Json ν)) (acc : List (Text × Json ν))
    (key : Text) : List (Text × Json ν) :=
  match getProp key src with
  | some v => setProp acc key v
  | none => acc

mutual
/-- The function `sortObjectKeys`. -/
def sortObjectKeys {ν : Type} (C : Collation) : Json ν → Json ν
  | Json.null => Json.null
  | Json.bool b => Json.bool b
  | Json.num n => Json.num n
  | Json.str s => Json.str s
  | Json.arr xs => Json.arr (sortObjectKeysList C xs)
  | Json.obj kvs =>
    Json.obj ((sortKeys C (keys kvs)).foldl (assignSorted (sortObjectKeysMembers C kvs)) [])
/-- The call `obj.map(sortObjectKeys)` on an array. -/
def sortObjectKeysList {ν : Type} (C : Collation) : List (Json ν) → List (Json ν)
  | [] => []
  | x :: xs => sortObjectKeys C x :: sortObjectKeysList C xs
/-- The members of an object with `sortObjectKeys` applied to each value. -/
def sortObjectKeysMembers {ν : Type} (C : Collation) :
    List (Text × Json ν) → List (Text × Json ν)
  | [] => []
  | (k, v) :: kvs => (k, sortObjectKeys C v) :: sortObjectKeysMembers C kvs
end

/-- Whether a key is an array index. -/
def isIndexKey (k : Text) : Bool := (arrayIndex k).isSome

/-- What the `reduce` of `sortObjectKeys` keeps true of its accumulator, after
the keys `done`: it enumerates as a plain object does, has no own `__proto__`,
its keys that are not array indices appear in the order of `done`, and its
values are values of `src`. -/
def ReduceInv {ν : Type} (src acc : List (Text × Json ν)) (done : List Text) : Prop :=
  JsOrdered (keys acc) ∧ protoKey ∉ keys acc ∧
    ((keys acc).filter (fun k => !isIndexKey k)).Sublist done ∧
    ∀ p ∈ acc, ∃ q ∈ src, p.2 = q.2

/-- What the `reduce` keeps true when the keys are distinct, none is
`__proto__` and all are keys of `src`: the accumulator has exactly the keys
`done`, those that are not array indices in the order of `done`, and at each
key the value of `src`. -/
def ReduceExact {ν : Type} (src acc : List (Text × Json ν)) (done : List Text) : Prop :=
  JsOrdered (keys acc) ∧ (∀ k, k ∈ keys acc ↔ k ∈ done) ∧
    (keys acc).filter (fun k => !isIndexKey k) = done.filter (fun k => !isIndexKey k) ∧
    ∀ k ∈ keys acc, getProp k acc = getProp k src

/-- An object as `sortObjectKeys` builds it: enumerated as a plain object, no
own `__proto__`, and the keys that are not array indices in sorted order. -/
def Canonical {ν : Type} (C : Collation) (o : List (Text × Json ν)) : Prop :=
  JsOrdered (keys o) ∧ protoKey ∉ keys o ∧
    ((keys o).filter (fun k => !isIndexKey k)).Sorted (fun a b => C.compare a b ≤ 0)

/-! ## The tree view -/

/-- A node of the rendered tree (a `div.tree-node`), with what `buildTreeNode`
computes for it: `path` is `currentPath`, `keyText` the text of the
`span.tree-key` (absent on a root container), `children` the nodes in
`div.tree-children`.  A container also has the data of its type badge
(`Array[n]` or `Object{n}`), a leaf the scalar that its value span shows. -/
inductive TreeNode (ν : Type) where
  | container (path : Text) (keyText : Option Text) (isArray : Bool) (count : Nat)
      (children : List (TreeNode ν)) : TreeNode ν
  | leaf (path : Text) (keyText : Text) (value : Json ν) : TreeNode ν

/-- The text of a key label: the key in double quotes, a colon and a space. -/
def keyLabel (key : Text) : Text := 0x22 :: (key ++ [0x22, 0x3A, 0x20])

/-- The value of `currentPath` in `buildTreeNode`. -/
def currentPath (key parentPath : Text) (isRoot : Bool) : Text :=
  if isRoot then [0x24] else parentPath ++ 0x2E :: key

mutual
/-- The function `buildTreeNode`.  For a container the children are built
from `Object.keys(value)` in order: the members of an object, the indices of
an array written in decimal. -/
def buildTreeNode {ν : Type} (key : Text) (value : Json ν) (parentPath : Text) (isRoot : Bool) :
    TreeNode ν :=
  match value with
  | Json.null => TreeNode.leaf (currentPath key parentPath isRoot) (keyLabel key) Json.null
  | Json.bool b => TreeNode.leaf (currentPath key parentPath isRoot) (keyLabel key) (Json.bool b)
  | Json.num n => TreeNode.leaf (currentPath key parentPath isRoot) (keyLabel key) (Json.num n)
  | Json.str s => TreeNode.leaf (currentPath key parentPath isRoot) (keyLabel key) (Json.str s)
  | Json.arr xs =>
    TreeNode.container (currentPath key parentPath isRoot)
      (if isRoot then none else some (keyLabel key)) true xs.length
      (buildArrayChildren (currentPath key parentPath isRoot) 0 xs)
  | Json.obj kvs =>
    TreeNode.container (currentPath key parentPath isRoot)
      (if isRoot then none else some (keyLabel key)) false kvs.length
      (buildObjectChildren (currentPath key parentPath isRoot) kvs)
/-- The children of an array node, from index `i` on. -/
def buildArrayChildren {ν : Type} (path : Text) : Nat → List (Json ν) → List (TreeNode ν)
  | _, [] => []
  | i, x :: xs =>
    buildTreeNode (natToDecimal i) x path false :: buildArrayChildren path (i + 1) xs
/-- The children of an object node. -/
def buildObjectChildren {ν : Type} (path : Text) : List (Text × Json ν) → List (TreeNode ν)
  | [] => []
  | (k, v) :: kvs => buildTreeNode k v path false :: buildObjectChildren path kvs
end

/-- The function `renderJsonTree`: the node it puts in `#jsonTree`. -/
def renderJsonTree {ν : Type} (obj : Json ν) : TreeNode ν :=
  buildTreeNode (utf16 "root") obj [0x24] true

/-- The path of a node. -/
def TreeNode.path {ν : Type} : TreeNode ν → Text
  | TreeNode.container p _ _ _ _ => p
  | TreeNode.leaf p _ _ => p

/-- The children of a node. -/
def TreeNode.children {ν : Type} : TreeNode ν → List (TreeNode ν)
  | TreeNode.container _ _ _ _ cs => cs
  | TreeNode.leaf _ _ _ => []

mutual
/-- The paths of all the nodes of a tree, in document order. -/
def TreeNode.paths {ν : Type} : TreeNode ν → List Text
  | TreeNode.container p _ _ _ cs => p :: pathsOfList cs
  | TreeNode.leaf p _ _ => [p]
/-- The paths of all the nodes of a list of trees. -/
def pathsOfList {ν : Type} : List (TreeNode ν) → List Text
  | [] => []
  | t :: ts => TreeNode.paths t ++ pathsOfList ts
end

/-- A key without the character `.`. -/
def NoDot (k : Text) : Prop := 0x2E ∉ k

mutual
/-- A value none of whose object keys contains the character `.`. -/
def NoDotKeys {ν : Type} : Json ν → Prop
  | Json.null => True
  | Json.bool _ => True
  | Json.num _ => True
  | Json.str _ => True
  | Json.arr xs => NoDotKeysList xs
  | Json.obj kvs => NoDotKeysMembers kvs
/-- No dotted key in the elements of an array. -/
def NoDotKeysList {ν : Type} : List (Json ν) → Prop
  | [] => True
  | x :: xs => NoDotKeys x ∧ NoDotKeysList xs
/-- No dotted key in the members of an object. -/
def NoDotKeysMembers {ν : Type} : List (Text × Json ν) → Prop
  | [] => True
  | (k, v) :: kvs => NoDot k ∧ NoDotKeys v ∧ NoDotKeysMembers kvs
end

/-- A continuation of a path: nothing, or a text that begins with `.`. -/
def PathExt (s : Text) : Prop := s = [] ∨ s.head? = some 0x2E

/-! ## Search in the tree view

The search works on the `span.tree-key` elements of the rendered tree.  Its
state is the two globals `searchMatches` and `searchIndex`, the classes
`search-highlight` and `active` of the elements, and the texts of
`#searchCount` and `#searchPath`.  Matched elements are referred to by their
position in document order, which stands for the element as long as the tree
is not rendered again.  Expanding collapsed ancestors and scrolling into view
change none of these and are left out. -/

/-- A `span.tree-key` element: its text, its `data-path`, and whether it has
the classes `search-highlight` and `active`. -/
structure KeyEl where
  /-- The property `textContent`. -/
  textContent : Text
  /-- The attribute `data-path`. -/
  path : Text
  /-- The class `search-highlight`. -/
  highlight : Bool
  /-- The class `active`. -/
  active : Bool
  deriving DecidableEq

mutual
/-- The `span.tree-key` elements of a tree as `buildTreeNode` creates them, in
document order. -/
def TreeNode.keyEls {ν : Type} : TreeNode ν → List KeyEl
  | TreeNode.container p kt _ _ cs =>
    (match kt with
      | some t => [{ textContent := t, path := p, highlight := false, active := false }]
      | none => []) ++ keyElsOfList cs
  | TreeNode.leaf p t _ => [{ textContent := t, path := p, highlight := false, active := false }]
/-- The `span.tree-key` elements of a list of trees. -/
def keyElsOfList {ν : Type} : List (TreeNode ν) → List KeyEl
  | [] => []
  | t :: ts => TreeNode.keyEls t ++ keyElsOfList ts
end

/-- The state that the search functions read and write. -/
structure SearchState where
  /-- The elements `#jsonTree .tree-key`, in document order. -/
  els : List KeyEl
  /-- The global `searchMatches`: positions in `els`. -/
  searchMatches : List Nat
  /-- The global `searchIndex`. -/
  searchIndex : Int
  /-- The text of `#searchCount`. -/
  searchCount : Text
  /-- The text of `#searchPath`. -/
  searchPath : Text
  deriving DecidableEq

/-- The method `String.prototype.trim`. -/
def trim (s : Text) : Text := (trimStart (trimStart s).reverse).reverse

/-- The method `String.prototype.includes`. -/
def includes : Text → Text → Bool
  | [], k => k.isEmpty
  | c :: s, k => k.isPrefixOf (c :: s) || includes s k

/-- The call `replace(/"/g, '')`. -/
def removeQuotes (s : Text) : Text := s.filter (fun c => c != 0x22)

/-- The call `replace(/:\s*$/, '')`: the text is cut at the first colon that
only whitespace follows. -/
def stripTrailingColon : Text → Text
  | [] => []
  | c :: s => if c = 0x3A ∧ s.all isSpace = true then [] else c :: stripTrailingColon s

/-- The text a key label is searched in; `lower` is the platform's
`String.prototype.toLowerCase`. -/
def normalizeLabel (lower : Text → Text) (t : Text) : Text :=
  lower (stripTrailingColon (removeQuotes t))

/-- Lower-casing of the ASCII letters, which `toLowerCase` does on ASCII text. -/
def asciiLower (s : Text) : Text := s.map (fun c => if 0x41 ≤ c ∧ c ≤ 0x5A then c + 0x20 else c)

/-- The function `clearSearchHighlights`: every element with the class
`search-highlight` loses it and the class `active`. -/
def clearSearchHighlights (els : List KeyEl) : List KeyEl :=
  els.map (fun e => if e.highlight then { e with highlight := false, active := false } else e)

/-- Whether an element matches the keyword. -/
def matchesKeyword (lower : Text → Text) (keyword : Text) (e : KeyEl) : Bool :=
  includes (normalizeLabel lower e.textContent) keyword

/-- The positions, from `i` on, of the elements that match. -/
def findMatches (lower : Text → Text) (keyword : Text) : Nat → List KeyEl → List Nat
  | _, [] => []
  | i, e :: es =>
    if matchesKeyword lower keyword e then i :: findMatches lower keyword (i + 1) es
    else findMatches lower keyword (i + 1) es

/-- The elements after the scan: each match has the class `search-highlight`. -/
def markHighlights (lower : Text → Text) (keyword : Text) (els : List KeyEl) : List KeyEl :=
  els.map (fun e => if matchesKeyword lower keyword e then { e with highlight := true } else e)

/-- Change the element at a position. -/
def updateAt (f : KeyEl → KeyEl) : Nat → List KeyEl → List KeyEl
  | _, [] => []
  | 0, e :: es => f e :: es
  | n + 1, e :: es => e :: updateAt f n es

/-- The element access `searchMatches[i]`: `none` is `undefined`. -/
def matchAt (searchMatches : List Nat) (i : Int) : Option Nat :=
  if 0 ≤ i then searchMatches[i.toNat]? else none

/-- The text that `updateSearchInfo` writes in `#searchCount`. -/
def countText (searchIndex : Int) (total : Nat) : Text :=
  natToDecimal (searchIndex + 1).toNat ++ 0x2F :: natToDecimal total

/-- The text that `updateSearchInfo` writes in `#searchPath`. -/
def pathText (els : List KeyEl) (pos : Nat) : Text :=
  match els[pos]? with
  | some e => e.path
  | none => []

/-- The function `onSearchInput`, with `input` the value of `#searchInput`. -/
def onSearchInput (lower : Text → Text) (input : Text) (s : SearchState) : SearchState :=
  if lower (trim input) = [] then
    { els := clearSearchHighlights s.els, searchMatches := [], searchIndex := -1,
      searchCount := [], searchPath := s.searchPath }
  else
    match findMatches lower (lower (trim input)) 0 (clearSearchHighlights s.els) with
    | [] =>
      { els := markHighlights lower (lower (trim input)) (clearSearchHighlights s.els),
        searchMatches := [], searchIndex := -1, searchCount := utf16 "无匹配", searchPath := [] }
    | first :: more =>
      { els := updateAt (fun e => { e with active := true }) first
          (markHighlights lower (lower (trim input)) (clearSearchHighlights s.els)),
        searchMatches := first :: more, searchIndex := 0,
        searchCount := countText 0 (first :: more).length,
        searchPath := pathText (clearSearchHighlights s.els) first }

/-- The common body of `searchNext` and `searchPrev`, with `idx` the new
value of `searchIndex`; `none` is the TypeError of reading `classList` of
`undefined`. -/
def moveCursor (s : SearchState) (idx : Int) : Option SearchState :=
  match matchAt s.searchMatches s.searchIndex with
  | none => none
  | some cur =>
    match matchAt s.searchMatches idx with
    | none => none
    | some nxt =>
      some { els := updateAt (fun e => { e with active := true }) nxt
               (updateAt (fun e => { e with active := false }) cur s.els),
             searchMatches := s.searchMatches, searchIndex := idx,
             searchCount := countText idx s.searchMatches.length,
             searchPath := pathText s.els nxt }

/-- The function `searchNext`. -/
def searchNext (s : SearchState) : Option SearchState :=
  if s.searchMatches.length = 0 then some s
  else moveCursor s (Int.tmod (s.searchIndex + 1) s.searchMatches.length)

/-- The function `searchPrev`. -/
def searchPrev (s : SearchState) : Option SearchState :=
  if s.searchMatches.length = 0 then some s
  else moveCursor s (Int.tmod (s.searchIndex - 1 + s.searchMatches.length) s.searchMatches.length)

/-- Call `searchNext` a number of times. -/
def searchNextTimes : Nat → SearchState → Option SearchState
  | 0, s => some s
  | n + 1, s =>
    match searchNext s with
    | some s1 => searchNextTimes n s1
    | none => none

/-- The state after `renderJsonTree` on a page where no search is going on. -/
def freshSearchState {ν : Type} (tree : TreeNode ν) : SearchState :=
  { els := tree.keyEls, searchMatches := [], searchIndex := -1, searchCount := [],
    searchPath := [] }

/-- What holds of every state that rendering and the search functions produce:
an element with the class `active` has the class `search-highlight`, and every
matched element is in the tree with the class `search-highlight`. -/
def SearchInv (s : SearchState) : Prop :=
  (∀ e ∈ s.els, e.active = true → e.highlight = true) ∧
    ∀ pos ∈ s.searchMatches, ∃ e, s.els[pos]? = some e ∧ e.highlight = true

/-- A tree with the two keys `a` and `ab`, searched for `a`, the cursor at the
first of the two matches. -/
def sampleSearchState : SearchState :=
  onSearchInput asciiLower (utf16 "a")
    (freshSearchState (renderJsonTree
      (Json.obj [(utf16 "a", (Json.null : Json Text)), (utf16 "ab", Json.null)])))

/-! ## The parser, one call at a time

The bodies of `parseValue`, `parseElements` and `parseMembers` with the nested
calls as parameters; they serve to show that the fuel `JSON.parse` starts with
is always enough. -/

/-- The body of `parseValue`. -/
def valueStep (pe : Text → Option (List (Json Text) × Text))
    (pm : Text → Option (List (Text × Json Text) × Text)) (s : Text) :
    Option (Json Text × Text) :=
  match skipWs s with
  | [] => none
  | c :: rest =>
    if c = 0x7B then
      match skipWs rest with
      | [] => none
      | d :: rest1 =>
        if d = 0x7D then some (Json.obj [], rest1)
        else
          match pm (d :: rest1) with
          | some (kvs, r) => some (Json.obj kvs, r)
          | none => none
    else if c = 0x5B then
      match skipWs rest with
      | [] => none
      | d :: rest1 =>
        if d = 0x5D then some (Json.arr [], rest1)
        else
          match pe (d :: rest1) with
          | some (xs, r) => some (Json.arr xs, r)
          | none => none
    else if c = 0x22 then
      match parseString rest with
      | some (str, r) => some (Json.str str, r)
      | none => none
    else if c = 0x6E then
      match expect [0x75, 0x6C, 0x6C] rest with
      | some r => some (Json.null, r)
      | none => none
    else if c = 0x74 then
      match expect [0x72, 0x75, 0x65] rest with
      | some r => some (Json.bool true, r)
      | none => none
    else if c = 0x66 then
      match expect [0x61, 0x6C, 0x73, 0x65] rest with
      | some r => some (Json.bool false, r)
      | none => none
    else
      match lexNumber (c :: rest) with
      | some (l, r) => some (Json.num l, r)
      | none => none

/-- The body of `parseElements`. -/
def elementsStep (pv : Text → Option (Json Text × Text))
    (pe : Text → Option (List (Json Text) × Text)) (s : Text) :
    Option (List (Json Text) × Text) :=
  match pv s with
  | none => none
  | some (v, r) =>
    match skipWs r with
    | [] => none
    | c :: rest =>
      if c = 0x2C then
        match pe rest with
        | some (vs, r1) => some (v :: vs, r1)
        | none => none
      else if c = 0x5D then some ([v], rest)
      else none

/-- The body of `parseMembers`. -/
def membersStep (pv : Text → Option (Json Text × Text))
    (pm : Text → Option (List (Text × Json Text) × Text)) (s : Text) :
    Option (List (Text × Json Text) × Text) :=
  match skipWs s with
  | [] => none
  | q :: s1 =>
    if q = 0x22 then
      match parseString s1 with
      | none => none
      | some (k, s2) =>
        match skipWs s2 with
        | [] => none
        | col :: s3 =>
          if col = 0x3A then
            match pv s3 with
            | none => none
            | some (v, r) =>
              match skipWs r with
              | [] => none
              | c :: rest =>
                if c = 0x2C then
                  match pm rest with
                  | some (kvs, r1) => some ((k, v) :: kvs, r1)
                  | none => none
                else if c = 0x7D then some ([(k, v)], rest)
                else none
          else none
    else none

/-- A reader that consumes at least one code unit when it succeeds. -/
def Shrinks {α : Type} (p : Text → Option (α × Text)) : Prop :=
  ∀ t x r, p t = some (x, r) → r.length < t.length

/-- A successful read with fuel `f` of a reader `p`: it consumes input, and any
fuel that is at least the number of code units consumed gives the same
result. -/
def FuelFree {α : Type} (p : Nat → Text → Option (α × Text)) (f : Nat) : Prop :=
  ∀ s x r, p f s = some (x, r) →
    r.length < s.length ∧ ∀ g, s.length - r.length ≤ g → p g s = some (x, r)

/-! ## The position of a parse error -/

/-- A keyword of lower-case ASCII letters matched under the `i` flag at the
start of a text: each code unit is the letter or its upper-case form.  What
is left of the text. -/
def matchIgnoreCase : Text → Text → Option Text
  | [], s => some s
  | _ :: _, [] => none
  | k :: ks, c :: s => if c = k ∨ c + 0x20 = k then matchIgnoreCase ks s else none

/-- The pattern `/kw\s+(\d+)/i` tried at the start of a text: the digits it
captures.  The classes `\s` and `\d` are disjoint, so the greedy match is the
only one. -/
def matchOffsetAt (kw s : Text) : Option Text :=
  match matchIgnoreCase kw s with
  | none => none
  | some [] => none
  | some (c :: r) =>
    if isSpace c ∧ (spanDigits (skipSpaces r)).1 ≠ [] then some (spanDigits (skipSpaces r)).1
    else none

/-- The call `errMsg.match(/kw\s+(\d+)/i)`: the digits captured by the first
match, `none` when the pattern matches nowhere. -/
def findOffset (kw : Text) : Text → Option Text
  | [] => none
  | c :: s =>
    match matchOffsetAt kw (c :: s) with
    | some d => some d
    | none => findOffset kw s

/-- The variable `position` of `showJsonError`: the number after the first
`position`, else after the first `column`, in the message of the error; `-1`
when the message has neither. -/
def errorPosition (errMsg : Text) : Int :=
  match findOffset (utf16 "position") errMsg with
  | some d => (digitsVal d : Int)
  | none =>
    match findOffset (utf16 "column") errMsg with
    | some d => (digitsVal d : Int)
    | none => -1

/-- One turn of the loop of `showJsonError` over a code unit: a line feed
starts a new line, any other code unit is one more column. -/
def lineColStep (lc : Nat × Nat) (c : Nat) : Nat × Nat :=
  if c = 0x0A then (lc.1 + 1, 1) else (lc.1, lc.2 + 1)

/-- The variables `lineNum` and `colNum` of `showJsonError` after its loop
over the first `Math.min(position, raw.length)` code units of `raw`.  The
program holds `position` as a double; rounding can change it only above
`2 ^ 53`, where the minimum is the length of `raw` either way. -/
def lineCol (raw : Text) (position : Int) : Nat × Nat :=
  if position ≥ 0 then (raw.take (min position.toNat raw.length)).foldl lineColStep (1, 1)
  else (1, 1)

/-- Where `showJsonError` locates the error. -/
structure ErrorLocation where
  /-- The variable `position`. -/
  position : Int
  /-- The variable `lineNum`. -/
  lineNum : Nat
  /-- The variable `colNum`. -/
  colNum : Nat
  deriving DecidableEq

/-- The function `showJsonError`, as far as it locates the error from the
text and the message of the error. -/
def showJsonError (raw errMsg : Text) : ErrorLocation :=
  { position := errorPosition errMsg,
    lineNum := (lineCol raw (errorPosition errMsg)).1,
    colNum := (lineCol raw (errorPosition errMsg)).2 }

/-! ## The order of the rules of the auto-fixer -/

/-- A rule qualifies on `raw` with the value `v`: applied alone to `raw` it
gives a text that differs from `raw` and parses as JSON, to `v`. -/
def Qualifies (M : NumModel) (raw : Text) (fix : Fix) (v : Json M.Num) : Prop :=
  ∃ r, fix.fn raw = some r ∧ r ≠ raw ∧ jsonParse M r = some v

/-- The second half of `tryAutoFix`, the cumulative pass: what it returns
once no rule alone has given a fix. -/
def tryCombined (M : NumModel) (raw : Text) : Option FixResult :=
  if (combineFixes fixes raw).1 ≠ raw then
    match jsonParse M (combineFixes fixes raw).1 with
    | some v =>
      some { result := stringify2 M v,
             description := utf16 "组合修复：" ++ joinWith (utf16 "；") (combineFixes fixes raw).2 }
    | none => none
  else none

/-! ## Format and minify -/

/-- The pattern `/>\s+</` with replacement `><`. -/
def matchTagGap : Text → Option (Text × Text)
  | [] => none
  | c :: s =>
    if c = 0x3E then
      match s with
      | [] => none
      | d :: r =>
        if isSpace d then
          match skipSpaces r with
          | [] => none
          | e :: r1 => if e = 0x3C then some ([0x3E, 0x3C], r1) else none
        else none
    else none

/-- The pattern `/\s+/` with replacement of one space. -/
def matchSpaces : Text → Option (Text × Text)
  | [] => none
  | c :: s => if isSpace c then some ([0x20], skipSpaces s) else none

/-- The function `doFormat`, as a function of the content of the input area:
the content after the call.  `formatXml` is the program's XML formatter, which
JSON input never reaches.  Where the function returns early or hands the text
to `processJson`, the content stays as it is. -/
def doFormat (M : NumModel) (formatXml : Text → Text) (value : Text) : Text :=
  if trim value = [] then value
  else
    match detectType M (trim value) with
    | DocType.json =>
      match jsonParse M (trim value) with
      | some obj => stringify2 M obj
      | none => value
    | DocType.xml => formatXml (trim value)
    | DocType.unknown => value

/-- The function `doMinify`, as a function of the content of the input area:
the content after the call. -/
def doMinify (M : NumModel) (value : Text) : Text :=
  if trim value = [] then value
  else
    match detectType M (trim value) with
    | DocType.json =>
      match jsonParse M (trim value) with
      | some obj => stringify M obj
      | none => value
    | DocType.xml => trim (replaceG matchSpaces (replaceG matchTagGap (trim value)))
    | DocType.unknown => value

/-! ## Numbers out of range

A number model that follows JavaScript on the literals too large for a double:
a literal whose magnitude is at least `2 ^ 1024 - 2 ^ 970`, half-way between
the largest double and `2 ^ 1024`, is read as an infinity.  A literal in range
is kept as it is written. -/

/-- A number literal without its minus sign. -/
def unsignedPart : Text → Text
  | [] => []
  | c :: s => if c = 0x2D then s else c :: s

/-- The integer digits, the fraction (with its `.`) and the exponent (with its
`e`) of a number literal. -/
def literalParts (t : Text) : Text × Text × Text :=
  match lexInt (unsignedPart t) with
  | none => ([], [], [])
  | some (i, r1) =>
    match lexFrac r1 with
    | none => (i, [], [])
    | some (f, r2) =>
      match lexExp r2 with
      | none => (i, f, [])
      | some (e, _) => (i, f, e)

/-- The value of the exponent part of a number literal, 0 when there is none. -/
def exponentValue : Text → Int
  | _ :: g :: ds =>
    if g = 0x2D then -(digitsVal ds : Int)
    else if g = 0x2B then (digitsVal ds : Int)
    else (digitsVal (g :: ds) : Int)
  | _ => 0

/-- The power `b ^ n`, by repeated multiplication. -/
def power (b : Nat) : Nat → Nat
  | 0 => 1
  | n + 1 => power b n * b

/-- Whether the magnitude `m * 10 ^ x` is at least `2 ^ 1024 - 2 ^ 970`. -/
def magnitudeOverflows (m : Nat) (x : Int) : Bool :=
  if x ≥ 0 then decide (power 2 1024 - power 2 970 ≤ m * power 10 x.toNat)
  else decide ((power 2 1024 - power 2 970) * power 10 (-x).toNat ≤ m)

/-- Whether a number literal is read as an infinity. -/
def overflows (t : Text) : Bool :=
  magnitudeOverflows (digitsVal ((literalParts t).1 ++ (literalParts t).2.1.tail))
    (exponentValue (literalParts t).2.2 - ((literalParts t).2.1.tail.length : Int))

/-- A number in range, held as its literal, or an infinity. -/
inductive RangedNum where
  | finite (lit : Text) : RangedNum
  | infinite (negative : Bool) : RangedNum
  deriving DecidableEq

/-- What `Number::toString` gives on a `RangedNum` that a literal denotes. -/
def RangedNum.toText : RangedNum → Option Text
  | RangedNum.finite t => if isNumberLiteral t = true ∧ overflows t = false then some t else none
  | RangedNum.infinite _ => none

/-- The number model with infinities. -/
def rangedNumbers : NumModel where
  Num := RangedNum
  ofLit := fun t =>
    if overflows t = true then RangedNum.infinite (startsWith t 0x2D) else RangedNum.finite t
  toText := RangedNum.toText
  toText_lit := by
    intro n t h
    cases n with
    | finite l =>
      by_cases hl : isNumberLiteral l = true ∧ overflows l = false
      · simp only [RangedNum.toText, if_pos hl, Option.some.injEq] at h
        rw [← h]
        exact hl.1
      · simp [RangedNum.toText, if_neg hl] at h
    | infinite b => simp [RangedNum.toText] at h
  toText_ofLit := by
    intro n t h
    cases n with
    | finite l =>
      by_cases hl : isNumberLiteral l = true ∧ overflows l = false
      · simp only [RangedNum.toText, if_pos hl, Option.some.injEq] at h
        subst h
        simp [RangedNum.toText, hl.1, hl.2]
      · simp [RangedNum.toText, if_neg hl] at h
    | infinite b => simp [RangedNum.toText] at h

/-! ## Notions used for the round trip -/

mutual
/-- Every number of a value prints as a literal that reads back as the same
number.  In JavaScript these are the finite numbers other than `-0`. -/
def NumbersReadBack (M : NumModel) : Json M.Num → Prop
  | Json.null => True
  | Json.bool _ => True
  | Json.num n => ∃ t, M.toText n = some t ∧ M.ofLit t = n
  | Json.str _ => True
  | Json.arr xs => NumbersReadBackList M xs
  | Json.obj kvs => NumbersReadBackMembers M kvs
/-- The same for the elements of an array. -/
def NumbersReadBackList (M : NumModel) : List (Json M.Num) → Prop
  | [] => True
  | x :: xs => NumbersReadBack M x ∧ NumbersReadBackList M xs
/-- The same for the members of an object. -/
def NumbersReadBackMembers (M : NumModel) : List (Text × Json M.Num) → Prop
  | [] => True
  | (_, v) :: kvs => NumbersReadBack M v ∧ NumbersReadBackMembers M kvs
end

/-- A text made of characters that `trim` strips. -/
def AllSpace (w : Text) : Prop := ∀ c ∈ w, isSpace c = true

/-- A reader that does not look at a trailing run `w`: when it succeeds on
`s ++ w`, it succeeds on `s` with the same result and leaves `w` more. -/
def Strips {α : Type} (w : Text) (p : Text → Option (α × Text)) : Prop :=
  ∀ s x r, p (s ++ w) = some (x, r) → ∃ r', r = r' ++ w ∧ p s = some (x, r')

/-- A reader that fails on a text made of space only. -/
def FailsOnSpace {α : Type} (p : Text → Option (α × Text)) : Prop :=
  ∀ w, AllSpace w → p w = none

/-! ## Theorems -/

/-! ### Whitespace -/

theorem skipWs_append_of_allWs (ws s : Text) (h : AllWs ws) : skipWs (ws ++ s) = skipWs s := by
  induction ws with
  | nil => rfl
  | cons c cs ih =>
    have hc : isJsonWs c = true := h c (List.mem_cons_self _ _)
    have hcs : AllWs cs := fun d hd => h d (List.mem_cons_of_mem _ hd)
    simp [skipWs, hc, ih hcs]

theorem skipWs_cons_of_not_ws (c : Nat) (s : Text) (h : isJsonWs c = false) :
    skipWs (c :: s) = c :: s := by
  simp [skipWs, h]

theorem allWs_nil : AllWs [] := fun _ h => by cases h

theorem allWs_append {a b : Text} (ha : AllWs a) (hb : AllWs b) : AllWs (a ++ b) := by
  intro c hc
  rcases List.mem_append.mp hc with h | h
  · exact ha c h
  · exact hb c h

theorem allWs_cons {c : Nat} {s : Text} (hc : isJsonWs c = true) (hs : AllWs s) :
    AllWs (c :: s) := by
  intro d hd
  rcases List.mem_cons.mp hd with h | h
  · subst h; exact hc
  · exact hs d h

/-! ### Number literals -/

theorem boundary_cons (c : Nat) (s : Text)
    (h : isDigit c = false ∧ c ≠ 0x2E ∧ c ≠ 0x65 ∧ c ≠ 0x45) : Boundary (c :: s) := by
  intro d hd
  simp at hd
  subst hd
  exact h

theorem boundary_nil : Boundary [] := by
  intro d hd
  simp at hd

theorem spanDigits_append (s rest : Text) (hb : Boundary rest) :
    spanDigits (s ++ rest) = ((spanDigits s).1, (spanDigits s).2 ++ rest) := by
  induction s with
  | nil =>
    cases rest with
    | nil => rfl
    | cons c r =>
      have := (hb c rfl).1
      simp [spanDigits, this]
  | cons c cs ih =>
    by_cases hc : isDigit c = true
    · simp [spanDigits, hc, ih]
    · simp [spanDigits, hc]

theorem lexInt_append (s rest a r : Text) (hb : Boundary rest) (h : lexInt s = some (a, r)) :
    lexInt (s ++ rest) = some (a, r ++ rest) := by
  cases s with
  | nil => simp [lexInt] at h
  | cons d s =>
    simp only [lexInt] at h
    simp only [List.cons_append, lexInt]
    by_cases h0 : d = 0x30
    · simp [h0] at h ⊢
      obtain ⟨h1, h2⟩ := h
      subst h1 h2
      simp
    · by_cases hd : isDigit d = true
      · simp [h0, hd] at h ⊢
        obtain ⟨h1, h2⟩ := h
        subst h1 h2
        simp [spanDigits_append _ _ hb]
      · simp [h0, hd] at h

theorem lexFrac_append (s rest a r : Text) (hb : Boundary rest) (h : lexFrac s = some (a, r)) :
    lexFrac (s ++ rest) = some (a, r ++ rest) := by
  cases s with
  | nil =>
    simp [lexFrac] at h
    obtain ⟨h1, h2⟩ := h
    subst h1 h2
    cases rest with
    | nil => rfl
    | cons c r =>
      have := (hb c rfl).2.1
      simp [lexFrac, this]
  | cons d s =>
    simp only [lexFrac] at h
    simp only [List.cons_append, lexFrac]
    by_cases h0 : d = 0x2E
    · by_cases he : (spanDigits s).1 = []
      · simp [h0, he] at h
      · simp [h0, he] at h ⊢
        obtain ⟨h1, h2⟩ := h
        subst h1 h2
        simp [spanDigits_append _ _ hb, he]
    · simp [h0] at h ⊢
      obtain ⟨h1, h2⟩ := h
      subst h1 h2
      simp

theorem lexExp_append (s rest a r : Text) (hb : Boundary rest) (h : lexExp s = some (a, r)) :
    lexExp (s ++ rest) = some (a, r ++ rest) := by
  cases s with
  | nil =>
    simp [lexExp] at h
    obtain ⟨h1, h2⟩ := h
    subst h1 h2
    cases rest with
    | nil => rfl
    | cons c r =>
      have h1 := (hb c rfl).2.2.1
      have h2 := (hb c rfl).2.2.2
      simp [lexExp, h1, h2]
  | cons d s =>
    simp only [lexExp] at h
    simp only [List.cons_append, lexExp]
    by_cases h0 : d = 0x65 ∨ d = 0x45
    · simp only [h0, if_true] at h ⊢
      cases s with
      | nil => simp at h
      | cons g s1 =>
        simp only [List.cons_append] at h ⊢
        by_cases hg : g = 0x2B ∨ g = 0x2D
        · simp only [hg, if_true] at h ⊢
          by_cases he : (spanDigits s1).1 = []
          · simp [he] at h
          · simp [he] at h
            obtain ⟨h1, h2⟩ := h
            subst h1 h2
            simp [spanDigits_append _ _ hb, he]
        · simp only [hg, if_false] at h ⊢
          by_cases he : (spanDigits (g :: s1)).1 = []
          · simp [he] at h
          · simp [he] at h
            obtain ⟨h1, h2⟩ := h
            subst h1 h2
            have := spanDigits_append (g :: s1) rest hb
            simp only [List.cons_append] at this
            simp [this, he]
    · simp only [h0, if_false] at h ⊢
      simp at h
      obtain ⟨h1, h2⟩ := h
      subst h1 h2
      simp

theorem lexUnsigned_append (s rest a r : Text) (hb : Boundary rest)
    (h : lexUnsigned s = some (a, r)) : lexUnsigned (s ++ rest) = some (a, r ++ rest) := by
  unfold lexUnsigned at h ⊢
  cases hi : lexInt s with
  | none => simp [hi] at h
  | some p =>
    obtain ⟨i, r1⟩ := p
    simp only [hi] at h
    rw [lexInt_append s rest i r1 hb hi]
    simp only
    cases hf : lexFrac r1 with
    | none => simp [hf] at h
    | some p =>
      obtain ⟨f, r2⟩ := p
      simp only [hf] at h
      rw [lexFrac_append r1 rest f r2 hb hf]
      simp only
      cases he : lexExp r2 with
      | none => simp [he] at h
      | some p =>
        obtain ⟨e, r3⟩ := p
        simp only [he] at h
        rw [lexExp_append r2 rest e r3 hb he]
        simp only [Option.some.injEq, Prod.mk.injEq] at h ⊢
        obtain ⟨h1, h2⟩ := h
        subst h1 h2
        simp

theorem lexNumber_append (s rest a r : Text) (hb : Boundary rest)
    (h : lexNumber s = some (a, r)) : lexNumber (s ++ rest) = some (a, r ++ rest) := by
  cases s with
  | nil => simp [lexNumber] at h
  | cons c s =>
    simp only [lexNumber] at h
    simp only [List.cons_append, lexNumber]
    by_cases hc : c = 0x2D
    · simp only [hc, if_true] at h ⊢
      cases hu : lexUnsigned s with
      | none => simp [hu] at h
      | some p =>
        obtain ⟨l, r1⟩ := p
        simp only [hu, Option.some.injEq, Prod.mk.injEq] at h
        rw [lexUnsigned_append s rest l r1 hb hu]
        obtain ⟨h1, h2⟩ := h
        subst h1 h2
        simp
    · simp only [hc, if_false] at h ⊢
      have := lexUnsigned_append (c :: s) rest a r hb h
      simpa using this

theorem lexNumber_literal (t rest : Text) (ht : isNumberLiteral t = true) (hb : Boundary rest) :
    lexNumber (t ++ rest) = some (t, rest) := by
  have h : lexNumber t = some (t, []) := by simpa [isNumberLiteral] using ht
  simpa using lexNumber_append t rest t [] hb h


/-! ### Strings -/

theorem hexVal_hexDigit (n : Nat) (h : n < 16) : hexVal (hexDigit n) = some n := by
  interval_cases n <;> rfl

theorem hex4_unicodeEscape (c : Nat) (h : c < 65536) :
    hex4 (hexDigit (c / 4096 % 16)) (hexDigit (c / 256 % 16)) (hexDigit (c / 16 % 16))
      (hexDigit (c % 16)) = some c := by
  unfold hex4
  rw [hexVal_hexDigit _ (Nat.mod_lt _ (by norm_num)), hexVal_hexDigit _ (Nat.mod_lt _ (by norm_num)),
    hexVal_hexDigit _ (Nat.mod_lt _ (by norm_num)), hexVal_hexDigit _ (Nat.mod_lt _ (by norm_num))]
  show some _ = some c
  congr 1
  omega

theorem parseString_quoteChar (s : Text) : parseString (0x22 :: s) = some ([], s) := by
  rw [parseString.eq_def]; rfl

theorem parseString_u (a b c d : Nat) (s : Text) :
    parseString (0x5C :: 0x75 :: a :: b :: c :: d :: s) =
      match hex4 a b c d with
      | some u => consUnit u (parseString s)
      | none => none := by
  rw [parseString.eq_def]; rfl

theorem parseString_escape (e u : Nat) (s : Text) (h : unescape e = some u) :
    parseString (0x5C :: e :: s) = consUnit u (parseString s) := by
  have he : e ≠ 0x75 := by
    intro h1
    subst h1
    simp [unescape] at h
  rw [parseString.eq_def]
  simp only [show (0x5C : Nat) ≠ 0x22 by decide, if_false, if_true, he, h]

theorem parseString_unicodeEscape (c : Nat) (h : c < 65536) (s : Text) :
    parseString (unicodeEscape c ++ s) = consUnit c (parseString s) := by
  show parseString (0x5C :: 0x75 :: _ :: _ :: _ :: _ :: s) = _
  rw [parseString_u, hex4_unicodeEscape c h]

theorem parseString_plain (c : Nat) (s : Text) (h1 : c ≠ 0x22) (h2 : c ≠ 0x5C) (h3 : ¬ c < 0x20) :
    parseString (c :: s) = consUnit c (parseString s) := by
  rw [parseString.eq_def]
  simp only [h1, h2, h3, if_false]

theorem parseString_quoteUnit (p : Bool) (c : Nat) (nl : Bool) (s : Text) :
    parseString (quoteUnit p c nl ++ s) = consUnit c (parseString s) := by
  unfold quoteUnit
  by_cases h08 : c = 0x08
  · subst h08; exact parseString_escape 0x62 0x08 _ rfl
  by_cases h09 : c = 0x09
  · subst h09; exact parseString_escape 0x74 0x09 _ rfl
  by_cases h0A : c = 0x0A
  · subst h0A; exact parseString_escape 0x6E 0x0A _ rfl
  by_cases h0C : c = 0x0C
  · subst h0C; exact parseString_escape 0x66 0x0C _ rfl
  by_cases h0D : c = 0x0D
  · subst h0D; exact parseString_escape 0x72 0x0D _ rfl
  by_cases h22 : c = 0x22
  · subst h22; exact parseString_escape 0x22 0x22 _ rfl
  by_cases h5C : c = 0x5C
  · subst h5C; exact parseString_escape 0x5C 0x5C _ rfl
  simp only [h08, h09, h0A, h0C, h0D, h22, h5C, if_false]
  by_cases hlt : c < 0x20
  · simp only [hlt, if_true]
    exact parseString_unicodeEscape c (by omega) s
  simp only [hlt, if_false]
  by_cases hhi : isHighSurrogate c = true
  · have hc : c < 65536 := by
      simp [isHighSurrogate] at hhi
      omega
    simp only [hhi, if_true]
    cases nl
    · exact parseString_unicodeEscape c hc s
    · exact parseString_plain c s h22 h5C hlt
  simp only [hhi]
  by_cases hlo : isLowSurrogate c = true
  · have hc : c < 65536 := by
      simp [isLowSurrogate] at hlo
      omega
    simp only [hlo, if_true]
    cases p
    · exact parseString_unicodeEscape c hc s
    · exact parseString_plain c s h22 h5C hlt
  · simp only [hlo]
    exact parseString_plain c s h22 h5C hlt

theorem parseString_quoteFrom (s : Text) : ∀ (p : Bool) (rest : Text),
    parseString (quoteFrom p s ++ 0x22 :: rest) = some (s, rest) := by
  induction s with
  | nil => intro p rest; exact parseString_quoteChar rest
  | cons c s ih =>
    intro p rest
    simp only [quoteFrom, List.append_assoc]
    rw [parseString_quoteUnit, ih]
    rfl

theorem parseString_quote (s rest : Text) :
    parseString (quoteBody s ++ 0x22 :: rest) = some (s, rest) :=
  parseString_quoteFrom s false rest


/-! ### Reading back one serialized value -/

theorem parseValue_ws (fuel : Nat) (ws s : Text) (h : AllWs ws) :
    parseValue fuel (ws ++ s) = parseValue fuel s := by
  cases fuel with
  | zero => rw [parseValue.eq_1, parseValue.eq_1]
  | succ f => rw [parseValue.eq_2, parseValue.eq_2, skipWs_append_of_allWs ws s h]

theorem parseElements_ws (fuel : Nat) (ws s : Text) (h : AllWs ws) :
    parseElements fuel (ws ++ s) = parseElements fuel s := by
  cases fuel with
  | zero => rw [parseElements.eq_1, parseElements.eq_1]
  | succ f => rw [parseElements.eq_2, parseElements.eq_2, parseValue_ws f ws s h]

theorem parseMembers_ws (fuel : Nat) (ws s : Text) (h : AllWs ws) :
    parseMembers fuel (ws ++ s) = parseMembers fuel s := by
  cases fuel with
  | zero => rw [parseMembers.eq_1, parseMembers.eq_1]
  | succ f => rw [parseMembers.eq_2, parseMembers.eq_2, skipWs_append_of_allWs ws s h]

theorem parseValue_null (f : Nat) (rest : Text) :
    parseValue (f + 1) (0x6E :: 0x75 :: 0x6C :: 0x6C :: rest) = some (Json.null, rest) := by
  rw [parseValue.eq_2]; rfl

theorem parseValue_true (f : Nat) (rest : Text) :
    parseValue (f + 1) (0x74 :: 0x72 :: 0x75 :: 0x65 :: rest) = some (Json.bool true, rest) := by
  rw [parseValue.eq_2]; rfl

theorem parseValue_false (f : Nat) (rest : Text) :
    parseValue (f + 1) (0x66 :: 0x61 :: 0x6C :: 0x73 :: 0x65 :: rest)
      = some (Json.bool false, rest) := by
  rw [parseValue.eq_2]; rfl

theorem parseValue_string (f : Nat) (s rest : Text) :
    parseValue (f + 1) (quote s ++ rest) = some (Json.str s, rest) := by
  have h : quote s ++ rest = 0x22 :: (quoteBody s ++ 0x22 :: rest) := by simp [quote]
  rw [h, parseValue.eq_2]
  simp only [skipWs, isJsonWs]
  simp [parseString_quote]

theorem parseValue_emptyArray (f : Nat) (rest : Text) :
    parseValue (f + 1) (0x5B :: 0x5D :: rest) = some (Json.arr [], rest) := by
  rw [parseValue.eq_2]; rfl

theorem parseValue_emptyObject (f : Nat) (rest : Text) :
    parseValue (f + 1) (0x7B :: 0x7D :: rest) = some (Json.obj [], rest) := by
  rw [parseValue.eq_2]; rfl

theorem parseValue_array (f : Nat) (pre body : Text) (hpre : AllWs pre) (hb : ValueStart body) :
    parseValue (f + 1) (0x5B :: (pre ++ body)) =
      match parseElements f body with
      | some (xs, r) => some (Json.arr xs, r)
      | none => none := by
  obtain ⟨d, r1, hbody, hws, h1, _⟩ := hb
  rw [parseValue.eq_2]
  have h0 : skipWs (0x5B :: (pre ++ body)) = 0x5B :: (pre ++ body) :=
    skipWs_cons_of_not_ws _ _ rfl
  rw [h0]
  simp only [show ¬ ((0x5B : Nat) = 0x7B) by decide, if_false, if_true]
  rw [skipWs_append_of_allWs pre body hpre, hbody, skipWs_cons_of_not_ws d r1 hws]
  simp only [h1, if_false]

theorem parseValue_object (f : Nat) (pre body : Text) (hpre : AllWs pre) (hb : ValueStart body) :
    parseValue (f + 1) (0x7B :: (pre ++ body)) =
      match parseMembers f body with
      | some (kvs, r) => some (Json.obj kvs, r)
      | none => none := by
  obtain ⟨d, r1, hbody, hws, _, h1⟩ := hb
  rw [parseValue.eq_2]
  have h0 : skipWs (0x7B :: (pre ++ body)) = 0x7B :: (pre ++ body) :=
    skipWs_cons_of_not_ws _ _ rfl
  rw [h0]
  simp only [if_true]
  rw [skipWs_append_of_allWs pre body hpre, hbody, skipWs_cons_of_not_ws d r1 hws]
  simp only [h1, if_false]

theorem literal_head (t : Text) (ht : isNumberLiteral t = true) :
    ∃ c r, t = c :: r ∧ (c = 0x2D ∨ isDigit c = true) := by
  have h : lexNumber t = some (t, []) := by simpa [isNumberLiteral] using ht
  cases t with
  | nil => simp [lexNumber] at h
  | cons c s =>
    refine ⟨c, s, rfl, ?_⟩
    by_cases hc : c = 0x2D
    · exact Or.inl hc
    · right
      simp only [lexNumber, hc, if_false] at h
      unfold lexUnsigned at h
      cases hi : lexInt (c :: s) with
      | none => simp [hi] at h
      | some p =>
        simp only [lexInt] at hi
        by_cases h0 : c = 0x30
        · subst h0; rfl
        · by_cases hd : isDigit c = true
          · exact hd
          · simp [h0, hd] at hi

theorem parseValue_number (f : Nat) (t rest : Text) (ht : isNumberLiteral t = true)
    (hb : Boundary rest) : parseValue (f + 1) (t ++ rest) = some (Json.num t, rest) := by
  obtain ⟨c, r, htc, hc⟩ := literal_head t ht
  have hlex := lexNumber_literal t rest ht hb
  rw [htc] at hlex ⊢
  rw [List.cons_append] at hlex ⊢
  have hrange : c = 0x2D ∨ (0x30 ≤ c ∧ c ≤ 0x39) := by
    rcases hc with h | h
    · exact Or.inl h
    · right
      simpa [isDigit] using h
  have hws : isJsonWs c = false := by
    simp only [isJsonWs, Bool.or_eq_false_iff, decide_eq_false_iff_not]
    omega
  rw [parseValue.eq_2, skipWs_cons_of_not_ws c _ hws]
  simp only [show c ≠ 0x7B by omega, show c ≠ 0x5B by omega, show c ≠ 0x22 by omega,
    show c ≠ 0x6E by omega, show c ≠ 0x74 by omega, show c ≠ 0x66 by omega, if_false, hlex]


/-! ### Reading back a serialized tree -/

theorem boundary_comma (s : Text) : Boundary (0x2C :: s) :=
  boundary_cons _ _ (by decide)

theorem boundary_ws_close (ws : Text) (c : Nat) (rest : Text) (h : AllWs ws)
    (hc : c = 0x5D ∨ c = 0x7D) : Boundary (ws ++ c :: rest) := by
  cases ws with
  | nil =>
    apply boundary_cons
    rcases hc with h1 | h1 <;> subst h1 <;> decide
  | cons d ds =>
    apply boundary_cons
    have hd : isJsonWs d = true := h d (List.mem_cons_self _ _)
    simp only [isJsonWs, Bool.or_eq_true, decide_eq_true_eq] at hd
    simp only [isDigit, Bool.and_eq_false_iff, decide_eq_false_iff_not]
    omega

theorem numberText_cases (M : NumModel) (n : M.Num) :
    (∃ t, M.toText n = some t ∧ numberText M n = t ∧ isNumberLiteral t = true) ∨
    (M.toText n = none ∧ numberText M n = [0x6E, 0x75, 0x6C, 0x6C]) := by
  unfold numberText
  cases h : M.toText n with
  | none => right; exact ⟨rfl, rfl⟩
  | some t => left; exact ⟨t, rfl, rfl, M.toText_lit n t h⟩

theorem valueStart_serialize (M : NumModel) (gap indent : Text) (w : Json M.Num) (rest : Text) :
    ValueStart (serialize M gap indent w ++ rest) := by
  cases w with
  | null => exact ⟨0x6E, _, rfl, rfl, by decide, by decide⟩
  | bool b => cases b <;> exact ⟨_, _, rfl, rfl, by decide, by decide⟩
  | num n =>
    simp only [serialize]
    rcases numberText_cases M n with ⟨t, _, h2, h3⟩ | ⟨_, h2⟩
    · obtain ⟨c, r, htc, hc⟩ := literal_head t h3
      rw [h2, htc]
      refine ⟨c, r ++ rest, rfl, ?_, ?_, ?_⟩
      all_goals
        rcases hc with h | h
        · subst h; decide
        · simp only [isDigit, Bool.and_eq_true, decide_eq_true_eq] at h
          first
            | (simp only [isJsonWs, Bool.or_eq_false_iff, decide_eq_false_iff_not]; omega)
            | omega
    · rw [h2]
      exact ⟨0x6E, _, rfl, rfl, by decide, by decide⟩
  | str s => exact ⟨0x22, _, rfl, rfl, by decide, by decide⟩
  | arr xs =>
    cases xs with
    | nil => exact ⟨0x5B, _, rfl, rfl, by decide, by decide⟩
    | cons x xs =>
      simp only [serialize]
      by_cases hg : gap = []
      · simp only [hg, if_true]
        exact ⟨0x5B, _, rfl, rfl, by decide, by decide⟩
      · simp only [hg, if_false]
        exact ⟨0x5B, _, rfl, rfl, by decide, by decide⟩
  | obj kvs =>
    cases kvs with
    | nil => exact ⟨0x7B, _, rfl, rfl, by decide, by decide⟩
    | cons x xs =>
      simp only [serialize]
      by_cases hg : gap = []
      · simp only [hg, if_true]
        exact ⟨0x7B, _, rfl, rfl, by decide, by decide⟩
      · simp only [hg, if_false]
        exact ⟨0x7B, _, rfl, rfl, by decide, by decide⟩

theorem valueStart_serializeElems (M : NumModel) (gap indent : Text) (x : Json M.Num)
    (xs : List (Json M.Num)) (rest : Text) :
    ValueStart (serializeElems M gap indent (x :: xs) ++ rest) := by
  cases xs with
  | nil =>
    simp only [serializeElems]
    exact valueStart_serialize M gap indent x rest
  | cons y ys =>
    simp only [serializeElems, List.append_assoc]
    exact valueStart_serialize M gap indent x _

theorem valueStart_serializeMembers (M : NumModel) (gap indent : Text) (m : Text × Json M.Num)
    (ms : List (Text × Json M.Num)) (rest : Text) :
    ValueStart (serializeMembers M gap indent (m :: ms) ++ rest) := by
  obtain ⟨k, v⟩ := m
  cases ms with
  | nil =>
    simp only [serializeMembers, List.append_assoc]
    exact ⟨0x22, _, rfl, rfl, by decide, by decide⟩
  | cons y ys =>
    simp only [serializeMembers, List.append_assoc]
    exact ⟨0x22, _, rfl, rfl, by decide, by decide⟩


theorem skipWs_comma (s : Text) : skipWs (0x2C :: s) = 0x2C :: s := rfl

theorem skipWs_closeBracket (s : Text) : skipWs (0x5D :: s) = 0x5D :: s := rfl

theorem skipWs_closeBrace (s : Text) : skipWs (0x7D :: s) = 0x7D :: s := rfl

theorem skipWs_quoteChar (s : Text) : skipWs (0x22 :: s) = 0x22 :: s := rfl

theorem skipWs_colon (s : Text) : skipWs (0x3A :: s) = 0x3A :: s := rfl

theorem allWs_newline_indent {indent : Text} (h : AllWs indent) : AllWs (0x0A :: indent) :=
  allWs_cons rfl h

mutual
theorem parseValue_serialize (M : NumModel) (gap : Text) (hgap : AllWs gap) :
    ∀ (w : Json M.Num) (indent rest : Text) (fuel : Nat), AllWs indent → Boundary rest →
      cost w ≤ fuel →
      parseValue fuel (serialize M gap indent w ++ rest) = some (syn M w, rest)
  | Json.null, indent, rest, fuel, _, _, hf => by
    obtain ⟨f, rfl⟩ : ∃ f, fuel = f + 1 := ⟨fuel - 1, by simp only [cost] at hf; omega⟩
    exact parseValue_null f rest
  | Json.bool b, indent, rest, fuel, _, _, hf => by
    obtain ⟨f, rfl⟩ : ∃ f, fuel = f + 1 := ⟨fuel - 1, by simp only [cost] at hf; omega⟩
    cases b
    · exact parseValue_false f rest
    · exact parseValue_true f rest
  | Json.num n, indent, rest, fuel, _, hb, hf => by
    obtain ⟨f, rfl⟩ : ∃ f, fuel = f + 1 := ⟨fuel - 1, by simp only [cost] at hf; omega⟩
    simp only [serialize, syn]
    rcases numberText_cases M n with ⟨t, h1, h2, h3⟩ | ⟨h1, h2⟩
    · rw [h2, h1]
      exact parseValue_number f t rest h3 hb
    · rw [h2, h1]
      exact parseValue_null f rest
  | Json.str s, indent, rest, fuel, _, _, hf => by
    obtain ⟨f, rfl⟩ : ∃ f, fuel = f + 1 := ⟨fuel - 1, by simp only [cost] at hf; omega⟩
    exact parseValue_string f s rest
  | Json.arr [], indent, rest, fuel, _, _, hf => by
    obtain ⟨f, rfl⟩ : ∃ f, fuel = f + 1 := ⟨fuel - 1, by simp only [cost] at hf; omega⟩
    exact parseValue_emptyArray f rest
  | Json.arr (x :: xs), indent, rest, fuel, hi, _, hf => by
    obtain ⟨f, rfl⟩ : ∃ f, fuel = f + 1 := ⟨fuel - 1, by simp only [cost] at hf; omega⟩
    have hf1 : costList (x :: xs) ≤ f := by simp only [cost] at hf; omega
    simp only [serialize, syn]
    by_cases hg : gap = []
    · simp only [hg, if_true]
      have h := parseElements_serialize M gap hgap (x :: xs) (indent ++ gap) [] rest f
        (List.cons_ne_nil _ _) (allWs_append hi hgap) allWs_nil hf1
      have hs := valueStart_serializeElems M gap (indent ++ gap) x xs ([] ++ 0x5D :: rest)
      have := parseValue_array f [] _ allWs_nil hs
      simp only [hg, List.append_nil, List.nil_append, List.cons_append, List.append_assoc]
        at this h ⊢
      rw [this, h]
    · simp only [hg, if_false]
      have h := parseElements_serialize M gap hgap (x :: xs) (indent ++ gap) (0x0A :: indent)
        rest f (List.cons_ne_nil _ _) (allWs_append hi hgap) (allWs_newline_indent hi) hf1
      have hs := valueStart_serializeElems M gap (indent ++ gap) x xs
        ((0x0A :: indent) ++ 0x5D :: rest)
      have := parseValue_array f (0x0A :: (indent ++ gap)) _
        (allWs_newline_indent (allWs_append hi hgap)) hs
      simp only [List.append_nil, List.nil_append, List.cons_append, List.append_assoc]
        at this h ⊢
      rw [this, h]
  | Json.obj [], indent, rest, fuel, _, _, hf => by
    obtain ⟨f, rfl⟩ : ∃ f, fuel = f + 1 := ⟨fuel - 1, by simp only [cost] at hf; omega⟩
    exact parseValue_emptyObject f rest
  | Json.obj (m :: ms), indent, rest, fuel, hi, _, hf => by
    obtain ⟨f, rfl⟩ : ∃ f, fuel = f + 1 := ⟨fuel - 1, by simp only [cost] at hf; omega⟩
    have hf1 : costMembers (m :: ms) ≤ f := by simp only [cost] at hf; omega
    simp only [serialize, syn]
    by_cases hg : gap = []
    · simp only [hg, if_true]
      have h := parseMembers_serialize M gap hgap (m :: ms) (indent ++ gap) [] rest f
        (List.cons_ne_nil _ _) (allWs_append hi hgap) allWs_nil hf1
      have hs := valueStart_serializeMembers M gap (indent ++ gap) m ms ([] ++ 0x7D :: rest)
      have := parseValue_object f [] _ allWs_nil hs
      simp only [hg, List.append_nil, List.nil_append, List.cons_append, List.append_assoc]
        at this h ⊢
      rw [this, h]
    · simp only [hg, if_false]
      have h := parseMembers_serialize M gap hgap (m :: ms) (indent ++ gap) (0x0A :: indent)
        rest f (List.cons_ne_nil _ _) (allWs_append hi hgap) (allWs_newline_indent hi) hf1
      have hs := valueStart_serializeMembers M gap (indent ++ gap) m ms
        ((0x0A :: indent) ++ 0x7D :: rest)
      have := parseValue_object f (0x0A :: (indent ++ gap)) _
        (allWs_newline_indent (allWs_append hi hgap)) hs
      simp only [List.append_nil, List.nil_append, List.cons_append, List.append_assoc]
        at this h ⊢
      rw [this, h]
theorem parseElements_serialize (M : NumModel) (gap : Text) (hgap : AllWs gap) :
    ∀ (xs : List (Json M.Num)) (indent tailWs rest : Text) (fuel : Nat), xs ≠ [] →
      AllWs indent → AllWs tailWs → costList xs ≤ fuel →
      parseElements fuel (serializeElems M gap indent xs ++ (tailWs ++ 0x5D :: rest))
        = some (synList M xs, rest)
  | [], _, _, _, _, hne, _, _, _ => absurd rfl hne
  | [x], indent, tailWs, rest, fuel, _, hi, ht, hf => by
    obtain ⟨f, rfl⟩ : ∃ f, fuel = f + 1 := ⟨fuel - 1, by simp only [costList] at hf; omega⟩
    have hf1 : cost x ≤ f := by simp only [costList] at hf; omega
    have hv := parseValue_serialize M gap hgap x indent (tailWs ++ 0x5D :: rest) f hi
      (boundary_ws_close tailWs _ rest ht (Or.inl rfl)) hf1
    simp only [serializeElems, synList]
    rw [parseElements.eq_2, hv]
    simp only
    rw [skipWs_append_of_allWs tailWs _ ht, skipWs_closeBracket]
    simp
  | x :: y :: ys, indent, tailWs, rest, fuel, _, hi, ht, hf => by
    obtain ⟨f, rfl⟩ : ∃ f, fuel = f + 1 := ⟨fuel - 1, by simp only [costList] at hf; omega⟩
    have hf1 : cost x ≤ f := by simp only [costList] at hf; omega
    have hf2 : costList (y :: ys) ≤ f := by simp only [costList] at hf ⊢; omega
    have ih := parseElements_serialize M gap hgap (y :: ys) indent tailWs rest f
      (List.cons_ne_nil _ _) hi ht hf2
    simp only [serializeElems, synList, List.append_assoc]
    by_cases hg : gap = []
    · simp only [hg, if_true, List.cons_append, List.nil_append]
      have hv := parseValue_serialize M gap hgap x indent
        (0x2C :: (serializeElems M gap indent (y :: ys) ++ (tailWs ++ 0x5D :: rest))) f hi
        (boundary_comma _) hf1
      simp only [hg] at hv ih
      rw [parseElements.eq_2, hv]
      simp only
      rw [skipWs_comma]
      simp only [if_true, ih]
      simp [synList]
    · simp only [hg, if_false, List.cons_append]
      have hv := parseValue_serialize M gap hgap x indent
        (0x2C :: 0x0A :: (indent ++ (serializeElems M gap indent (y :: ys)
          ++ (tailWs ++ 0x5D :: rest)))) f hi (boundary_comma _) hf1
      rw [parseElements.eq_2, hv]
      simp only
      rw [skipWs_comma]
      simp only [if_true]
      have hws := parseElements_ws f (0x0A :: indent)
        (serializeElems M gap indent (y :: ys) ++ (tailWs ++ 0x5D :: rest))
        (allWs_newline_indent hi)
      simp only [List.cons_append] at hws
      rw [hws, ih]
      simp [synList]
theorem parseMembers_serialize (M : NumModel) (gap : Text) (hgap : AllWs gap) :
    ∀ (ms : List (Text × Json M.Num)) (indent tailWs rest : Text) (fuel : Nat), ms ≠ [] →
      AllWs indent → AllWs tailWs → costMembers ms ≤ fuel →
      parseMembers fuel (serializeMembers M gap indent ms ++ (tailWs ++ 0x7D :: rest))
        = some (synMembers M ms, rest)
  | [], _, _, _, _, hne, _, _, _ => absurd rfl hne
  | [(k, v)], indent, tailWs, rest, fuel, _, hi, ht, hf => by
    obtain ⟨f, rfl⟩ : ∃ f, fuel = f + 1 := ⟨fuel - 1, by simp only [costMembers] at hf; omega⟩
    have hf1 : cost v ≤ f := by simp only [costMembers] at hf; omega
    have hv := parseValue_serialize M gap hgap v indent (tailWs ++ 0x7D :: rest) f hi
      (boundary_ws_close tailWs _ rest ht (Or.inr rfl)) hf1
    simp only [serializeMembers, synMembers, List.append_assoc]
    rw [parseMembers.eq_2]
    have hq : ∀ t : Text, quote k ++ t = 0x22 :: (quoteBody k ++ 0x22 :: t) := by
      intro t; simp [quote]
    rw [hq, skipWs_quoteChar]
    simp only [if_true, parseString_quote]
    by_cases hg : gap = []
    · simp only [hg, if_true, List.cons_append, List.nil_append]
      simp only [hg] at hv
      rw [skipWs_colon]
      simp only [if_true, hv]
      rw [skipWs_append_of_allWs tailWs _ ht, skipWs_closeBrace]
      simp
    · simp only [hg, if_false, List.cons_append, List.nil_append]
      rw [skipWs_colon]
      simp only [if_true]
      have hws := parseValue_ws f [0x20]
        (serialize M gap indent v ++ (tailWs ++ 0x7D :: rest)) (allWs_cons rfl allWs_nil)
      simp only [List.cons_append, List.nil_append] at hws
      rw [hws, hv]
      simp only
      rw [skipWs_append_of_allWs tailWs _ ht, skipWs_closeBrace]
      simp
  | (k, v) :: (k2, v2) :: ms, indent, tailWs, rest, fuel, _, hi, ht, hf => by
    obtain ⟨f, rfl⟩ : ∃ f, fuel = f + 1 := ⟨fuel - 1, by simp only [costMembers] at hf; omega⟩
    have hf1 : cost v ≤ f := by simp only [costMembers] at hf; omega
    have hf2 : costMembers ((k2, v2) :: ms) ≤ f := by simp only [costMembers] at hf ⊢; omega
    have ih := parseMembers_serialize M gap hgap ((k2, v2) :: ms) indent tailWs rest f
      (List.cons_ne_nil _ _) hi ht hf2
    simp only [serializeMembers, synMembers, List.append_assoc]
    rw [parseMembers.eq_2]
    have hq : ∀ t : Text, quote k ++ t = 0x22 :: (quoteBody k ++ 0x22 :: t) := by
      intro t; simp [quote]
    rw [hq, skipWs_quoteChar]
    simp only [if_true, parseString_quote]
    by_cases hg : gap = []
    · simp only [hg, if_true, List.cons_append, List.nil_append]
      have hv := parseValue_serialize M gap hgap v indent
        (0x2C :: (serializeMembers M gap indent ((k2, v2) :: ms) ++ (tailWs ++ 0x7D :: rest))) f hi
        (boundary_comma _) hf1
      simp only [hg] at hv ih
      rw [skipWs_colon]
      simp only [if_true, hv]
      rw [skipWs_comma]
      simp only [if_true, ih]
      rfl
    · simp only [hg, if_false, List.cons_append, List.nil_append]
      have hv := parseValue_serialize M gap hgap v indent
        (0x2C :: 0x0A :: (indent ++ (serializeMembers M gap indent ((k2, v2) :: ms)
          ++ (tailWs ++ 0x7D :: rest)))) f hi (boundary_comma _) hf1
      rw [skipWs_colon]
      simp only [if_true]
      have hws := parseValue_ws f [0x20]
        (serialize M gap indent v ++ 0x2C :: 0x0A :: (indent ++
          (serializeMembers M gap indent ((k2, v2) :: ms) ++ (tailWs ++ 0x7D :: rest))))
        (allWs_cons rfl allWs_nil)
      simp only [List.cons_append, List.nil_append] at hws
      rw [hws, hv]
      simp only
      rw [skipWs_comma]
      simp only [if_true]
      have hws2 := parseMembers_ws f (0x0A :: indent)
        (serializeMembers M gap indent ((k2, v2) :: ms) ++ (tailWs ++ 0x7D :: rest))
        (allWs_newline_indent hi)
      simp only [List.cons_append] at hws2
      rw [hws2, ih]
      rfl
end


/-! ### The fuel of `JSON.parse` is enough for a serialized tree -/

theorem numberText_length_pos (M : NumModel) (n : M.Num) : 1 ≤ (numberText M n).length := by
  rcases numberText_cases M n with ⟨t, _, h2, h3⟩ | ⟨_, h2⟩
  · obtain ⟨c, r, htc, _⟩ := literal_head t h3
    rw [h2, htc]
    simp
  · rw [h2]
    simp

mutual
theorem cost_le_length (M : NumModel) (gap : Text) :
    ∀ (w : Json M.Num) (indent : Text), cost w ≤ (serialize M gap indent w).length
  | Json.null, _ => by simp [cost, serialize]
  | Json.bool b, _ => by cases b <;> simp [cost, serialize]
  | Json.num n, _ => by
    simp only [cost, serialize]
    exact numberText_length_pos M n
  | Json.str s, _ => by simp [cost, serialize, quote]
  | Json.arr [], _ => by simp [cost, costList, serialize]
  | Json.arr (x :: xs), indent => by
    have h := costList_le_length M gap (x :: xs) (indent ++ gap)
    simp only [cost, serialize]
    by_cases hg : gap = []
    · simp only [hg, if_true, List.length_cons, List.length_append, List.length_nil] at h ⊢
      omega
    · simp only [hg, if_false, List.length_cons, List.length_append, List.length_nil] at h ⊢
      omega
  | Json.obj [], _ => by simp [cost, costMembers, serialize]
  | Json.obj (m :: ms), indent => by
    have h := costMembers_le_length M gap (m :: ms) (indent ++ gap)
    simp only [cost, serialize]
    by_cases hg : gap = []
    · simp only [hg, if_true, List.length_cons, List.length_append, List.length_nil] at h ⊢
      omega
    · simp only [hg, if_false, List.length_cons, List.length_append, List.length_nil] at h ⊢
      omega
theorem costList_le_length (M : NumModel) (gap : Text) :
    ∀ (xs : List (Json M.Num)) (indent : Text),
      costList xs ≤ (serializeElems M gap indent xs).length + 1
  | [], _ => by simp [costList]
  | [x], indent => by
    have h := cost_le_length M gap x indent
    simp only [costList, serializeElems]
    omega
  | x :: y :: ys, indent => by
    have h1 := cost_le_length M gap x indent
    have h2 := costList_le_length M gap (y :: ys) indent
    simp only [costList, serializeElems, List.length_append] at h2 ⊢
    by_cases hg : gap = []
    · simp only [hg, if_true, List.length_cons, List.length_nil] at h1 h2 ⊢
      omega
    · simp only [hg, if_false, List.length_cons] at h1 h2 ⊢
      omega
theorem costMembers_le_length (M : NumModel) (gap : Text) :
    ∀ (ms : List (Text × Json M.Num)) (indent : Text),
      costMembers ms ≤ (serializeMembers M gap indent ms).length + 1
  | [], _ => by simp [costMembers]
  | [(k, v)], indent => by
    have h := cost_le_length M gap v indent
    simp only [costMembers, serializeMembers, List.length_append]
    omega
  | (k, v) :: (k2, v2) :: ms, indent => by
    have h1 := cost_le_length M gap v indent
    have h2 := costMembers_le_length M gap ((k2, v2) :: ms) indent
    simp only [costMembers, serializeMembers, List.length_append] at h2 ⊢
    have h3 : 1 ≤ (quote k).length := by simp [quote]
    omega
end

/-- Reading a serialized value with `JSON.parse` gives its parse tree. -/
theorem parseSyntax_serialize (M : NumModel) (gap : Text) (hgap : AllWs gap) (w : Json M.Num) :
    parseSyntax (serialize M gap [] w) = some (syn M w) := by
  have hc := cost_le_length M gap w []
  have h := parseValue_serialize M gap hgap w [] [] ((serialize M gap [] w).length + 1)
    allWs_nil boundary_nil (by omega)
  rw [List.append_nil] at h
  unfold parseSyntax
  rw [h]
  rfl


/-! ### Property lists -/

theorem keys_eq_map {α : Type} (o : List (Text × α)) : keys o = o.map Prod.fst := by
  induction o with
  | nil => rfl
  | cons p rest ih =>
    obtain ⟨k, v⟩ := p
    simp [keys, ih]

theorem keys_append_singleton {α : Type} (o : List (Text × α)) (k : Text) (v : α) :
    keys (o ++ [(k, v)]) = keys o ++ [k] := by
  simp [keys_eq_map]

theorem hasKey_iff {α : Type} (k : Text) (o : List (Text × α)) :
    hasKey k o = true ↔ k ∈ keys o := by
  induction o with
  | nil => simp [hasKey, keys]
  | cons p rest ih =>
    obtain ⟨k1, v1⟩ := p
    simp only [hasKey, keys, List.map_cons, List.mem_cons, Bool.or_eq_true, decide_eq_true_eq]
    simp only [keys] at ih
    rw [ih]
    constructor
    · rintro (h | h)
      · exact Or.inl h.symm
      · exact Or.inr h
    · rintro (h | h)
      · exact Or.inl h.symm
      · exact Or.inr h

theorem keys_replaceProp {α : Type} (k : Text) (v : α) (o : List (Text × α)) :
    keys (replaceProp k v o) = keys o := by
  induction o with
  | nil => rfl
  | cons p rest ih =>
    obtain ⟨k1, v1⟩ := p
    simp only [replaceProp]
    by_cases h : k1 = k
    · simp [h, keys]
    · simp only [h, if_false, keys, List.map_cons] at ih ⊢
      rw [ih]

theorem keys_insertIndex_perm {α : Type} (i : Nat) (k : Text) (v : α) (o : List (Text × α)) :
    (keys (insertIndex i k v o)).Perm (k :: keys o) := by
  induction o with
  | nil => simp [insertIndex, keys]
  | cons p rest ih =>
    obtain ⟨k1, v1⟩ := p
    simp only [insertIndex]
    cases h : arrayIndex k1 with
    | none => simp [keys]
    | some j =>
      simp only
      by_cases hij : i < j
      · simp [hij, keys]
      · simp only [hij, if_false, keys, List.map_cons] at ih ⊢
        exact (List.Perm.cons k1 ih).trans (List.Perm.swap k k1 _)

theorem keyBefore_of_index_none (a b : Text) (i : Nat) (ha : arrayIndex a = some i)
    (hb : arrayIndex b = none) : keyBefore a b = true := by
  simp [keyBefore, ha, hb]

theorem keyBefore_none_right (a b : Text) (hb : arrayIndex b = none) : keyBefore a b = true := by
  unfold keyBefore
  cases arrayIndex a <;> simp [hb]

theorem pairwise_keys_insertIndex {α : Type} (i : Nat) (k : Text) (v : α)
    (hk : arrayIndex k = some i) (o : List (Text × α))
    (h : (keys o).Pairwise (fun a b => keyBefore a b = true)) :
    (keys (insertIndex i k v o)).Pairwise (fun a b => keyBefore a b = true) := by
  induction o with
  | nil => simp [insertIndex, keys]
  | cons p rest ih =>
    obtain ⟨k1, v1⟩ := p
    simp only [keys, List.map_cons, List.pairwise_cons] at h
    obtain ⟨h1, h2⟩ := h
    simp only [insertIndex]
    cases hj : arrayIndex k1 with
    | none =>
      simp only [keys, List.map_cons, List.pairwise_cons, List.mem_cons]
      refine ⟨?_, h1, h2⟩
      rintro x (hx | hx)
      · subst hx
        exact keyBefore_of_index_none k x i hk hj
      · have hb := h1 x hx
        cases hx2 : arrayIndex x with
        | none => exact keyBefore_of_index_none k x i hk hx2
        | some j => simp [keyBefore, hj, hx2] at hb
    | some j =>
      simp only
      by_cases hij : i < j
      · simp only [hij, if_true, keys, List.map_cons, List.pairwise_cons, List.mem_cons]
        refine ⟨?_, h1, h2⟩
        rintro x (hx | hx)
        · subst hx
          simp only [keyBefore, hk, hj, decide_eq_true_eq]
          omega
        · have hb := h1 x hx
          cases hx2 : arrayIndex x with
          | none => exact keyBefore_of_index_none k x i hk hx2
          | some j2 =>
            simp only [keyBefore, hj, hx2, decide_eq_true_eq] at hb
            simp only [keyBefore, hk, hx2, decide_eq_true_eq]
            omega
      · simp only [hij, if_false, keys, List.map_cons, List.pairwise_cons]
        refine ⟨?_, ih h2⟩
        intro x hx
        have hx' : x ∈ k :: keys rest := (keys_insertIndex_perm i k v rest).subset hx
        rcases List.mem_cons.mp hx' with hx1 | hx1
        · subst hx1
          simp only [keyBefore, hk, hj, decide_eq_true_eq]
          omega
        · exact h1 x hx1

theorem keys_addProp_perm {α : Type} (o : List (Text × α)) (k : Text) (v : α) :
    (keys (addProp o k v)).Perm (k :: keys o) := by
  unfold addProp
  cases h : arrayIndex k with
  | none =>
    rw [keys_append_singleton]
    exact List.perm_append_singleton k _
  | some i => exact keys_insertIndex_perm i k v o

theorem jsOrdered_addProp {α : Type} (o : List (Text × α)) (k : Text) (v : α)
    (hk : k ∉ keys o) (h : JsOrdered (keys o)) : JsOrdered (keys (addProp o k v)) := by
  obtain ⟨hnd, hpw⟩ := h
  constructor
  · exact (keys_addProp_perm o k v).nodup_iff.mpr (List.nodup_cons.mpr ⟨hk, hnd⟩)
  · unfold addProp
    cases hi : arrayIndex k with
    | none =>
      rw [keys_append_singleton, List.pairwise_append]
      refine ⟨hpw, List.pairwise_singleton _ _, ?_⟩
      intro a _ b hb
      simp only [List.mem_singleton] at hb
      subst hb
      exact keyBefore_none_right a b hi
    | some i => exact pairwise_keys_insertIndex i k v hi o hpw

theorem jsOrdered_defineProp {α : Type} (o : List (Text × α)) (k : Text) (v : α)
    (h : JsOrdered (keys o)) : JsOrdered (keys (defineProp o k v)) := by
  unfold defineProp
  by_cases hk : hasKey k o = true
  · simp only [hk, if_true, keys_replaceProp]
    exact h
  · simp only [hk]
    exact jsOrdered_addProp o k v (fun hmem => hk ((hasKey_iff k o).mpr hmem)) h

theorem jsOrdered_nil : JsOrdered [] := ⟨List.nodup_nil, List.Pairwise.nil⟩

theorem jsOrdered_buildPropsFrom {α : Type} (ms : List (Text × α)) :
    ∀ (o : List (Text × α)), JsOrdered (keys o) → JsOrdered (keys (buildPropsFrom o ms)) := by
  induction ms with
  | nil => intro o h; exact h
  | cons m ms ih =>
    intro o h
    obtain ⟨k, v⟩ := m
    simp only [buildPropsFrom]
    exact ih _ (jsOrdered_defineProp o k v h)

theorem jsOrdered_buildProps {α : Type} (ms : List (Text × α)) :
    JsOrdered (keys (buildProps ms)) :=
  jsOrdered_buildPropsFrom ms [] jsOrdered_nil

theorem insertIndex_eq_append {α : Type} (i : Nat) (k : Text) (v : α) (o : List (Text × α))
    (hk : arrayIndex k = some i) (h : ∀ a ∈ keys o, keyBefore a k = true) :
    insertIndex i k v o = o ++ [(k, v)] := by
  induction o with
  | nil => rfl
  | cons p rest ih =>
    obtain ⟨k1, v1⟩ := p
    have h1 := h k1 (by simp [keys])
    have h2 : ∀ a ∈ keys rest, keyBefore a k = true := by
      intro a ha
      exact h a (by simp only [keys, List.map_cons, List.mem_cons] at ha ⊢; exact Or.inr ha)
    simp only [insertIndex]
    cases hj : arrayIndex k1 with
    | none => simp [keyBefore, hj, hk] at h1
    | some j =>
      simp only [keyBefore, hj, hk, decide_eq_true_eq] at h1
      have : ¬ i < j := by omega
      simp only [this, if_false, List.cons_append, ih h2]

theorem defineProp_eq_append {α : Type} (o : List (Text × α)) (k : Text) (v : α)
    (h : JsOrdered (keys (o ++ [(k, v)]))) : defineProp o k v = o ++ [(k, v)] := by
  obtain ⟨hnd, hpw⟩ := h
  rw [keys_append_singleton] at hnd hpw
  have hk : k ∉ keys o := by
    intro hmem
    have := (List.nodup_append.mp hnd).2.2
    exact this hmem (List.mem_singleton_self k)
  have hb : ∀ a ∈ keys o, keyBefore a k = true := by
    intro a ha
    exact (List.pairwise_append.mp hpw).2.2 a ha k (List.mem_singleton_self k)
  unfold defineProp
  have hk' : ¬ hasKey k o = true := fun hh => hk ((hasKey_iff k o).mp hh)
  simp only [hk']
  unfold addProp
  cases hi : arrayIndex k with
  | none => rfl
  | some i => exact insertIndex_eq_append i k v o hi hb

theorem buildPropsFrom_eq {α : Type} (rest : List (Text × α)) :
    ∀ (acc : List (Text × α)), JsOrdered (keys (acc ++ rest)) →
      buildPropsFrom acc rest = acc ++ rest := by
  induction rest with
  | nil => intro acc _; simp [buildPropsFrom]
  | cons m rest ih =>
    intro acc h
    obtain ⟨k, v⟩ := m
    have hpre : JsOrdered (keys (acc ++ [(k, v)])) := by
      obtain ⟨hnd, hpw⟩ := h
      have e : keys (acc ++ (k, v) :: rest) = keys (acc ++ [(k, v)]) ++ keys rest := by
        simp [keys_eq_map]
      rw [e] at hnd hpw
      exact ⟨(List.nodup_append.mp hnd).1, (List.pairwise_append.mp hpw).1⟩
    simp only [buildPropsFrom]
    rw [defineProp_eq_append acc k v hpre, ih (acc ++ [(k, v)]) (by simpa using h)]
    simp

/-- Defining the properties of a plain object again, in its own enumeration
order, builds the same object. -/
theorem buildProps_eq_self {α : Type} (o : List (Text × α)) (h : JsOrdered (keys o)) :
    buildProps o = o := by
  have := buildPropsFrom_eq o [] (by simpa using h)
  simpa [buildProps] using this

/-! ### `JSON.parse` builds well-formed values -/

theorem mem_replaceProp {α : Type} (k : Text) (v : α) (o : List (Text × α)) (p : Text × α)
    (h : p ∈ replaceProp k v o) : p = (k, v) ∨ p ∈ o := by
  induction o with
  | nil => simp [replaceProp] at h
  | cons q rest ih =>
    obtain ⟨k1, v1⟩ := q
    simp only [replaceProp] at h
    by_cases hk : k1 = k
    · simp only [hk, if_true, List.mem_cons] at h
      rcases h with h | h
      · exact Or.inl h
      · exact Or.inr (List.mem_cons_of_mem _ h)
    · simp only [hk, if_false, List.mem_cons] at h
      rcases h with h | h
      · exact Or.inr (h ▸ List.mem_cons_self _ _)
      · rcases ih h with h1 | h1
        · exact Or.inl h1
        · exact Or.inr (List.mem_cons_of_mem _ h1)

theorem mem_insertIndex {α : Type} (i : Nat) (k : Text) (v : α) (o : List (Text × α))
    (p : Text × α) (h : p ∈ insertIndex i k v o) : p = (k, v) ∨ p ∈ o := by
  induction o with
  | nil => simpa [insertIndex] using h
  | cons q rest ih =>
    obtain ⟨k1, v1⟩ := q
    simp only [insertIndex] at h
    cases hj : arrayIndex k1 with
    | none =>
      simp only [hj, List.mem_cons] at h
      rcases h with h | h | h
      · exact Or.inl h
      · exact Or.inr (h ▸ List.mem_cons_self _ _)
      · exact Or.inr (List.mem_cons_of_mem _ h)
    | some j =>
      simp only [hj] at h
      by_cases hij : i < j
      · simp only [hij, if_true, List.mem_cons] at h
        rcases h with h | h | h
        · exact Or.inl h
        · exact Or.inr (h ▸ List.mem_cons_self _ _)
        · exact Or.inr (List.mem_cons_of_mem _ h)
      · simp only [hij, if_false, List.mem_cons] at h
        rcases h with h | h
        · exact Or.inr (h ▸ List.mem_cons_self _ _)
        · rcases ih h with h1 | h1
          · exact Or.inl h1
          · exact Or.inr (List.mem_cons_of_mem _ h1)

theorem mem_addProp {α : Type} (o : List (Text × α)) (k : Text) (v : α) (p : Text × α)
    (h : p ∈ addProp o k v) : p = (k, v) ∨ p ∈ o := by
  unfold addProp at h
  cases hi : arrayIndex k with
  | none =>
    simp only [hi, List.mem_append, List.mem_singleton] at h
    exact h.symm
  | some i =>
    simp only [hi] at h
    exact mem_insertIndex i k v o p h

theorem mem_defineProp {α : Type} (o : List (Text × α)) (k : Text) (v : α) (p : Text × α)
    (h : p ∈ defineProp o k v) : p = (k, v) ∨ p ∈ o := by
  unfold defineProp at h
  by_cases hk : hasKey k o = true
  · simp only [hk, if_true] at h
    exact mem_replaceProp k v o p h
  · simp only [hk] at h
    exact mem_addProp o k v p h

theorem mem_buildPropsFrom {α : Type} (ms : List (Text × α)) (p : Text × α) :
    ∀ (o : List (Text × α)), p ∈ buildPropsFrom o ms → p ∈ o ∨ p ∈ ms := by
  induction ms with
  | nil => intro o h; exact Or.inl h
  | cons m ms ih =>
    intro o h
    obtain ⟨k, v⟩ := m
    simp only [buildPropsFrom] at h
    rcases ih _ h with h1 | h1
    · rcases mem_defineProp o k v p h1 with h2 | h2
      · exact Or.inr (h2 ▸ List.mem_cons_self _ _)
      · exact Or.inl h2
    · exact Or.inr (List.mem_cons_of_mem _ h1)

theorem mem_buildProps {α : Type} (ms : List (Text × α)) (p : Text × α)
    (h : p ∈ buildProps ms) : p ∈ ms := by
  rcases mem_buildPropsFrom ms p [] h with h1 | h1
  · cases h1
  · exact h1

theorem wellFormedMembers_iff {ν : Type} (kvs : List (Text × Json ν)) :
    WellFormedMembers kvs ↔ ∀ p ∈ kvs, WellFormed p.2 := by
  induction kvs with
  | nil => simp [WellFormedMembers]
  | cons q rest ih =>
    obtain ⟨k, v⟩ := q
    simp only [WellFormedMembers, List.mem_cons, forall_eq_or_imp, ih]

mutual
theorem wellFormed_internalize (M : NumModel) : ∀ (t : Json Text), WellFormed (internalize M t)
  | Json.null => by simp [internalize, WellFormed]
  | Json.bool _ => by simp [internalize, WellFormed]
  | Json.num _ => by simp [internalize, WellFormed]
  | Json.str _ => by simp [internalize, WellFormed]
  | Json.arr xs => by
    simp only [internalize, WellFormed]
    exact wellFormed_internalizeList M xs
  | Json.obj ms => by
    simp only [internalize, WellFormed]
    refine ⟨jsOrdered_buildProps _, ?_⟩
    rw [wellFormedMembers_iff]
    intro p hp
    exact (wellFormedMembers_iff _).mp (wellFormed_internalizeMembers M ms) p
      (mem_buildProps _ p hp)
theorem wellFormed_internalizeList (M : NumModel) :
    ∀ (ts : List (Json Text)), WellFormedList (internalizeList M ts)
  | [] => by simp [internalizeList, WellFormedList]
  | t :: ts => by
    simp only [internalizeList, WellFormedList]
    exact ⟨wellFormed_internalize M t, wellFormed_internalizeList M ts⟩
theorem wellFormed_internalizeMembers (M : NumModel) :
    ∀ (ms : List (Text × Json Text)), WellFormedMembers (internalizeMembers M ms)
  | [] => by simp [internalizeMembers, WellFormedMembers]
  | (k, t) :: ms => by
    simp only [internalizeMembers, WellFormedMembers]
    exact ⟨wellFormed_internalize M t, wellFormed_internalizeMembers M ms⟩
end

/-- Every value that `JSON.parse` returns is well formed. -/
theorem wellFormed_jsonParse (M : NumModel) (s : Text) (v : Json M.Num)
    (h : jsonParse M s = some v) : WellFormed v := by
  unfold jsonParse at h
  cases hp : parseSyntax s with
  | none => simp [hp] at h
  | some t =>
    simp only [hp, Option.some.injEq] at h
    subst h
    exact wellFormed_internalize M t

/-! ### Reading a serialized value back and serializing it again -/

theorem keys_internalizeMembers_synMembers (M : NumModel) (kvs : List (Text × Json M.Num)) :
    keys (internalizeMembers M (synMembers M kvs)) = keys kvs := by
  induction kvs with
  | nil => rfl
  | cons q rest ih =>
    obtain ⟨k, v⟩ := q
    simp only [synMembers, internalizeMembers, keys, List.map_cons] at ih ⊢
    rw [ih]

theorem numberText_ofLit (M : NumModel) (n : M.Num) (t : Text) (h : M.toText n = some t) :
    numberText M (M.ofLit t) = numberText M n := by
  simp [numberText, h, M.toText_ofLit n t h]

mutual
theorem serialize_reparse (M : NumModel) (gap : Text) :
    ∀ (w : Json M.Num) (indent : Text), WellFormed w →
      serialize M gap indent (internalize M (syn M w)) = serialize M gap indent w
  | Json.null, _, _ => rfl
  | Json.bool _, _, _ => rfl
  | Json.num n, indent, _ => by
    simp only [syn]
    cases h : M.toText n with
    | none => simp [internalize, serialize, numberText, h]
    | some t =>
      simp only [internalize, serialize]
      exact numberText_ofLit M n t h
  | Json.str _, _, _ => rfl
  | Json.arr [], _, _ => rfl
  | Json.arr (x :: xs), indent, hw => by
    have h := serializeElems_reparse M gap (x :: xs) (indent ++ gap)
      (by simpa [WellFormed] using hw)
    simp only [syn, synList, internalize, internalizeList, serialize] at h ⊢
    rw [h]
  | Json.obj [], _, _ => rfl
  | Json.obj ((k, v) :: ms), indent, hw => by
    simp only [WellFormed] at hw
    have h := serializeMembers_reparse M gap ((k, v) :: ms) (indent ++ gap) hw.2
    have hk := keys_internalizeMembers_synMembers M ((k, v) :: ms)
    have hb := buildProps_eq_self (internalizeMembers M (synMembers M ((k, v) :: ms)))
      (by rw [hk]; exact hw.1)
    simp only [syn, internalize]
    rw [hb]
    simp only [synMembers, internalizeMembers, serialize] at h ⊢
    rw [h]
theorem serializeElems_reparse (M : NumModel) (gap : Text) :
    ∀ (xs : List (Json M.Num)) (indent : Text), WellFormedList xs →
      serializeElems M gap indent (internalizeList M (synList M xs))
        = serializeElems M gap indent xs
  | [], _, _ => rfl
  | [x], indent, hw => by
    simp only [WellFormedList] at hw
    simp only [synList, internalizeList, serializeElems]
    exact serialize_reparse M gap x indent hw.1
  | x :: y :: ys, indent, hw => by
    simp only [WellFormedList] at hw
    have h1 := serialize_reparse M gap x indent hw.1
    have h2 := serializeElems_reparse M gap (y :: ys) indent
      (by simp only [WellFormedList]; exact hw.2)
    simp only [synList, internalizeList, serializeElems] at h2 ⊢
    rw [h1, h2]
theorem serializeMembers_reparse (M : NumModel) (gap : Text) :
    ∀ (ms : List (Text × Json M.Num)) (indent : Text), WellFormedMembers ms →
      serializeMembers M gap indent (internalizeMembers M (synMembers M ms))
        = serializeMembers M gap indent ms
  | [], _, _ => rfl
  | [(k, v)], indent, hw => by
    simp only [WellFormedMembers] at hw
    simp only [synMembers, internalizeMembers, serializeMembers]
    rw [serialize_reparse M gap v indent hw.1]
  | (k, v) :: (k2, v2) :: ms, indent, hw => by
    simp only [WellFormedMembers] at hw
    have h1 := serialize_reparse M gap v indent hw.1
    have h2 := serializeMembers_reparse M gap ((k2, v2) :: ms) indent
      (by simp only [WellFormedMembers]; exact hw.2)
    simp only [synMembers, internalizeMembers, serializeMembers] at h2 ⊢
    rw [h1, h2]
end

/-- The serialization of a well-formed value parses, and the value it parses
to serializes to the same text. -/
theorem jsonParse_serialize (M : NumModel) (gap : Text) (hgap : AllWs gap) (w : Json M.Num)
    (hw : WellFormed w) :
    ∃ v, jsonParse M (serialize M gap [] w) = some v ∧
      serialize M gap [] v = serialize M gap [] w := by
  refine ⟨internalize M (syn M w), ?_, serialize_reparse M gap w [] hw⟩
  unfold jsonParse
  rw [parseSyntax_serialize M gap hgap w]


/-! ### The auto-fixer returns serialized values -/

theorem allWs_gap2 : AllWs [0x20, 0x20] := allWs_cons rfl (allWs_cons rfl allWs_nil)

theorem trySingle_some (M : NumModel) (raw : Text) (fs : List Fix) (r : FixResult)
    (h : trySingle M raw fs = some r) :
    ∃ x v, jsonParse M x = some v ∧ r.result = stringify2 M v := by
  induction fs with
  | nil => simp [trySingle] at h
  | cons fix rest ih =>
    simp only [trySingle] at h
    cases hu : usable (fix.fn raw) raw with
    | none =>
      simp only [hu] at h
      exact ih h
    | some result =>
      simp only [hu] at h
      cases hp : jsonParse M result with
      | none =>
        simp only [hp] at h
        exact ih h
      | some v =>
        simp only [hp, Option.some.injEq] at h
        subst h
        exact ⟨result, v, hp, rfl⟩

theorem tryAutoFix_some (M : NumModel) (raw : Text) (r : FixResult)
    (h : tryAutoFix M raw = some r) :
    ∃ x v, jsonParse M x = some v ∧ r.result = stringify2 M v := by
  unfold tryAutoFix at h
  cases hs : trySingle M raw fixes with
  | some r1 =>
    simp only [hs, Option.some.injEq] at h
    subst h
    exact trySingle_some M raw fixes r1 hs
  | none =>
    simp only [hs] at h
    by_cases hc : (combineFixes fixes raw).1 ≠ raw
    · rw [if_pos hc] at h
      cases hp : jsonParse M (combineFixes fixes raw).1 with
      | none => simp [hp] at h
      | some v =>
        simp only [hp, Option.some.injEq] at h
        subst h
        exact ⟨_, v, hp, rfl⟩
    · rw [if_neg hc] at h
      cases h

/-- C1: whenever `tryAutoFix` returns a fix, its `result` parses as JSON and is
exactly the 2-space-indented serialization of the value it parses to. -/
theorem tryAutoFix_result_parses (M : NumModel) (raw : Text) (r : FixResult)
    (h : tryAutoFix M raw = some r) :
    ∃ v, jsonParse M r.result = some v ∧ stringify2 M v = r.result := by
  obtain ⟨x, w, hx, hr⟩ := tryAutoFix_some M raw r h
  have hw : WellFormed w := wellFormed_jsonParse M x w hx
  obtain ⟨v, hv1, hv2⟩ := jsonParse_serialize M [0x20, 0x20] allWs_gap2 w hw
  refine ⟨v, ?_, ?_⟩
  · rw [hr]; exact hv1
  · rw [hr]; exact hv2

/-- Witness of C1: the input `[1,2,]`, repaired by the trailing-comma rule. -/
theorem tryAutoFix_result_parses_witness :
    tryAutoFix literalNumbers (utf16 "[1,2,]")
        = some { result := utf16 "[\n  1,\n  2\n]",
                 description := utf16 "移除了对象/数组末尾多余的逗号" } ∧
      ∃ v, jsonParse literalNumbers (utf16 "[\n  1,\n  2\n]") = some v ∧
        stringify2 literalNumbers v = utf16 "[\n  1,\n  2\n]" :=
  ⟨by rfl, tryAutoFix_result_parses literalNumbers (utf16 "[1,2,]")
    { result := utf16 "[\n  1,\n  2\n]", description := utf16 "移除了对象/数组末尾多余的逗号" }
    (by rfl)⟩

/-- Counterexample to C2: on the input `{"a":[1,2` the auto-fixer finds no fix. -/
theorem tryAutoFix_unclosed_nested_none :
    tryAutoFix literalNumbers (utf16 "\x7b\"a\":[1,2") = none := by rfl

/-- C2, amended: on the input `{"a":[1,2` the bracket rule appends the missing
`}` only, the text `{"a":[1,2}` it gives does not parse, and `tryAutoFix`
returns no fix. -/
theorem tryAutoFix_unclosed_nested (M : NumModel) :
    fixBrackets (utf16 "\x7b\"a\":[1,2") = some (utf16 "\x7b\"a\":[1,2\x7d") ∧
      jsonParse M (utf16 "\x7b\"a\":[1,2\x7d") = none ∧
      tryAutoFix M (utf16 "\x7b\"a\":[1,2") = none :=
  ⟨by rfl, by rfl, by rfl⟩

/-- Counterexample to C3 as it is worded: on the input `{"a":1,}` the result
of the fix is the text `{`, line feed, two spaces, `"a": 1`, line feed, `}`,
which is not the one-line text `{"a": 1}`. -/
theorem tryAutoFix_trailing_comma_text :
    tryAutoFix literalNumbers (utf16 "\x7b\"a\":1,\x7d")
        = some { result := utf16 "\x7b\n  \"a\": 1\n\x7d",
                 description := utf16 "移除了对象/数组末尾多余的逗号" } ∧
      utf16 "\x7b\n  \"a\": 1\n\x7d" ≠ utf16 "\x7b\"a\": 1\x7d" :=
  ⟨by rfl, by decide⟩

/-- C3, amended: where the number 1 prints as `1`, as it does in JavaScript,
on the input `{"a":1,}` the fix returned has as result the text `{`, line
feed, two spaces, `"a": 1`, line feed, `}`, and as description that of the
trailing-comma rule, the first of the table.  That rule alone gives
`{"a":1}`, which parses to the value with the one member `a`, the number 1;
the result is the 2-space serialization of this value and parses to it. -/
theorem tryAutoFix_trailing_comma (M : NumModel)
    (h1 : M.toText (M.ofLit (utf16 "1")) = some (utf16 "1")) :
    tryAutoFix M (utf16 "\x7b\"a\":1,\x7d")
        = some { result := utf16 "\x7b\n  \"a\": 1\n\x7d",
                 description := utf16 "移除了对象/数组末尾多余的逗号" } ∧
      stringify2 M (Json.obj [(utf16 "a", Json.num (M.ofLit (utf16 "1")))])
        = utf16 "\x7b\n  \"a\": 1\n\x7d" ∧
      jsonParse M (utf16 "\x7b\n  \"a\": 1\n\x7d")
        = some (Json.obj [(utf16 "a", Json.num (M.ofLit (utf16 "1")))]) ∧
      fixTrailingComma (utf16 "\x7b\"a\":1,\x7d") = some (utf16 "\x7b\"a\":1\x7d") ∧
      jsonParse M (utf16 "\x7b\"a\":1\x7d")
        = some (Json.obj [(utf16 "a", Json.num (M.ofLit (utf16 "1")))]) ∧
      fixes.head?.map Fix.desc = some (utf16 "移除了对象/数组末尾多余的逗号") := by
  have hn : numberText M (M.ofLit (utf16 "1")) = utf16 "1" := by
    simp only [numberText, h1]
  have hs : stringify2 M (Json.obj [(utf16 "a", Json.num (M.ofLit (utf16 "1")))])
      = utf16 "\x7b\n  \"a\": 1\n\x7d" := by
    have e : stringify2 M (Json.obj [(utf16 "a", Json.num (M.ofLit (utf16 "1")))])
        = utf16 "\x7b\n  \"a\": " ++ numberText M (M.ofLit (utf16 "1")) ++ utf16 "\n\x7d" := by
      rfl
    rw [e, hn]
    rfl
  have ht : tryAutoFix M (utf16 "\x7b\"a\":1,\x7d")
      = some { result := stringify2 M (Json.obj [(utf16 "a", Json.num (M.ofLit (utf16 "1")))]),
               description := utf16 "移除了对象/数组末尾多余的逗号" } := by
    rfl
  refine ⟨?_, hs, by rfl, by rfl, by rfl, by rfl⟩
  rw [ht, hs]

/-- Witness of C3 amended: the number model that keeps literals, in which the
literal `1` prints as `1`. -/
theorem tryAutoFix_trailing_comma_witness :
    literalNumbers.toText (literalNumbers.ofLit (utf16 "1")) = some (utf16 "1") ∧
      tryAutoFix literalNumbers (utf16 "\x7b\"a\":1,\x7d")
        = some { result := utf16 "\x7b\n  \"a\": 1\n\x7d",
                 description := utf16 "移除了对象/数组末尾多余的逗号" } :=
  ⟨by rfl, (tryAutoFix_trailing_comma literalNumbers (by rfl)).1⟩


/-! ### Type detection -/

theorem startsWith_trimStart (s : Text) (c : Nat) :
    startsWith (trimStart s) c = decide (firstNonSpace s = some c) := by
  induction s with
  | nil => simp [trimStart, startsWith, firstNonSpace]
  | cons d s ih =>
    by_cases hd : isSpace d = true
    · simp only [trimStart, hd, if_true, ih]
      simp [firstNonSpace, List.find?, hd]
    · have hd' : isSpace d = false := by simpa using hd
      simp only [trimStart, hd', startsWith, firstNonSpace, List.find?]
      simp

theorem testTagStart_eq (s : Text) : testTagStart s = hasAngleThen isWord s := by
  induction s with
  | nil => rfl
  | cons c s ih =>
    cases s with
    | nil => simp [testTagStart, hasAngleThen]
    | cons d s =>
      simp only [testTagStart] at ih ⊢
      rw [ih]
      simp [hasAngleThen]

/-- Counterexample to C4: on `x<1` the code answers xml, the policy with
"a letter after `<`" answers unknown. -/
theorem detectType_angle_digit :
    detectType literalNumbers (utf16 "x<1") = DocType.xml ∧
      detectTypePolicy isLetter literalNumbers (utf16 "x<1") = DocType.unknown :=
  ⟨by rfl, by rfl⟩

/-- C4, amended: `detectType` follows the stated policy with "a `<` immediately
followed by a word character (letter, digit or underscore)" in place of "a
letter"; `  <root/>` gives xml, `[1,2,3]` gives json, `plain text` gives
unknown. -/
theorem detectType_policy (M : NumModel) :
    (∀ s : Text, detectType M s = detectTypePolicy isWord M s) ∧
      detectType M (utf16 "  <root/>") = DocType.xml ∧
      detectType M (utf16 "[1,2,3]") = DocType.json ∧
      detectType M (utf16 "plain text") = DocType.unknown := by
  refine ⟨?_, by rfl, by rfl, by rfl⟩
  intro s
  unfold detectType detectTypePolicy
  rw [startsWith_trimStart s 0x3C, startsWith_trimStart s 0x7B,
    startsWith_trimStart s 0x5B, testTagStart_eq]
  by_cases h1 : firstNonSpace s = some 0x3C
  · simp [h1]
  · by_cases h2 : firstNonSpace s = some 0x7B
    · simp [h2]
    · by_cases h3 : firstNonSpace s = some 0x5B
      · simp [h3]
      · cases hp : jsonParse M s <;> simp [h1, h2, h3]


/-! ### Array indices -/

theorem arrayIndex_eq (k : Text) (i : Nat) (h : arrayIndex k = some i) : k = natToDecimal i := by
  unfold arrayIndex at h
  by_cases hc : k = natToDecimal (digitsVal k) ∧ digitsVal k < 4294967295
  · rw [if_pos hc] at h
    simp only [Option.some.injEq] at h
    rw [← h]
    exact hc.1
  · rw [if_neg hc] at h
    cases h

theorem arrayIndex_injective (a b : Text) (i : Nat) (ha : arrayIndex a = some i)
    (hb : arrayIndex b = some i) : a = b := by
  rw [arrayIndex_eq a i ha, arrayIndex_eq b i hb]

theorem isIndexKey_iff (k : Text) : isIndexKey k = true ↔ ∃ i, arrayIndex k = some i := by
  unfold isIndexKey
  cases arrayIndex k <;> simp

theorem isIndexKey_false_iff (k : Text) : isIndexKey k = false ↔ arrayIndex k = none := by
  unfold isIndexKey
  cases arrayIndex k <;> simp

theorem keyBefore_antisymm (a b : Text) (ha : isIndexKey a = true) (hb : isIndexKey b = true)
    (hab : keyBefore a b = true) (hba : keyBefore b a = true) : a = b := by
  obtain ⟨i, hi⟩ := (isIndexKey_iff a).mp ha
  obtain ⟨j, hj⟩ := (isIndexKey_iff b).mp hb
  simp only [keyBefore, hi, hj, decide_eq_true_eq] at hab hba
  have : i = j := by omega
  subst this
  exact arrayIndex_injective a b i hi hj

/-- In enumeration order the array indices come first. -/
theorem jsOrder_split (ks : List Text) (h : ks.Pairwise (fun a b => keyBefore a b = true)) :
    ks = ks.filter isIndexKey ++ ks.filter (fun k => !isIndexKey k) := by
  induction ks with
  | nil => rfl
  | cons a l ih =>
    rw [List.pairwise_cons] at h
    obtain ⟨h1, h2⟩ := h
    by_cases ha : isIndexKey a = true
    · simp only [List.filter_cons, ha, if_true, Bool.not_true, Bool.false_eq_true, if_false,
        List.cons_append]
      rw [← ih h2]
    · have ha' : isIndexKey a = false := by simpa using ha
      have hnone := (isIndexKey_false_iff a).mp ha'
      have hall : ∀ b ∈ l, isIndexKey b = false := by
        intro b hb
        have hb1 := h1 b hb
        rw [isIndexKey_false_iff]
        cases hb2 : arrayIndex b with
        | none => rfl
        | some j => simp [keyBefore, hnone, hb2] at hb1
      have e1 : l.filter isIndexKey = [] := by
        rw [List.filter_eq_nil_iff]
        intro b hb
        simp [hall b hb]
      have e2 : l.filter (fun k => !isIndexKey k) = l := by
        rw [List.filter_eq_self]
        intro b hb
        simp [hall b hb]
      simp [List.filter_cons, ha', e1, e2]

/-- Two enumerations of the same keys with the same order of the keys that
are not array indices are the same enumeration. -/
theorem jsOrdered_unique (l1 l2 : List Text) (h1 : JsOrdered l1) (h2 : JsOrdered l2)
    (hp : l1.Perm l2)
    (hn : l1.filter (fun k => !isIndexKey k) = l2.filter (fun k => !isIndexKey k)) :
    l1 = l2 := by
  rw [jsOrder_split l1 h1.2, jsOrder_split l2 h2.2, hn]
  congr 1
  have hanti : ∀ a b, a ∈ l1.filter isIndexKey → b ∈ l2.filter isIndexKey →
      keyBefore a b = true → keyBefore b a = true → a = b := by
    intro a b ha hb hab hba
    exact keyBefore_antisymm a b (List.mem_filter.mp ha).2 (List.mem_filter.mp hb).2 hab hba
  have hs1 : (l1.filter isIndexKey).Pairwise (fun a b => keyBefore a b = true) :=
    h1.2.sublist (List.filter_sublist _)
  have hs2 : (l2.filter isIndexKey).Pairwise (fun a b => keyBefore a b = true) :=
    h2.2.sublist (List.filter_sublist _)
  exact List.Perm.eq_of_sorted hanti hs1 hs2 (hp.filter _)


/-! ### Stable sorting and filtering -/

section StableSort

variable {α : Type} (r : α → α → Prop) [DecidableRel r]

theorem orderedInsert_of_forall (a : α) (l : List α) (h : ∀ b ∈ l, r a b) :
    l.orderedInsert r a = a :: l := by
  cases l with
  | nil => rfl
  | cons b l => exact List.orderedInsert_of_le r l (h b (List.mem_cons_self _ _))

theorem filter_orderedInsert [IsTrans α r] (p : α → Bool) (a : α) (l : List α)
    (hl : l.Sorted r) :
    (l.orderedInsert r a).filter p
      = if p a = true then (l.filter p).orderedInsert r a else l.filter p := by
  induction l with
  | nil =>
    by_cases hp : p a = true <;> simp [hp]
  | cons b l ih =>
    have hl' : l.Sorted r := hl.of_cons
    have hb : ∀ c ∈ l, r b c := List.rel_of_sorted_cons hl
    by_cases hab : r a b
    · rw [List.orderedInsert_of_le r l hab]
      by_cases hpa : p a = true
      · simp only [hpa, if_true]
        have hall : ∀ c ∈ (b :: l).filter p, r a c := by
          intro c hc
          have hc' := (List.mem_filter.mp hc).1
          rcases List.mem_cons.mp hc' with h | h
          · subst h; exact hab
          · exact IsTrans.trans a b c hab (hb c h)
        rw [orderedInsert_of_forall r a _ hall]
        simp [List.filter_cons, hpa]
      · simp [List.filter_cons, hpa]
    · have e : (b :: l).orderedInsert r a = b :: l.orderedInsert r a := by
        simp [List.orderedInsert, hab]
      rw [e]
      by_cases hpb : p b = true
      · simp only [List.filter_cons, hpb, if_true, ih hl']
        by_cases hpa : p a = true
        · simp [hpa, List.orderedInsert, hab]
        · simp [hpa]
      · simp only [List.filter_cons, hpb, ih hl']
        simp

/-- Filtering commutes with a stable sort. -/
theorem filter_insertionSort [IsTotal α r] [IsTrans α r] (p : α → Bool) (l : List α) :
    (l.insertionSort r).filter p = (l.filter p).insertionSort r := by
  induction l with
  | nil => rfl
  | cons a l ih =>
    simp only [List.insertionSort]
    rw [filter_orderedInsert r p a _ (List.sorted_insertionSort r l), ih]
    by_cases hpa : p a = true
    · simp [hpa, List.filter_cons]
    · simp [hpa, List.filter_cons]

end StableSort

/-- The order of a collation. -/
theorem collation_isTotal (C : Collation) : IsTotal Text (fun a b => C.compare a b ≤ 0) :=
  ⟨C.total⟩

theorem collation_isTrans (C : Collation) : IsTrans Text (fun a b => C.compare a b ≤ 0) :=
  ⟨C.trans⟩

theorem sortKeys_perm (C : Collation) (ks : List Text) : (sortKeys C ks).Perm ks :=
  List.perm_insertionSort _ ks

theorem sortKeys_sorted (C : Collation) (ks : List Text) :
    (sortKeys C ks).Sorted (fun a b => C.compare a b ≤ 0) := by
  haveI := collation_isTotal C
  haveI := collation_isTrans C
  exact List.sorted_insertionSort _ ks

theorem sortKeys_filter (C : Collation) (p : Text → Bool) (ks : List Text) :
    (sortKeys C ks).filter p = sortKeys C (ks.filter p) := by
  haveI := collation_isTotal C
  haveI := collation_isTrans C
  exact filter_insertionSort _ p ks

theorem sortKeys_of_sorted (C : Collation) (ks : List Text)
    (h : ks.Sorted (fun a b => C.compare a b ≤ 0)) : sortKeys C ks = ks :=
  List.Sorted.insertionSort_eq h


/-! ### Assignment to properties -/

theorem mem_setProp {α : Type} (o : List (Text × α)) (k : Text) (v : α) (p : Text × α)
    (h : p ∈ setProp o k v) : p = (k, v) ∨ p ∈ o := by
  unfold setProp at h
  by_cases hk : hasKey k o = true
  · rw [if_pos hk] at h
    exact mem_replaceProp k v o p h
  · rw [if_neg hk] at h
    by_cases hp : k = protoKey
    · rw [if_pos hp] at h
      exact Or.inr h
    · rw [if_neg hp] at h
      exact mem_addProp o k v p h

theorem getProp_mem {α : Type} (k : Text) (o : List (Text × α)) (v : α)
    (h : getProp k o = some v) : (k, v) ∈ o := by
  induction o with
  | nil => simp [getProp] at h
  | cons q rest ih =>
    obtain ⟨k1, v1⟩ := q
    simp only [getProp] at h
    by_cases hk : k1 = k
    · rw [if_pos hk] at h
      simp only [Option.some.injEq] at h
      subst hk h
      exact List.mem_cons_self _ _
    · rw [if_neg hk] at h
      exact List.mem_cons_of_mem _ (ih h)

theorem getProp_isSome {α : Type} (k : Text) (o : List (Text × α)) (h : k ∈ keys o) :
    ∃ v, getProp k o = some v := by
  induction o with
  | nil => simp [keys] at h
  | cons q rest ih =>
    obtain ⟨k1, v1⟩ := q
    simp only [getProp]
    by_cases hk : k1 = k
    · exact ⟨v1, by rw [if_pos hk]⟩
    · rw [if_neg hk]
      apply ih
      simp only [keys, List.map_cons, List.mem_cons] at h
      rcases h with h | h
      · exact absurd h.symm hk
      · exact h

theorem filter_nonIndex_insertIndex {α : Type} (i : Nat) (k : Text) (v : α)
    (hk : arrayIndex k = some i) (o : List (Text × α)) :
    (keys (insertIndex i k v o)).filter (fun k => !isIndexKey k)
      = (keys o).filter (fun k => !isIndexKey k) := by
  have hki : isIndexKey k = true := (isIndexKey_iff k).mpr ⟨i, hk⟩
  induction o with
  | nil => simp [insertIndex, keys, hki]
  | cons q rest ih =>
    obtain ⟨k1, v1⟩ := q
    simp only [insertIndex]
    cases hj : arrayIndex k1 with
    | none => simp [keys, List.filter_cons, hki]
    | some j =>
      simp only
      by_cases hij : i < j
      · simp [hij, keys, List.filter_cons, hki]
      · simp only [hij, if_false, keys, List.map_cons, List.filter_cons] at ih ⊢
        rw [ih]

theorem filter_nonIndex_addProp {α : Type} (o : List (Text × α)) (k : Text) (v : α) :
    (keys (addProp o k v)).filter (fun k => !isIndexKey k)
      = (keys o).filter (fun k => !isIndexKey k) ++ (if isIndexKey k = true then [] else [k]) := by
  unfold addProp
  cases hi : arrayIndex k with
  | none =>
    have : isIndexKey k = false := (isIndexKey_false_iff k).mpr hi
    simp [keys_append_singleton, this]
  | some i =>
    have : isIndexKey k = true := (isIndexKey_iff k).mpr ⟨i, hi⟩
    simp only [this, if_true, List.append_nil]
    exact filter_nonIndex_insertIndex i k v hi o

theorem getProp_insertIndex {α : Type} (i : Nat) (k : Text) (v : α) (o : List (Text × α))
    (hk : k ∉ keys o) (k' : Text) :
    getProp k' (insertIndex i k v o) = if k = k' then some v else getProp k' o := by
  induction o with
  | nil => simp [insertIndex, getProp]
  | cons q rest ih =>
    obtain ⟨k1, v1⟩ := q
    have hk1 : k ≠ k1 := by
      intro h
      exact hk (by simp [keys, h])
    have hrest : k ∉ keys rest := by
      intro h
      exact hk (by simp only [keys, List.map_cons, List.mem_cons] at h ⊢; exact Or.inr h)
    simp only [insertIndex]
    cases hj : arrayIndex k1 with
    | none => simp [getProp]
    | some j =>
      simp only
      by_cases hij : i < j
      · simp [hij, getProp]
      · simp only [hij, if_false, getProp, ih hrest]
        by_cases h1 : k1 = k'
        · have : k ≠ k' := fun h => hk1 (h.trans h1.symm)
          simp [h1, this]
        · simp [h1]

theorem getProp_append_singleton {α : Type} (k : Text) (v : α) (o : List (Text × α))
    (hk : k ∉ keys o) (k' : Text) :
    getProp k' (o ++ [(k, v)]) = if k = k' then some v else getProp k' o := by
  induction o with
  | nil => simp [getProp]
  | cons q rest ih =>
    obtain ⟨k1, v1⟩ := q
    have hk1 : k ≠ k1 := by
      intro h
      exact hk (by simp [keys, h])
    have hrest : k ∉ keys rest := by
      intro h
      exact hk (by simp only [keys, List.map_cons, List.mem_cons] at h ⊢; exact Or.inr h)
    simp only [List.cons_append, getProp]
    by_cases h1 : k1 = k'
    · have : k ≠ k' := fun h => hk1 (h.trans h1.symm)
      simp [h1, this]
    · rw [if_neg h1, if_neg h1]
      exact ih hrest

theorem getProp_addProp {α : Type} (o : List (Text × α)) (k : Text) (v : α)
    (hk : k ∉ keys o) (k' : Text) :
    getProp k' (addProp o k v) = if k = k' then some v else getProp k' o := by
  unfold addProp
  cases hi : arrayIndex k with
  | none => exact getProp_append_singleton k v o hk k'
  | some i => exact getProp_insertIndex i k v o hk k'

/-- Two objects with the same keys in the same order and the same value at
every key are the same object. -/
theorem props_ext {α : Type} : ∀ (p q : List (Text × α)), keys p = keys q → (keys q).Nodup →
    (∀ k ∈ keys q, getProp k p = getProp k q) → p = q
  | [], [], _, _, _ => rfl
  | [], _ :: _, h, _, _ => by simp [keys] at h
  | _ :: _, [], h, _, _ => by simp [keys] at h
  | (k1, v1) :: p, (k2, v2) :: q, hk, hnd, hv => by
    simp only [keys, List.map_cons, List.cons.injEq] at hk
    obtain ⟨hk1, hk2⟩ := hk
    subst hk1
    simp only [keys, List.map_cons, List.nodup_cons] at hnd
    have h0 := hv k1 (by simp [keys])
    simp only [getProp, if_true, Option.some.injEq] at h0
    subst h0
    have ih := props_ext p q hk2 hnd.2 (by
      intro k hkq
      have hne : k1 ≠ k := by
        intro h
        subst h
        exact hnd.1 hkq
      have := hv k (by simp only [keys, List.map_cons, List.mem_cons]; exact Or.inr hkq)
      simpa [getProp, hne] using this)
    rw [ih]


/-! ### The `reduce` of `sortObjectKeys` -/

theorem mem_keys_addProp {α : Type} (o : List (Text × α)) (k : Text) (v : α) (x : Text) :
    x ∈ keys (addProp o k v) ↔ x = k ∨ x ∈ keys o := by
  rw [(keys_addProp_perm o k v).mem_iff, List.mem_cons]

theorem reduceInv_step {ν : Type} (src acc : List (Text × Json ν)) (done : List Text) (k : Text)
    (h : ReduceInv src acc done) : ReduceInv src (assignSorted src acc k) (done ++ [k]) := by
  obtain ⟨h1, h2, h3, h4⟩ := h
  have hsub : ((keys acc).filter (fun k => !isIndexKey k)).Sublist (done ++ [k]) :=
    h3.trans (List.sublist_append_left done [k])
  unfold assignSorted
  cases hv : getProp k src with
  | none => exact ⟨h1, h2, hsub, h4⟩
  | some v =>
    have hsrc : ∃ q ∈ src, v = q.2 := ⟨(k, v), getProp_mem k src v hv, rfl⟩
    have hvals : ∀ p ∈ setProp acc k v, ∃ q ∈ src, p.2 = q.2 := by
      intro p hp
      rcases mem_setProp acc k v p hp with hp1 | hp1
      · subst hp1; exact hsrc
      · exact h4 p hp1
    simp only
    unfold setProp at hvals ⊢
    by_cases hk : hasKey k acc = true
    · rw [if_pos hk] at hvals ⊢
      rw [ReduceInv, keys_replaceProp]
      exact ⟨h1, h2, hsub, hvals⟩
    · rw [if_neg hk] at hvals ⊢
      by_cases hp : k = protoKey
      · rw [if_pos hp] at hvals ⊢
        exact ⟨h1, h2, hsub, hvals⟩
      · rw [if_neg hp] at hvals ⊢
        have hknot : k ∉ keys acc := fun hm => hk ((hasKey_iff k acc).mpr hm)
        refine ⟨jsOrdered_addProp acc k v hknot h1, ?_, ?_, hvals⟩
        · intro hm
          rcases (mem_keys_addProp acc k v protoKey).mp hm with h5 | h5
          · exact hp h5.symm
          · exact h2 h5
        · rw [filter_nonIndex_addProp]
          apply List.Sublist.append h3
          by_cases hi : isIndexKey k = true
          · simp [hi]
          · simp [hi]

theorem reduceInv_foldl {ν : Type} (src : List (Text × Json ν)) (ks : List Text) :
    ∀ (acc : List (Text × Json ν)) (done : List Text), ReduceInv src acc done →
      ReduceInv src (ks.foldl (assignSorted src) acc) (done ++ ks) := by
  induction ks with
  | nil => intro acc done h; simpa using h
  | cons k ks ih =>
    intro acc done h
    have := ih _ _ (reduceInv_step src acc done k h)
    simpa using this

theorem reduceInv_nil {ν : Type} (src : List (Text × Json ν)) : ReduceInv src [] [] :=
  ⟨jsOrdered_nil, by simp [keys], by simp [keys], by simp⟩

theorem reduceExact_step {ν : Type} (src acc : List (Text × Json ν)) (done : List Text)
    (k : Text) (hk : k ∉ done) (hp : k ≠ protoKey) (hsrc : k ∈ keys src)
    (h : ReduceExact src acc done) : ReduceExact src (assignSorted src acc k) (done ++ [k]) := by
  obtain ⟨h1, h2, h3, h4⟩ := h
  obtain ⟨v, hv⟩ := getProp_isSome k src hsrc
  have hknot : k ∉ keys acc := fun hm => hk ((h2 k).mp hm)
  have hk' : ¬ hasKey k acc = true := fun hh => hknot ((hasKey_iff k acc).mp hh)
  have e : assignSorted src acc k = addProp acc k v := by
    unfold assignSorted
    rw [hv]
    simp only
    unfold setProp
    rw [if_neg hk', if_neg hp]
  rw [e]
  refine ⟨jsOrdered_addProp acc k v hknot h1, ?_, ?_, ?_⟩
  · intro x
    rw [mem_keys_addProp, List.mem_append, List.mem_singleton, h2 x]
    exact or_comm
  · rw [filter_nonIndex_addProp, h3, List.filter_append]
    by_cases hi : isIndexKey k = true
    · simp [hi]
    · simp [hi]
  · intro x hx
    rw [getProp_addProp acc k v hknot x]
    by_cases hkx : k = x
    · rw [if_pos hkx, ← hkx, hv]
    · rw [if_neg hkx]
      apply h4
      rcases (mem_keys_addProp acc k v x).mp hx with h5 | h5
      · exact absurd h5.symm hkx
      · exact h5

theorem reduceExact_foldl {ν : Type} (src : List (Text × Json ν)) (ks : List Text) :
    ∀ (acc : List (Text × Json ν)) (done : List Text), (done ++ ks).Nodup →
      protoKey ∉ ks → (∀ k ∈ ks, k ∈ keys src) → ReduceExact src acc done →
      ReduceExact src (ks.foldl (assignSorted src) acc) (done ++ ks) := by
  induction ks with
  | nil => intro acc done _ _ _ h; simpa using h
  | cons k ks ih =>
    intro acc done hnd hp hsrc h
    have hk : k ∉ done := by
      intro hm
      exact (List.nodup_append.mp hnd).2.2 hm (List.mem_cons_self _ _)
    have hstep := reduceExact_step src acc done k hk
      (fun e => hp (e ▸ List.mem_cons_self _ _)) (hsrc k (List.mem_cons_self _ _)) h
    have := ih _ (done ++ [k]) (by simpa using hnd)
      (fun hm => hp (List.mem_cons_of_mem _ hm))
      (fun x hx => hsrc x (List.mem_cons_of_mem _ hx)) hstep
    simpa using this

theorem reduceExact_nil {ν : Type} (src : List (Text × Json ν)) : ReduceExact src [] [] :=
  ⟨jsOrdered_nil, by simp [keys], by simp [keys], by simp [keys]⟩

/-- What the `reduce` builds from sorted keys is canonical. -/
theorem canonical_foldl {ν : Type} (C : Collation) (src : List (Text × Json ν)) (ks : List Text) :
    Canonical C ((sortKeys C ks).foldl (assignSorted src) []) := by
  have h := reduceInv_foldl src (sortKeys C ks) [] [] (reduceInv_nil src)
  obtain ⟨h1, h2, h3, _⟩ := h
  simp only [List.nil_append] at h3
  exact ⟨h1, h2, (sortKeys_sorted C ks).sublist h3⟩

/-- Sorting the keys of a canonical object and assigning them again builds
the same object. -/
theorem rebuild_canonical {ν : Type} (C : Collation) (o : List (Text × Json ν))
    (h : Canonical C o) : (sortKeys C (keys o)).foldl (assignSorted o) [] = o := by
  obtain ⟨h1, h2, h3⟩ := h
  have hperm := sortKeys_perm C (keys o)
  have hex := reduceExact_foldl o (sortKeys C (keys o)) [] []
    (by simpa using hperm.nodup_iff.mpr h1.1)
    (fun hm => h2 (hperm.mem_iff.mp hm))
    (fun k hk => hperm.mem_iff.mp hk) (reduceExact_nil o)
  simp only [List.nil_append] at hex
  obtain ⟨e1, e2, e3, e4⟩ := hex
  have hk : keys ((sortKeys C (keys o)).foldl (assignSorted o) []) = keys o := by
    apply jsOrdered_unique _ _ e1 h1
    · rw [List.perm_ext_iff_of_nodup e1.1 h1.1]
      intro x
      rw [e2 x, hperm.mem_iff]
    · rw [e3, sortKeys_filter, sortKeys_of_sorted C _ h3]
  apply props_ext _ _ hk h1.1
  intro k hkm
  exact e4 k (by rw [hk]; exact hkm)


/-! ### `sortObjectKeys` is idempotent -/

theorem keys_sortObjectKeysMembers {ν : Type} (C : Collation) (kvs : List (Text × Json ν)) :
    keys (sortObjectKeysMembers C kvs) = keys kvs := by
  induction kvs with
  | nil => rfl
  | cons q rest ih =>
    obtain ⟨k, v⟩ := q
    simp only [sortObjectKeysMembers, keys, List.map_cons] at ih ⊢
    rw [ih]

theorem sortObjectKeysMembers_fixed {ν : Type} (C : Collation) (l : List (Text × Json ν))
    (h : ∀ p ∈ l, sortObjectKeys C p.2 = p.2) : sortObjectKeysMembers C l = l := by
  induction l with
  | nil => rfl
  | cons q rest ih =>
    obtain ⟨k, v⟩ := q
    simp only [sortObjectKeysMembers]
    rw [h (k, v) (List.mem_cons_self _ _), ih (fun p hp => h p (List.mem_cons_of_mem _ hp))]

/-- The object that `sortObjectKeys` builds from members whose values are
already sorted is a fixed point of `sortObjectKeys`. -/
theorem sortObjectKeys_rebuilt {ν : Type} (C : Collation) (src : List (Text × Json ν))
    (ks : List Text) (hsrc : ∀ p ∈ src, sortObjectKeys C p.2 = p.2) :
    sortObjectKeys C (Json.obj ((sortKeys C ks).foldl (assignSorted src) []))
      = Json.obj ((sortKeys C ks).foldl (assignSorted src) []) := by
  have hinv := reduceInv_foldl src (sortKeys C ks) [] [] (reduceInv_nil src)
  have hfix : sortObjectKeysMembers C ((sortKeys C ks).foldl (assignSorted src) [])
      = (sortKeys C ks).foldl (assignSorted src) [] := by
    apply sortObjectKeysMembers_fixed
    intro p hp
    obtain ⟨q, hq, e⟩ := hinv.2.2.2 p hp
    rw [e]
    exact hsrc q hq
  simp only [sortObjectKeys]
  rw [hfix, rebuild_canonical C _ (canonical_foldl C src ks)]

mutual
theorem sortObjectKeys_fixed {ν : Type} (C : Collation) :
    ∀ (v : Json ν), sortObjectKeys C (sortObjectKeys C v) = sortObjectKeys C v
  | Json.null => rfl
  | Json.bool _ => rfl
  | Json.num _ => rfl
  | Json.str _ => rfl
  | Json.arr xs => by
    simp only [sortObjectKeys]
    rw [sortObjectKeysList_fixed C xs]
  | Json.obj kvs => by
    have h := sortObjectKeysMembers_values_fixed C kvs
    have e : sortObjectKeys C (Json.obj kvs)
        = Json.obj ((sortKeys C (keys kvs)).foldl (assignSorted (sortObjectKeysMembers C kvs)) []) :=
      by simp only [sortObjectKeys]
    rw [e]
    exact sortObjectKeys_rebuilt C _ _ h
theorem sortObjectKeysList_fixed {ν : Type} (C : Collation) :
    ∀ (xs : List (Json ν)),
      sortObjectKeysList C (sortObjectKeysList C xs) = sortObjectKeysList C xs
  | [] => rfl
  | x :: xs => by
    simp only [sortObjectKeysList]
    rw [sortObjectKeys_fixed C x, sortObjectKeysList_fixed C xs]
theorem sortObjectKeysMembers_values_fixed {ν : Type} (C : Collation) :
    ∀ (kvs : List (Text × Json ν)), ∀ p ∈ sortObjectKeysMembers C kvs,
      sortObjectKeys C p.2 = p.2
  | [], p, hp => by simp [sortObjectKeysMembers] at hp
  | (k, v) :: kvs, p, hp => by
    simp only [sortObjectKeysMembers, List.mem_cons] at hp
    rcases hp with hp | hp
    · subst hp
      exact sortObjectKeys_fixed C v
    · exact sortObjectKeysMembers_values_fixed C kvs p hp
end

/-- C5: `sortObjectKeys` is idempotent on every JSON value, nested to any
depth: sorting a sorted value gives the same value, key order included. -/
theorem sortObjectKeys_idempotent {ν : Type} (C : Collation) (v : Json ν) :
    sortObjectKeys C (sortObjectKeys C v) = sortObjectKeys C v :=
  sortObjectKeys_fixed C v

/-- C6 fails on the code.  A key `__proto__` is lost: on the value
`{"__proto__": 1}` the assignment `acc["__proto__"] = 1` reaches the accessor
of `Object.prototype` and creates no property, so `sortObjectKeys` returns
`{}`, whatever the collation.  And keys that are array indices are enumerated
in numeric order, not in sorted order: with the code-unit collation the keys
`9` and `10` sort as `10`, `9`, but the object built enumerates `9`, `10`. -/
theorem sortObjectKeys_drops_proto (M : NumModel) (C : Collation) :
    jsonParse M (utf16 "\x7b\"__proto__\": 1\x7d")
        = some (Json.obj [(protoKey, Json.num (M.ofLit (utf16 "1")))]) ∧
      sortObjectKeys C (Json.obj [(protoKey, Json.num (M.ofLit (utf16 "1")))]) = Json.obj [] ∧
      sortKeys codeUnitCollation [utf16 "9", utf16 "10"] = [utf16 "10", utf16 "9"] ∧
      sortObjectKeys codeUnitCollation
          (Json.obj [(utf16 "9", Json.num (M.ofLit (utf16 "1"))),
            (utf16 "10", Json.num (M.ofLit (utf16 "2")))])
        = Json.obj [(utf16 "9", Json.num (M.ofLit (utf16 "1"))),
            (utf16 "10", Json.num (M.ofLit (utf16 "2")))] :=
  ⟨by rfl, by rfl, by decide, by rfl⟩


/-! ### Paths in the tree view -/

theorem buildTreeNode_path {ν : Type} (key : Text) (v : Json ν) (pp : Text) (isRoot : Bool) :
    (buildTreeNode key v pp isRoot).path = currentPath key pp isRoot := by
  cases v <;> simp [buildTreeNode, TreeNode.path]

theorem buildObjectChildren_eq_map {ν : Type} (p : Text) (kvs : List (Text × Json ν)) :
    buildObjectChildren p kvs = kvs.map (fun m => buildTreeNode m.1 m.2 p false) := by
  induction kvs with
  | nil => rfl
  | cons m rest ih =>
    obtain ⟨k, v⟩ := m
    simp [buildObjectChildren, ih]

theorem buildArrayChildren_eq_map {ν : Type} (p : Text) (xs : List (Json ν)) :
    ∀ i, buildArrayChildren p i xs
      = (xs.enumFrom i).map (fun m => buildTreeNode (natToDecimal m.1) m.2 p false) := by
  induction xs with
  | nil => intro i; rfl
  | cons x rest ih =>
    intro i
    simp [buildArrayChildren, List.enumFrom, ih]

/-- C7: the root node has path `$`; a node that is not the root has the path
of its parent followed by `.` and its key; the children of an object node are
built with the keys of the object and the children of an array node with the
indices written in decimal, each with the path of the node as parent path; for
`{"a":{"b":1}}` the leaf for `1` has path `$.a.b`. -/
theorem buildTreeNode_paths (M : NumModel) :
    (∀ v : Json M.Num, (renderJsonTree v).path = utf16 "$") ∧
    (∀ (key : Text) (v : Json M.Num) (parentPath : Text),
      (buildTreeNode key v parentPath false).path = parentPath ++ utf16 "." ++ key) ∧
    (∀ (key : Text) (kvs : List (Text × Json M.Num)) (parentPath : Text) (isRoot : Bool),
      (buildTreeNode key (Json.obj kvs) parentPath isRoot).children
        = kvs.map (fun m => buildTreeNode m.1 m.2
            (buildTreeNode key (Json.obj kvs) parentPath isRoot).path false)) ∧
    (∀ (key : Text) (xs : List (Json M.Num)) (parentPath : Text) (isRoot : Bool),
      (buildTreeNode key (Json.arr xs) parentPath isRoot).children
        = xs.enum.map (fun m => buildTreeNode (natToDecimal m.1) m.2
            (buildTreeNode key (Json.arr xs) parentPath isRoot).path false)) ∧
    jsonParse M (utf16 "\x7b\"a\":\x7b\"b\":1\x7d\x7d")
      = some (Json.obj [(utf16 "a", Json.obj [(utf16 "b", Json.num (M.ofLit (utf16 "1")))])]) ∧
    renderJsonTree (Json.obj [(utf16 "a", Json.obj [(utf16 "b", Json.num (M.ofLit (utf16 "1")))])])
      = TreeNode.container (utf16 "$") none false 1
          [TreeNode.container (utf16 "$.a") (some (utf16 "\"a\": ")) false 1
            [TreeNode.leaf (utf16 "$.a.b") (utf16 "\"b\": ") (Json.num (M.ofLit (utf16 "1")))]] := by
  refine ⟨?_, ?_, ?_, ?_, by rfl, by rfl⟩
  · intro v
    rw [renderJsonTree, buildTreeNode_path]
    rfl
  · intro key v pp
    rw [buildTreeNode_path]
    simp [currentPath, utf16, utf16List, utf16Char]
  · intro key kvs pp isRoot
    rw [buildTreeNode_path]
    simp only [buildTreeNode, TreeNode.children]
    exact buildObjectChildren_eq_map _ kvs
  · intro key xs pp isRoot
    rw [buildTreeNode_path]
    simp only [buildTreeNode, TreeNode.children, List.enum]
    exact buildArrayChildren_eq_map _ xs 0


/-! ### Decimal index keys -/

theorem natToDecimalAux_digits : ∀ (fuel n : Nat), ∀ c ∈ natToDecimalAux fuel n,
    0x30 ≤ c ∧ c ≤ 0x39
  | 0, n, c, hc => by
    simp only [natToDecimalAux, List.mem_singleton] at hc
    omega
  | fuel + 1, n, c, hc => by
    simp only [natToDecimalAux] at hc
    by_cases hn : n < 10
    · rw [if_pos hn, List.mem_singleton] at hc
      omega
    · rw [if_neg hn, List.mem_append, List.mem_singleton] at hc
      rcases hc with h | h
      · exact natToDecimalAux_digits fuel (n / 10) c h
      · omega

theorem natToDecimal_noDot (n : Nat) : NoDot (natToDecimal n) := by
  intro h
  have := natToDecimalAux_digits n n 0x2E h
  omega

theorem digitsVal_append_singleton (l : Text) (d : Nat) :
    digitsVal (l ++ [d]) = digitsVal l * 10 + (d - 0x30) := by
  simp [digitsVal, List.foldl_append]

theorem digitsVal_natToDecimalAux : ∀ (fuel n : Nat), n ≤ fuel →
    digitsVal (natToDecimalAux fuel n) = n
  | 0, n, h => by
    have : n = 0 := by omega
    subst this
    rfl
  | fuel + 1, n, h => by
    simp only [natToDecimalAux]
    by_cases hn : n < 10
    · rw [if_pos hn]
      simp [digitsVal]
    · rw [if_neg hn, digitsVal_append_singleton,
        digitsVal_natToDecimalAux fuel (n / 10) (by omega)]
      omega

theorem digitsVal_natToDecimal (n : Nat) : digitsVal (natToDecimal n) = n :=
  digitsVal_natToDecimalAux n n (Nat.le_refl n)

theorem natToDecimal_injective (m n : Nat) (h : natToDecimal m = natToDecimal n) : m = n := by
  rw [← digitsVal_natToDecimal m, ← digitsVal_natToDecimal n, h]

/-! ### Paths without dotted keys -/

theorem pathExt_nil : PathExt [] := Or.inl rfl

theorem pathExt_dot (s : Text) : PathExt (0x2E :: s) := Or.inr rfl

/-- A key without `.` is determined by a path continuation that begins with it. -/
theorem noDot_prefix_unique : ∀ (k1 k2 s1 s2 : Text), NoDot k1 → NoDot k2 → PathExt s1 →
    PathExt s2 → k1 ++ s1 = k2 ++ s2 → k1 = k2
  | [], [], _, _, _, _, _, _, _ => rfl
  | [], d :: k2, s1, s2, _, h2, e1, _, h => by
    exfalso
    simp only [List.nil_append, List.cons_append] at h
    have hd : d ≠ 0x2E := fun e => h2 (e ▸ List.mem_cons_self _ _)
    rcases e1 with e | e
    · rw [e] at h; cases h
    · rw [h] at e
      simp only [List.head?_cons, Option.some.injEq] at e
      exact hd e
  | c :: k1, [], s1, s2, h1, _, _, e2, h => by
    exfalso
    simp only [List.nil_append, List.cons_append] at h
    have hc : c ≠ 0x2E := fun e => h1 (e ▸ List.mem_cons_self _ _)
    rcases e2 with e | e
    · rw [e] at h; cases h
    · rw [← h] at e
      simp only [List.head?_cons, Option.some.injEq] at e
      exact hc e
  | c :: k1, d :: k2, s1, s2, h1, h2, e1, e2, h => by
    simp only [List.cons_append, List.cons.injEq] at h
    obtain ⟨hcd, hrest⟩ := h
    have := noDot_prefix_unique k1 k2 s1 s2
      (fun hm => h1 (List.mem_cons_of_mem _ hm)) (fun hm => h2 (List.mem_cons_of_mem _ hm))
      e1 e2 hrest
    rw [hcd, this]

mutual
theorem paths_form {ν : Type} : ∀ (v : Json ν) (key pp : Text) (isRoot : Bool),
    ∀ q ∈ (buildTreeNode key v pp isRoot).paths,
      ∃ s, PathExt s ∧ q = currentPath key pp isRoot ++ s
  | Json.null, key, pp, isRoot, q, hq => by
    simp only [buildTreeNode, TreeNode.paths, List.mem_singleton] at hq
    exact ⟨[], pathExt_nil, by simpa using hq⟩
  | Json.bool _, key, pp, isRoot, q, hq => by
    simp only [buildTreeNode, TreeNode.paths, List.mem_singleton] at hq
    exact ⟨[], pathExt_nil, by simpa using hq⟩
  | Json.num _, key, pp, isRoot, q, hq => by
    simp only [buildTreeNode, TreeNode.paths, List.mem_singleton] at hq
    exact ⟨[], pathExt_nil, by simpa using hq⟩
  | Json.str _, key, pp, isRoot, q, hq => by
    simp only [buildTreeNode, TreeNode.paths, List.mem_singleton] at hq
    exact ⟨[], pathExt_nil, by simpa using hq⟩
  | Json.arr xs, key, pp, isRoot, q, hq => by
    simp only [buildTreeNode, TreeNode.paths, List.mem_cons] at hq
    rcases hq with hq | hq
    · exact ⟨[], pathExt_nil, by simpa using hq⟩
    · obtain ⟨j, _, s, _, e⟩ := arrayPaths_form xs (currentPath key pp isRoot) 0 q hq
      exact ⟨0x2E :: (natToDecimal j ++ s), pathExt_dot _, e⟩
  | Json.obj kvs, key, pp, isRoot, q, hq => by
    simp only [buildTreeNode, TreeNode.paths, List.mem_cons] at hq
    rcases hq with hq | hq
    · exact ⟨[], pathExt_nil, by simpa using hq⟩
    · obtain ⟨k, _, s, _, e⟩ := objectPaths_form kvs (currentPath key pp isRoot) q hq
      exact ⟨0x2E :: (k ++ s), pathExt_dot _, e⟩
theorem arrayPaths_form {ν : Type} : ∀ (xs : List (Json ν)) (p : Text) (i : Nat),
    ∀ q ∈ pathsOfList (buildArrayChildren p i xs),
      ∃ j, i ≤ j ∧ ∃ s, PathExt s ∧ q = p ++ 0x2E :: (natToDecimal j ++ s)
  | [], _, _, q, hq => by simp [buildArrayChildren, pathsOfList] at hq
  | x :: xs, p, i, q, hq => by
    simp only [buildArrayChildren, pathsOfList, List.mem_append] at hq
    rcases hq with hq | hq
    · obtain ⟨s, hs, e⟩ := paths_form x (natToDecimal i) p false q hq
      refine ⟨i, Nat.le_refl i, s, hs, ?_⟩
      rw [e]
      simp [currentPath]
    · obtain ⟨j, hj, s, hs, e⟩ := arrayPaths_form xs p (i + 1) q hq
      exact ⟨j, by omega, s, hs, e⟩
theorem objectPaths_form {ν : Type} : ∀ (kvs : List (Text × Json ν)) (p : Text),
    ∀ q ∈ pathsOfList (buildObjectChildren p kvs),
      ∃ k, k ∈ keys kvs ∧ ∃ s, PathExt s ∧ q = p ++ 0x2E :: (k ++ s)
  | [], _, q, hq => by simp [buildObjectChildren, pathsOfList] at hq
  | (k, v) :: kvs, p, q, hq => by
    simp only [buildObjectChildren, pathsOfList, List.mem_append] at hq
    rcases hq with hq | hq
    · obtain ⟨s, hs, e⟩ := paths_form v k p false q hq
      refine ⟨k, by simp [keys], s, hs, ?_⟩
      rw [e]
      simp [currentPath]
    · obtain ⟨k', hk', s, hs, e⟩ := objectPaths_form kvs p q hq
      exact ⟨k', by simp only [keys, List.mem_cons]; exact Or.inr hk', s, hs, e⟩
end


theorem noDot_of_members {ν : Type} (kvs : List (Text × Json ν)) (h : NoDotKeysMembers kvs) :
    ∀ k ∈ keys kvs, NoDot k := by
  induction kvs with
  | nil => intro k hk; simp [keys] at hk
  | cons m rest ih =>
    obtain ⟨k1, v1⟩ := m
    simp only [NoDotKeysMembers] at h
    intro k hk
    simp only [keys, List.mem_cons] at hk
    rcases hk with hk | hk
    · rw [hk]; exact h.1
    · exact ih h.2.2 k hk

theorem path_ne_extension (p rest : Text) : p ≠ p ++ 0x2E :: rest := by
  intro h
  have := congrArg List.length h
  simp at this

mutual
theorem paths_nodup {ν : Type} : ∀ (v : Json ν) (key pp : Text) (isRoot : Bool),
    WellFormed v → NoDotKeys v → (buildTreeNode key v pp isRoot).paths.Nodup
  | Json.null, _, _, _, _, _ => by simp [buildTreeNode, TreeNode.paths]
  | Json.bool _, _, _, _, _, _ => by simp [buildTreeNode, TreeNode.paths]
  | Json.num _, _, _, _, _, _ => by simp [buildTreeNode, TreeNode.paths]
  | Json.str _, _, _, _, _, _ => by simp [buildTreeNode, TreeNode.paths]
  | Json.arr xs, key, pp, isRoot, hw, hd => by
    simp only [WellFormed] at hw
    simp only [NoDotKeys] at hd
    simp only [buildTreeNode, TreeNode.paths, List.nodup_cons]
    refine ⟨?_, arrayPaths_nodup xs _ 0 hw hd⟩
    intro hm
    obtain ⟨j, _, s, _, e⟩ := arrayPaths_form xs _ 0 _ hm
    exact path_ne_extension _ _ e
  | Json.obj kvs, key, pp, isRoot, hw, hd => by
    simp only [WellFormed] at hw
    simp only [NoDotKeys] at hd
    simp only [buildTreeNode, TreeNode.paths, List.nodup_cons]
    refine ⟨?_, objectPaths_nodup kvs _ hw.2 hw.1.1 hd⟩
    intro hm
    obtain ⟨k, _, s, _, e⟩ := objectPaths_form kvs _ _ hm
    exact path_ne_extension _ _ e
theorem arrayPaths_nodup {ν : Type} : ∀ (xs : List (Json ν)) (p : Text) (i : Nat),
    WellFormedList xs → NoDotKeysList xs → (pathsOfList (buildArrayChildren p i xs)).Nodup
  | [], _, _, _, _ => by simp [buildArrayChildren, pathsOfList]
  | x :: xs, p, i, hw, hd => by
    simp only [WellFormedList] at hw
    simp only [NoDotKeysList] at hd
    simp only [buildArrayChildren, pathsOfList]
    rw [List.nodup_append]
    refine ⟨paths_nodup x _ p false hw.1 hd.1, arrayPaths_nodup xs p (i + 1) hw.2 hd.2, ?_⟩
    intro q hq1 hq2
    obtain ⟨s1, hs1, e1⟩ := paths_form x (natToDecimal i) p false q hq1
    obtain ⟨j, hj, s2, hs2, e2⟩ := arrayPaths_form xs p (i + 1) q hq2
    rw [e1] at e2
    simp only [currentPath, Bool.false_eq_true, if_false, List.append_assoc, List.cons_append,
      List.append_cancel_left_eq, List.cons.injEq, true_and] at e2
    have := noDot_prefix_unique _ _ s1 s2 (natToDecimal_noDot i) (natToDecimal_noDot j) hs1 hs2 e2
    have := natToDecimal_injective i j this
    omega
theorem objectPaths_nodup {ν : Type} : ∀ (kvs : List (Text × Json ν)) (p : Text),
    WellFormedMembers kvs → (keys kvs).Nodup → NoDotKeysMembers kvs →
      (pathsOfList (buildObjectChildren p kvs)).Nodup
  | [], _, _, _, _ => by simp [buildObjectChildren, pathsOfList]
  | (k, v) :: kvs, p, hw, hn, hd => by
    simp only [WellFormedMembers] at hw
    have hdots := noDot_of_members _ hd
    simp only [NoDotKeysMembers] at hd
    simp only [keys, List.nodup_cons] at hn
    simp only [buildObjectChildren, pathsOfList]
    rw [List.nodup_append]
    refine ⟨paths_nodup v k p false hw.1 hd.2.1, objectPaths_nodup kvs p hw.2 hn.2 hd.2.2, ?_⟩
    intro q hq1 hq2
    obtain ⟨s1, hs1, e1⟩ := paths_form v k p false q hq1
    obtain ⟨k', hk', s2, hs2, e2⟩ := objectPaths_form kvs p q hq2
    rw [e1] at e2
    simp only [currentPath, Bool.false_eq_true, if_false, List.append_assoc, List.cons_append,
      List.append_cancel_left_eq, List.cons.injEq, true_and] at e2
    have hk1 : NoDot k := hdots k (by simp [keys])
    have hk2 : NoDot k' := hdots k' (by simp only [keys, List.mem_cons]; exact Or.inr hk')
    have := noDot_prefix_unique k k' s1 s2 hk1 hk2 hs1 hs2 e2
    rw [this] at hn
    exact hn.1 hk'
end

/-- Counterexample to C8: in the tree of `{"a.b":1,"a":{"b":2}}` the node of the
key `a.b` and the node of `b` inside `a` both have the path `$.a.b`. -/
theorem paths_not_unique :
    jsonParse literalNumbers (utf16 "\x7b\"a.b\":1,\"a\":\x7b\"b\":2\x7d\x7d")
        = some (Json.obj [(utf16 "a.b", Json.num (utf16 "1")),
            (utf16 "a", Json.obj [(utf16 "b", Json.num (utf16 "2"))])]) ∧
      (renderJsonTree (Json.obj [(utf16 "a.b", Json.num (utf16 "1")),
            (utf16 "a", Json.obj [(utf16 "b", Json.num (utf16 "2"))])])).paths
        = [utf16 "$", utf16 "$.a.b", utf16 "$.a", utf16 "$.a.b"] ∧
      ¬ (renderJsonTree (Json.obj [(utf16 "a.b", Json.num (utf16 "1")),
            (utf16 "a", Json.obj [(utf16 "b", Json.num (utf16 "2"))])])).paths.Nodup :=
  ⟨by rfl, by rfl, by decide⟩

/-- C8, amended: for every parsed JSON value none of whose object keys
contains the character `.`, any two distinct nodes of the tree have different
paths: the list of the paths of all nodes has no duplicate. -/
theorem paths_unique (M : NumModel) (s : Text) (v : Json M.Num) (h : jsonParse M s = some v)
    (hd : NoDotKeys v) : (renderJsonTree v).paths.Nodup :=
  paths_nodup v _ _ true (wellFormed_jsonParse M s v h) hd

/-- Witness of C8 amended: the tree of `{"a":{"b":1},"c":[2,3]}`. -/
theorem paths_unique_witness :
    jsonParse literalNumbers (utf16 "\x7b\"a\":\x7b\"b\":1\x7d,\"c\":[2,3]\x7d")
        = some (Json.obj [(utf16 "a", Json.obj [(utf16 "b", Json.num (utf16 "1"))]),
            (utf16 "c", Json.arr [Json.num (utf16 "2"), Json.num (utf16 "3")])]) ∧
      NoDotKeys (Json.obj [(utf16 "a", Json.obj [(utf16 "b", Json.num (utf16 "1"))]),
            (utf16 "c", Json.arr [Json.num (utf16 "2"), Json.num (utf16 "3")])] :
              Json Text) ∧
      (renderJsonTree (Json.obj [(utf16 "a", Json.obj [(utf16 "b", Json.num (utf16 "1"))]),
            (utf16 "c", Json.arr [Json.num (utf16 "2"), Json.num (utf16 "3")])])).paths.Nodup :=
  ⟨by rfl, by simp [NoDotKeys, NoDotKeysMembers, NoDotKeysList, NoDot, utf16, utf16List, utf16Char],
    paths_unique literalNumbers (utf16 "\x7b\"a\":\x7b\"b\":1\x7d,\"c\":[2,3]\x7d") _ (by rfl)
      (by simp [NoDotKeys, NoDotKeysMembers, NoDotKeysList, NoDot, utf16, utf16List, utf16Char])⟩


/-! ### Search navigation -/

theorem matchAt_of_lt (ms : List Nat) (i : Int) (h0 : 0 ≤ i) (h1 : i < ms.length) :
    ∃ pos, matchAt ms i = some pos := by
  have hlt : i.toNat < ms.length := by
    rw [Int.toNat_lt h0]; exact h1
  exact ⟨ms[i.toNat], by simp [matchAt, h0, List.getElem?_eq_getElem hlt]⟩

theorem moveCursor_some (s : SearchState) (idx : Int) (h0 : 0 ≤ s.searchIndex)
    (h1 : s.searchIndex < s.searchMatches.length) (i0 : 0 ≤ idx)
    (i1 : idx < s.searchMatches.length) :
    ∃ s', moveCursor s idx = some s' ∧ s'.searchIndex = idx ∧
      s'.searchMatches = s.searchMatches := by
  obtain ⟨cur, hcur⟩ := matchAt_of_lt s.searchMatches s.searchIndex h0 h1
  obtain ⟨nxt, hnxt⟩ := matchAt_of_lt s.searchMatches idx i0 i1
  unfold moveCursor
  rw [hcur, hnxt]
  exact ⟨_, rfl, rfl, rfl⟩

theorem searchNext_some (s : SearchState) (h0 : 0 ≤ s.searchIndex)
    (h1 : s.searchIndex < s.searchMatches.length) :
    ∃ s', searchNext s = some s' ∧
      s'.searchIndex = (s.searchIndex + 1) % (s.searchMatches.length : Int) ∧
      s'.searchMatches = s.searchMatches := by
  have hpos : (0 : Int) < s.searchMatches.length := by omega
  have hne : s.searchMatches.length ≠ 0 := by omega
  have ht : Int.tmod (s.searchIndex + 1) s.searchMatches.length
      = (s.searchIndex + 1) % (s.searchMatches.length : Int) :=
    Int.tmod_eq_emod (by omega) (by omega)
  unfold searchNext
  rw [if_neg hne, ht]
  exact moveCursor_some s _ h0 h1 (Int.emod_nonneg _ (by omega)) (Int.emod_lt_of_pos _ hpos)

theorem searchPrev_some (s : SearchState) (h0 : 0 ≤ s.searchIndex)
    (h1 : s.searchIndex < s.searchMatches.length) :
    ∃ s', searchPrev s = some s' ∧
      s'.searchIndex = (s.searchIndex - 1 + s.searchMatches.length)
        % (s.searchMatches.length : Int) ∧
      s'.searchMatches = s.searchMatches := by
  have hpos : (0 : Int) < s.searchMatches.length := by omega
  have hne : s.searchMatches.length ≠ 0 := by omega
  have ht : Int.tmod (s.searchIndex - 1 + s.searchMatches.length) s.searchMatches.length
      = (s.searchIndex - 1 + s.searchMatches.length) % (s.searchMatches.length : Int) :=
    Int.tmod_eq_emod (by omega) (by omega)
  unfold searchPrev
  rw [if_neg hne, ht]
  exact moveCursor_some s _ h0 h1 (Int.emod_nonneg _ (by omega)) (Int.emod_lt_of_pos _ hpos)

theorem searchNextTimes_some (k : Nat) : ∀ (s : SearchState), 0 ≤ s.searchIndex →
    s.searchIndex < s.searchMatches.length →
    ∃ s', searchNextTimes k s = some s' ∧
      s'.searchIndex = (s.searchIndex + k) % (s.searchMatches.length : Int) ∧
      s'.searchMatches = s.searchMatches := by
  induction k with
  | zero =>
    intro s h0 h1
    exact ⟨s, rfl, by simp [Int.emod_eq_of_lt h0 h1], rfl⟩
  | succ k ih =>
    intro s h0 h1
    have hpos : (0 : Int) < s.searchMatches.length := by omega
    obtain ⟨s1, hs1, hi1, hm1⟩ := searchNext_some s h0 h1
    have h0' : 0 ≤ s1.searchIndex := by
      rw [hi1]; exact Int.emod_nonneg _ (by omega)
    have h1' : s1.searchIndex < s1.searchMatches.length := by
      rw [hi1, hm1]; exact Int.emod_lt_of_pos _ hpos
    obtain ⟨s2, hs2, hi2, hm2⟩ := ih s1 h0' h1'
    refine ⟨s2, ?_, ?_, hm2.trans hm1⟩
    · simp only [searchNextTimes, hs1]
      exact hs2
    · rw [hi2, hi1, hm1, Int.emod_add_emod]
      congr 1
      push_cast
      omega

/-- C9: with `N ≥ 1` matches and the cursor at a match, `N` calls of
`searchNext` succeed and leave the cursor where it was and the match list
unchanged; `searchNext` at the last match goes to the first and `searchPrev`
at the first match goes to the last. -/
theorem search_cyclic (s : SearchState) (hN : 1 ≤ s.searchMatches.length)
    (h0 : 0 ≤ s.searchIndex) (h1 : s.searchIndex < s.searchMatches.length) :
    (∃ s', searchNextTimes s.searchMatches.length s = some s' ∧
      s'.searchIndex = s.searchIndex ∧ s'.searchMatches = s.searchMatches) ∧
    (s.searchIndex = s.searchMatches.length - 1 →
      ∃ s', searchNext s = some s' ∧ s'.searchIndex = 0 ∧
        s'.searchMatches = s.searchMatches) ∧
    (s.searchIndex = 0 →
      ∃ s', searchPrev s = some s' ∧ s'.searchIndex = s.searchMatches.length - 1 ∧
        s'.searchMatches = s.searchMatches) := by
  refine ⟨?_, ?_, ?_⟩
  · obtain ⟨s', hs, hi, hm⟩ := searchNextTimes_some s.searchMatches.length s h0 h1
    refine ⟨s', hs, ?_, hm⟩
    rw [hi, Int.add_emod_self, Int.emod_eq_of_lt h0 h1]
  · intro hlast
    obtain ⟨s', hs, hi, hm⟩ := searchNext_some s h0 h1
    refine ⟨s', hs, ?_, hm⟩
    rw [hi, hlast]
    simp
  · intro hfirst
    obtain ⟨s', hs, hi, hm⟩ := searchPrev_some s h0 h1
    refine ⟨s', hs, ?_, hm⟩
    rw [hi, hfirst]
    have e : (0 : Int) - 1 + (s.searchMatches.length : Int) = (s.searchMatches.length : Int) - 1 := by
      omega
    rw [e]
    exact Int.emod_eq_of_lt (by omega) (by omega)


/-- Witness of C9: two matches, cursor at the first. -/
theorem search_cyclic_witness :
    (1 ≤ sampleSearchState.searchMatches.length ∧ 0 ≤ sampleSearchState.searchIndex ∧
      sampleSearchState.searchIndex < sampleSearchState.searchMatches.length) ∧
    ((∃ s', searchNextTimes sampleSearchState.searchMatches.length sampleSearchState = some s' ∧
      s'.searchIndex = sampleSearchState.searchIndex ∧
      s'.searchMatches = sampleSearchState.searchMatches) ∧
    (sampleSearchState.searchIndex = sampleSearchState.searchMatches.length - 1 →
      ∃ s', searchNext sampleSearchState = some s' ∧ s'.searchIndex = 0 ∧
        s'.searchMatches = sampleSearchState.searchMatches) ∧
    (sampleSearchState.searchIndex = 0 →
      ∃ s', searchPrev sampleSearchState = some s' ∧
        s'.searchIndex = sampleSearchState.searchMatches.length - 1 ∧
        s'.searchMatches = sampleSearchState.searchMatches)) :=
  ⟨⟨by decide, by decide, by decide⟩,
    search_cyclic sampleSearchState (by decide) (by decide) (by decide)⟩

/-! ### A search without match -/

/-- The method `String.prototype.includes` tests for a substring. -/
theorem includes_iff (s k : Text) : includes s k = true ↔ k <:+: s := by
  induction s with
  | nil => simp [includes, List.isEmpty_iff]
  | cons c s ih =>
    simp only [includes, Bool.or_eq_true, List.isPrefixOf_iff_prefix, ih]
    exact List.infix_cons_iff.symm

theorem findMatches_nil (lower : Text → Text) (keyword : Text) (els : List KeyEl) :
    ∀ i, (∀ e ∈ els, matchesKeyword lower keyword e = false) →
      findMatches lower keyword i els = [] := by
  induction els with
  | nil => intro i _; rfl
  | cons e es ih =>
    intro i h
    simp only [findMatches]
    rw [h e (List.mem_cons_self _ _)]
    simp only [Bool.false_eq_true, if_false]
    exact ih (i + 1) (fun x hx => h x (List.mem_cons_of_mem _ hx))

theorem mem_clearSearchHighlights (els : List KeyEl) (e' : KeyEl)
    (h : e' ∈ clearSearchHighlights els) :
    ∃ e ∈ els, e'.textContent = e.textContent ∧ e'.path = e.path ∧ e'.highlight = false ∧
      (e.highlight = false → e'.active = e.active) ∧ (e.highlight = true → e'.active = false) := by
  simp only [clearSearchHighlights, List.mem_map] at h
  obtain ⟨e, he, rfl⟩ := h
  refine ⟨e, he, ?_⟩
  by_cases hh : e.highlight = true
  · simp [hh]
  · simp [hh]

theorem clearSearchHighlights_inactive (els : List KeyEl)
    (hinv : ∀ e ∈ els, e.active = true → e.highlight = true) :
    ∀ e' ∈ clearSearchHighlights els, e'.active = false ∧ e'.highlight = false := by
  intro e' he'
  obtain ⟨e, he, _, _, h3, h4, h5⟩ := mem_clearSearchHighlights els e' he'
  refine ⟨?_, h3⟩
  by_cases hh : e.highlight = true
  · exact h5 hh
  · have hh' : e.highlight = false := by simpa using hh
    rw [h4 hh']
    by_cases ha : e.active = true
    · exact absurd (hinv e he ha) hh
    · simpa using ha

theorem markHighlights_active (lower : Text → Text) (keyword : Text) (els : List KeyEl)
    (e' : KeyEl) (h : e' ∈ markHighlights lower keyword els) :
    ∃ e ∈ els, e'.active = e.active := by
  simp only [markHighlights, List.mem_map] at h
  obtain ⟨e, he, rfl⟩ := h
  refine ⟨e, he, ?_⟩
  by_cases hm : matchesKeyword lower keyword e = true
  · simp [hm]
  · simp [hm]

/-- C10: when the keyword (the trimmed, lower-cased input) is not empty and is
a substring of no normalized key label, `onSearchInput` leaves the match list
empty, the cursor at `-1` and no element active, it shows `无匹配` as count, and
`searchNext` and `searchPrev` then change nothing. -/
theorem search_no_match (lower : Text → Text) (input : Text) (s : SearchState)
    (hinv : ∀ e ∈ s.els, e.active = true → e.highlight = true)
    (hkw : lower (trim input) ≠ [])
    (hno : ∀ e ∈ s.els, ¬ lower (trim input) <:+: normalizeLabel lower e.textContent) :
    (onSearchInput lower input s).searchMatches = [] ∧
    (onSearchInput lower input s).searchMatches.length = 0 ∧
    (onSearchInput lower input s).searchIndex = -1 ∧
    (onSearchInput lower input s).searchCount = utf16 "无匹配" ∧
    (∀ e ∈ (onSearchInput lower input s).els, e.active = false) ∧
    searchNext (onSearchInput lower input s) = some (onSearchInput lower input s) ∧
    searchPrev (onSearchInput lower input s) = some (onSearchInput lower input s) := by
  have hnone : ∀ e ∈ clearSearchHighlights s.els,
      matchesKeyword lower (lower (trim input)) e = false := by
    intro e' he'
    obtain ⟨e, he, ht, _⟩ := mem_clearSearchHighlights s.els e' he'
    unfold matchesKeyword
    rw [ht]
    have := hno e he
    rw [← includes_iff] at this
    simpa using this
  have hfind := findMatches_nil lower (lower (trim input)) (clearSearchHighlights s.els) 0 hnone
  have e : onSearchInput lower input s
      = { els := markHighlights lower (lower (trim input)) (clearSearchHighlights s.els),
          searchMatches := [], searchIndex := -1, searchCount := utf16 "无匹配",
          searchPath := [] } := by
    unfold onSearchInput
    rw [if_neg hkw, hfind]
  rw [e]
  refine ⟨rfl, rfl, rfl, rfl, ?_, rfl, rfl⟩
  intro e' he'
  obtain ⟨e1, he1, ha⟩ := markHighlights_active _ _ _ e' he'
  rw [ha]
  exact (clearSearchHighlights_inactive s.els hinv e1 he1).1

/-- Witness of C10: the sample state searched for `zz`. -/
theorem search_no_match_witness :
    ((∀ e ∈ sampleSearchState.els, e.active = true → e.highlight = true) ∧
      asciiLower (trim (utf16 " ZZ ")) ≠ [] ∧
      (∀ e ∈ sampleSearchState.els,
        ¬ asciiLower (trim (utf16 " ZZ ")) <:+: normalizeLabel asciiLower e.textContent)) ∧
    (onSearchInput asciiLower (utf16 " ZZ ") sampleSearchState).searchMatches = [] ∧
    (onSearchInput asciiLower (utf16 " ZZ ") sampleSearchState).searchMatches.length = 0 ∧
    (onSearchInput asciiLower (utf16 " ZZ ") sampleSearchState).searchIndex = -1 ∧
    (onSearchInput asciiLower (utf16 " ZZ ") sampleSearchState).searchCount = utf16 "无匹配" ∧
    (∀ e ∈ (onSearchInput asciiLower (utf16 " ZZ ") sampleSearchState).els, e.active = false) ∧
    searchNext (onSearchInput asciiLower (utf16 " ZZ ") sampleSearchState)
      = some (onSearchInput asciiLower (utf16 " ZZ ") sampleSearchState) ∧
    searchPrev (onSearchInput asciiLower (utf16 " ZZ ") sampleSearchState)
      = some (onSearchInput asciiLower (utf16 " ZZ ") sampleSearchState) :=
  ⟨⟨by decide, by decide, by simp only [← includes_iff]; decide⟩,
    search_no_match asciiLower (utf16 " ZZ ") sampleSearchState (by decide) (by decide)
      (by simp only [← includes_iff]; decide)⟩


/-! ### The states the search can be in -/

mutual
theorem keyEls_fresh {ν : Type} : ∀ (t : TreeNode ν), ∀ e ∈ t.keyEls,
    e.active = false ∧ e.highlight = false
  | TreeNode.leaf p t v, e, he => by
    simp only [TreeNode.keyEls, List.mem_singleton] at he
    subst he
    exact ⟨rfl, rfl⟩
  | TreeNode.container p kt a n cs, e, he => by
    simp only [TreeNode.keyEls, List.mem_append] at he
    rcases he with he | he
    · cases kt with
      | none => simp at he
      | some t =>
        simp only [List.mem_singleton] at he
        subst he
        exact ⟨rfl, rfl⟩
    · exact keyElsOfList_fresh cs e he
theorem keyElsOfList_fresh {ν : Type} : ∀ (ts : List (TreeNode ν)), ∀ e ∈ keyElsOfList ts,
    e.active = false ∧ e.highlight = false
  | [], e, he => by simp [keyElsOfList] at he
  | t :: ts, e, he => by
    simp only [keyElsOfList, List.mem_append] at he
    rcases he with he | he
    · exact keyEls_fresh t e he
    · exact keyElsOfList_fresh ts e he
end

theorem searchInv_fresh {ν : Type} (tree : TreeNode ν) : SearchInv (freshSearchState tree) := by
  constructor
  · intro e he ha
    have := (keyEls_fresh tree e he).1
    rw [this] at ha
    cases ha
  · intro pos hpos
    simp [freshSearchState] at hpos

theorem getElem?_updateAt (f : KeyEl → KeyEl) : ∀ (pos : Nat) (els : List KeyEl) (i : Nat),
    (updateAt f pos els)[i]? = if i = pos then (els[i]?).map f else els[i]?
  | _, [], i => by simp [updateAt]
  | 0, e :: es, 0 => by simp [updateAt]
  | 0, e :: es, i + 1 => by simp [updateAt]
  | n + 1, e :: es, 0 => by simp [updateAt]
  | n + 1, e :: es, i + 1 => by
    simp only [updateAt, List.getElem?_cons_succ, getElem?_updateAt f n es i]
    simp

theorem mem_updateAt (f : KeyEl → KeyEl) : ∀ (pos : Nat) (els : List KeyEl) (e' : KeyEl),
    e' ∈ updateAt f pos els → e' ∈ els ∨ ∃ e, els[pos]? = some e ∧ e' = f e
  | _, [], e', h => by simp [updateAt] at h
  | 0, e :: es, e', h => by
    simp only [updateAt, List.mem_cons] at h
    rcases h with h | h
    · exact Or.inr ⟨e, by simp, h⟩
    · exact Or.inl (List.mem_cons_of_mem _ h)
  | n + 1, e :: es, e', h => by
    simp only [updateAt, List.mem_cons] at h
    rcases h with h | h
    · exact Or.inl (h ▸ List.mem_cons_self _ _)
    · rcases mem_updateAt f n es e' h with h1 | ⟨e1, h1, h2⟩
      · exact Or.inl (List.mem_cons_of_mem _ h1)
      · exact Or.inr ⟨e1, by simpa using h1, h2⟩

theorem highlight_updateAt (f : KeyEl → KeyEl) (hf : ∀ e, (f e).highlight = e.highlight)
    (p : Nat) (els : List KeyEl) (pos : Nat)
    (h : ∃ e, els[pos]? = some e ∧ e.highlight = true) :
    ∃ e, (updateAt f p els)[pos]? = some e ∧ e.highlight = true := by
  obtain ⟨e, he, hh⟩ := h
  rw [getElem?_updateAt, he]
  by_cases hp : pos = p
  · rw [if_pos hp]
    exact ⟨f e, rfl, by rw [hf, hh]⟩
  · rw [if_neg hp]
    exact ⟨e, rfl, hh⟩

theorem mem_of_getElem? (els : List KeyEl) (i : Nat) (e : KeyEl) (h : els[i]? = some e) :
    e ∈ els := by
  obtain ⟨hlt, he⟩ := List.getElem?_eq_some.mp h
  exact he ▸ List.getElem_mem hlt

theorem mem_of_matchAt (ms : List Nat) (i : Int) (pos : Nat) (h : matchAt ms i = some pos) :
    pos ∈ ms := by
  unfold matchAt at h
  by_cases h0 : 0 ≤ i
  · rw [if_pos h0] at h
    obtain ⟨hlt, he⟩ := List.getElem?_eq_some.mp h
    exact he ▸ List.getElem_mem hlt
  · rw [if_neg h0] at h
    cases h

theorem searchInv_moveCursor (s s' : SearchState) (idx : Int) (hinv : SearchInv s)
    (h : moveCursor s idx = some s') : SearchInv s' := by
  obtain ⟨h1, h2⟩ := hinv
  unfold moveCursor at h
  cases hc : matchAt s.searchMatches s.searchIndex with
  | none => simp [hc] at h
  | some cur =>
    cases hn : matchAt s.searchMatches idx with
    | none => simp [hc, hn] at h
    | some nxt =>
      simp only [hc, hn, Option.some.injEq] at h
      subst h
      have hnxt := h2 nxt (mem_of_matchAt _ _ _ hn)
      constructor
      · intro e' he' ha
        simp only at he'
        rcases mem_updateAt _ _ _ e' he' with hm | ⟨e1, hg, rfl⟩
        · rcases mem_updateAt _ _ _ e' hm with hm1 | ⟨e2, _, rfl⟩
          · exact h1 e' hm1 ha
          · simp at ha
        · rw [getElem?_updateAt] at hg
          obtain ⟨e0, he0, hh0⟩ := hnxt
          by_cases hcn : nxt = cur
          · simp only [hcn, if_true] at hg
            rw [← hcn, he0] at hg
            simp only [Option.map_some', Option.some.injEq] at hg
            subst hg
            exact hh0
          · rw [if_neg hcn, he0] at hg
            simp only [Option.some.injEq] at hg
            subst hg
            exact hh0
      · intro pos hpos
        exact highlight_updateAt (fun e => { e with active := true }) (fun _ => rfl) nxt _ pos
          (highlight_updateAt (fun e => { e with active := false }) (fun _ => rfl) cur _ pos
            (h2 pos hpos))

theorem searchInv_searchNext (s s' : SearchState) (hinv : SearchInv s)
    (h : searchNext s = some s') : SearchInv s' := by
  unfold searchNext at h
  by_cases hl : s.searchMatches.length = 0
  · rw [if_pos hl] at h
    cases h
    exact hinv
  · rw [if_neg hl] at h
    exact searchInv_moveCursor s s' _ hinv h

theorem searchInv_searchPrev (s s' : SearchState) (hinv : SearchInv s)
    (h : searchPrev s = some s') : SearchInv s' := by
  unfold searchPrev at h
  by_cases hl : s.searchMatches.length = 0
  · rw [if_pos hl] at h
    cases h
    exact hinv
  · rw [if_neg hl] at h
    exact searchInv_moveCursor s s' _ hinv h

theorem findMatches_mem (lower : Text → Text) (keyword : Text) :
    ∀ (els : List KeyEl) (i pos : Nat), pos ∈ findMatches lower keyword i els →
      ∃ e, i ≤ pos ∧ els[pos - i]? = some e ∧ matchesKeyword lower keyword e = true
  | [], _, _, h => by simp [findMatches] at h
  | e :: es, i, pos, h => by
    simp only [findMatches] at h
    by_cases hm : matchesKeyword lower keyword e = true
    · rw [if_pos hm, List.mem_cons] at h
      rcases h with h | h
      · subst h
        exact ⟨e, Nat.le_refl _, by simp, hm⟩
      · obtain ⟨e1, hle, hg, hm1⟩ := findMatches_mem lower keyword es (i + 1) pos h
        refine ⟨e1, by omega, ?_, hm1⟩
        have : pos - i = (pos - (i + 1)) + 1 := by omega
        rw [this, List.getElem?_cons_succ]
        exact hg
    · rw [if_neg hm] at h
      obtain ⟨e1, hle, hg, hm1⟩ := findMatches_mem lower keyword es (i + 1) pos h
      refine ⟨e1, by omega, ?_, hm1⟩
      have : pos - i = (pos - (i + 1)) + 1 := by omega
      rw [this, List.getElem?_cons_succ]
      exact hg

theorem searchInv_onSearchInput (lower : Text → Text) (input : Text) (s : SearchState)
    (hinv : ∀ e ∈ s.els, e.active = true → e.highlight = true) :
    SearchInv (onSearchInput lower input s) := by
  have hclear := clearSearchHighlights_inactive s.els hinv
  have hmark : ∀ e' ∈ markHighlights lower (lower (trim input)) (clearSearchHighlights s.els),
      e'.active = false := by
    intro e' he'
    obtain ⟨e1, he1, ha⟩ := markHighlights_active _ _ _ e' he'
    rw [ha]
    exact (hclear e1 he1).1
  unfold onSearchInput
  by_cases hk : lower (trim input) = []
  · rw [if_pos hk]
    constructor
    · intro e he ha
      rw [(hclear e he).1] at ha
      cases ha
    · intro pos hpos
      simp at hpos
  · rw [if_neg hk]
    cases hf : findMatches lower (lower (trim input)) 0 (clearSearchHighlights s.els) with
    | nil =>
      constructor
      · intro e he ha
        rw [hmark e he] at ha
        cases ha
      · intro pos hpos
        simp at hpos
    | cons first more =>
      have hhl : ∀ pos ∈ first :: more, ∃ e,
          (markHighlights lower (lower (trim input)) (clearSearchHighlights s.els))[pos]? = some e ∧
            e.highlight = true := by
        intro pos hpos
        rw [← hf] at hpos
        obtain ⟨e, _, hg, hm⟩ := findMatches_mem _ _ _ 0 pos hpos
        simp only [Nat.sub_zero] at hg
        refine ⟨{ e with highlight := true }, ?_, rfl⟩
        simp [markHighlights, List.getElem?_map, hg, hm]
      constructor
      · intro e' he' ha
        simp only at he'
        rcases mem_updateAt _ _ _ e' he' with hm | ⟨e1, hg, rfl⟩
        · rw [hmark e' hm] at ha
          cases ha
        · obtain ⟨e2, hg2, hh2⟩ := hhl first (List.mem_cons_self _ _)
          rw [hg2] at hg
          simp only [Option.some.injEq] at hg
          subst hg
          exact hh2
      · intro pos hpos
        exact highlight_updateAt (fun e => { e with active := true }) (fun _ => rfl) first _ pos
          (hhl pos hpos)


/-! ### The fuel of `JSON.parse` is always enough -/

theorem parseValue_succ (f : Nat) (s : Text) :
    parseValue (f + 1) s = valueStep (parseElements f) (parseMembers f) s := by
  rw [parseValue.eq_2]; rfl

theorem parseElements_succ (f : Nat) (s : Text) :
    parseElements (f + 1) s = elementsStep (parseValue f) (parseElements f) s := by
  rw [parseElements.eq_2]; rfl

theorem parseMembers_succ (f : Nat) (s : Text) :
    parseMembers (f + 1) s = membersStep (parseValue f) (parseMembers f) s := by
  rw [parseMembers.eq_2]; rfl

theorem skipWs_length_le (s : Text) : (skipWs s).length ≤ s.length := by
  induction s with
  | nil => simp [skipWs]
  | cons c s ih =>
    simp only [skipWs]
    by_cases h : isJsonWs c = true
    · rw [if_pos h]
      simp only [List.length_cons]
      omega
    · rw [if_neg h]

theorem skipWs_eq_cons_length (s : Text) (c : Nat) (rest : Text) (h : skipWs s = c :: rest) :
    rest.length < s.length := by
  have := skipWs_length_le s
  rw [h] at this
  simp only [List.length_cons] at this
  omega

theorem consUnit_some (u : Nat) (o : Option (Text × Text)) (str r : Text)
    (h : consUnit u o = some (str, r)) : ∃ str', o = some (str', r) := by
  cases o with
  | none => simp [consUnit] at h
  | some p =>
    obtain ⟨a, b⟩ := p
    simp only [consUnit, Option.some.injEq, Prod.mk.injEq] at h
    exact ⟨a, by rw [h.2]⟩

theorem parseString_length (n : Nat) : ∀ (s str r : Text), s.length ≤ n →
    parseString s = some (str, r) → r.length < s.length := by
  induction n with
  | zero =>
    intro s str r hs h
    have : s = [] := List.length_eq_zero.mp (Nat.le_zero.mp hs)
    subst this
    rw [parseString.eq_def] at h
    cases h
  | succ n ih =>
    intro s str r hs h
    rw [parseString.eq_def] at h
    cases s with
    | nil => cases h
    | cons c rest =>
      simp only at h
      simp only [List.length_cons] at hs ⊢
      by_cases h22 : c = 0x22
      · rw [if_pos h22] at h
        simp only [Option.some.injEq, Prod.mk.injEq] at h
        rw [← h.2]
        omega
      rw [if_neg h22] at h
      by_cases h5C : c = 0x5C
      · rw [if_pos h5C] at h
        cases rest with
        | nil => cases h
        | cons e rest1 =>
          simp only at h
          simp only [List.length_cons] at hs ⊢
          by_cases hu : e = 0x75
          · rw [if_pos hu] at h
            match rest1, h, hs with
            | a :: b :: c1 :: d :: rest2, h, hs =>
              simp only at h
              cases h4 : hex4 a b c1 d with
              | none => simp [h4] at h
              | some u =>
                simp only [h4] at h
                obtain ⟨str', hstr⟩ := consUnit_some _ _ _ _ h
                have := ih rest2 str' r (by simp only [List.length_cons] at hs; omega) hstr
                simp only [List.length_cons]
                omega
            | [], h, _ => cases h
            | [_], h, _ => cases h
            | [_, _], h, _ => cases h
            | [_, _, _], h, _ => cases h
          · rw [if_neg hu] at h
            cases hun : unescape e with
            | none => simp [hun] at h
            | some u =>
              simp only [hun] at h
              obtain ⟨str', hstr⟩ := consUnit_some _ _ _ _ h
              have := ih rest1 str' r (by omega) hstr
              omega
      rw [if_neg h5C] at h
      by_cases hlt : c < 0x20
      · rw [if_pos hlt] at h
        cases h
      · rw [if_neg hlt] at h
        obtain ⟨str', hstr⟩ := consUnit_some _ _ _ _ h
        have := ih rest str' r (by omega) hstr
        omega

theorem expect_length : ∀ (ks s r : Text), expect ks s = some r → r.length ≤ s.length
  | [], s, r, h => by
    simp only [expect, Option.some.injEq] at h
    rw [h]
  | _ :: _, [], r, h => by simp [expect] at h
  | k :: ks, c :: s, r, h => by
    simp only [expect] at h
    by_cases hk : k = c
    · rw [if_pos hk] at h
      have := expect_length ks s r h
      simp only [List.length_cons]
      omega
    · rw [if_neg hk] at h
      cases h

theorem spanDigits_length (s : Text) : (spanDigits s).2.length ≤ s.length := by
  induction s with
  | nil => simp [spanDigits]
  | cons c s ih =>
    simp only [spanDigits]
    by_cases h : isDigit c = true
    · rw [if_pos h]
      simp only [List.length_cons]
      omega
    · rw [if_neg h]

theorem lexInt_length (s a r : Text) (h : lexInt s = some (a, r)) : r.length < s.length := by
  cases s with
  | nil => simp [lexInt] at h
  | cons d s =>
    simp only [lexInt] at h
    simp only [List.length_cons]
    by_cases h0 : d = 0x30
    · rw [if_pos h0] at h
      simp only [Option.some.injEq, Prod.mk.injEq] at h
      rw [← h.2]
      omega
    · rw [if_neg h0] at h
      by_cases hd : isDigit d = true
      · rw [if_pos hd] at h
        simp only [Option.some.injEq, Prod.mk.injEq] at h
        rw [← h.2]
        have := spanDigits_length s
        omega
      · rw [if_neg hd] at h
        cases h

theorem lexFrac_length (s a r : Text) (h : lexFrac s = some (a, r)) : r.length ≤ s.length := by
  cases s with
  | nil =>
    simp only [lexFrac, Option.some.injEq, Prod.mk.injEq] at h
    rw [← h.2]
  | cons c s =>
    simp only [lexFrac] at h
    simp only [List.length_cons]
    by_cases h0 : c = 0x2E
    · rw [if_pos h0] at h
      by_cases he : (spanDigits s).1 = []
      · rw [if_pos he] at h
        cases h
      · rw [if_neg he] at h
        simp only [Option.some.injEq, Prod.mk.injEq] at h
        rw [← h.2]
        have := spanDigits_length s
        omega
    · rw [if_neg h0] at h
      simp only [Option.some.injEq, Prod.mk.injEq] at h
      rw [← h.2]
      simp

theorem lexExp_length (s a r : Text) (h : lexExp s = some (a, r)) : r.length ≤ s.length := by
  cases s with
  | nil =>
    simp only [lexExp, Option.some.injEq, Prod.mk.injEq] at h
    rw [← h.2]
  | cons c s =>
    simp only [lexExp] at h
    simp only [List.length_cons]
    by_cases h0 : c = 0x65 ∨ c = 0x45
    · rw [if_pos h0] at h
      cases s with
      | nil => cases h
      | cons g s1 =>
        simp only at h
        simp only [List.length_cons]
        by_cases hg : g = 0x2B ∨ g = 0x2D
        · rw [if_pos hg] at h
          by_cases he : (spanDigits s1).1 = []
          · rw [if_pos he] at h
            cases h
          · rw [if_neg he] at h
            simp only [Option.some.injEq, Prod.mk.injEq] at h
            rw [← h.2]
            have := spanDigits_length s1
            omega
        · rw [if_neg hg] at h
          by_cases he : (spanDigits (g :: s1)).1 = []
          · rw [if_pos he] at h
            cases h
          · rw [if_neg he] at h
            simp only [Option.some.injEq, Prod.mk.injEq] at h
            rw [← h.2]
            have := spanDigits_length (g :: s1)
            simp only [List.length_cons] at this
            omega
    · rw [if_neg h0] at h
      simp only [Option.some.injEq, Prod.mk.injEq] at h
      rw [← h.2]
      simp

theorem lexUnsigned_length (s a r : Text) (h : lexUnsigned s = some (a, r)) :
    r.length < s.length := by
  unfold lexUnsigned at h
  cases hi : lexInt s with
  | none => simp [hi] at h
  | some p =>
    obtain ⟨i, r1⟩ := p
    simp only [hi] at h
    cases hf : lexFrac r1 with
    | none => simp [hf] at h
    | some p =>
      obtain ⟨f, r2⟩ := p
      simp only [hf] at h
      cases he : lexExp r2 with
      | none => simp [he] at h
      | some p =>
        obtain ⟨e, r3⟩ := p
        simp only [he, Option.some.injEq, Prod.mk.injEq] at h
        rw [← h.2]
        have h1 := lexInt_length s i r1 hi
        have h2 := lexFrac_length r1 f r2 hf
        have h3 := lexExp_length r2 e r3 he
        omega

theorem lexNumber_length (s a r : Text) (h : lexNumber s = some (a, r)) :
    r.length < s.length := by
  cases s with
  | nil => simp [lexNumber] at h
  | cons c s =>
    simp only [lexNumber] at h
    by_cases hc : c = 0x2D
    · rw [if_pos hc] at h
      cases hu : lexUnsigned s with
      | none => simp [hu] at h
      | some p =>
        obtain ⟨l, r1⟩ := p
        simp only [hu, Option.some.injEq, Prod.mk.injEq] at h
        rw [← h.2]
        have := lexUnsigned_length s l r1 hu
        simp only [List.length_cons]
        omega
    · rw [if_neg hc] at h
      exact lexUnsigned_length (c :: s) a r h


theorem valueStep_transfer (pe pe' : Text → Option (List (Json Text) × Text))
    (pm pm' : Text → Option (List (Text × Json Text) × Text)) (s : Text) (v : Json Text)
    (r : Text) (hpe : Shrinks pe) (hpm : Shrinks pm) (h : valueStep pe pm s = some (v, r)) :
    r.length < s.length ∧
      ((∀ t xs, t.length < s.length → pe t = some (xs, r) → pe' t = some (xs, r)) →
        (∀ t kvs, t.length < s.length → pm t = some (kvs, r) → pm' t = some (kvs, r)) →
        valueStep pe' pm' s = some (v, r)) := by
  unfold valueStep at h ⊢
  cases hs : skipWs s with
  | nil => simp [hs] at h
  | cons c rest =>
    have hrest := skipWs_eq_cons_length s c rest hs
    simp only [hs] at h ⊢
    by_cases h7B : c = 0x7B
    · simp only [h7B, if_true] at h ⊢
      cases hs1 : skipWs rest with
      | nil => simp [hs1] at h
      | cons d rest1 =>
        have hrest1 := skipWs_eq_cons_length rest d rest1 hs1
        simp only [hs1] at h ⊢
        by_cases h7D : d = 0x7D
        · simp only [h7D, if_true, Option.some.injEq, Prod.mk.injEq] at h ⊢
          refine ⟨by rw [← h.2]; omega, fun _ _ => h⟩
        · simp only [h7D, if_false] at h ⊢
          cases hm : pm (d :: rest1) with
          | none => simp [hm] at h
          | some p =>
            obtain ⟨kvs, r1⟩ := p
            simp only [hm, Option.some.injEq, Prod.mk.injEq] at h
            obtain ⟨hv, hr⟩ := h
            subst hr
            have hlen := hpm _ _ _ hm
            simp only [List.length_cons] at hlen
            refine ⟨by omega, fun _ hpm' => ?_⟩
            rw [hpm' (d :: rest1) kvs (by simp only [List.length_cons]; omega) hm]
            simp [hv]
    simp only [h7B, if_false] at h ⊢
    by_cases h5B : c = 0x5B
    · simp only [h5B, if_true] at h ⊢
      cases hs1 : skipWs rest with
      | nil => simp [hs1] at h
      | cons d rest1 =>
        have hrest1 := skipWs_eq_cons_length rest d rest1 hs1
        simp only [hs1] at h ⊢
        by_cases h5D : d = 0x5D
        · simp only [h5D, if_true, Option.some.injEq, Prod.mk.injEq] at h ⊢
          refine ⟨by rw [← h.2]; omega, fun _ _ => h⟩
        · simp only [h5D, if_false] at h ⊢
          cases hm : pe (d :: rest1) with
          | none => simp [hm] at h
          | some p =>
            obtain ⟨xs, r1⟩ := p
            simp only [hm, Option.some.injEq, Prod.mk.injEq] at h
            obtain ⟨hv, hr⟩ := h
            subst hr
            have hlen := hpe _ _ _ hm
            simp only [List.length_cons] at hlen
            refine ⟨by omega, fun hpe' _ => ?_⟩
            rw [hpe' (d :: rest1) xs (by simp only [List.length_cons]; omega) hm]
            simp [hv]
    simp only [h5B, if_false] at h ⊢
    by_cases h22 : c = 0x22
    · simp only [h22, if_true] at h ⊢
      cases hp : parseString rest with
      | none => simp [hp] at h
      | some p =>
        obtain ⟨str, r1⟩ := p
        simp only [hp, Option.some.injEq, Prod.mk.injEq] at h ⊢
        have := parseString_length rest.length rest str r1 (Nat.le_refl _) hp
        refine ⟨by rw [← h.2]; omega, fun _ _ => h⟩
    simp only [h22, if_false] at h ⊢
    by_cases h6E : c = 0x6E
    · simp only [h6E, if_true] at h ⊢
      cases hp : expect [0x75, 0x6C, 0x6C] rest with
      | none => simp [hp] at h
      | some r1 =>
        simp only [hp, Option.some.injEq, Prod.mk.injEq] at h ⊢
        have := expect_length _ rest r1 hp
        refine ⟨by rw [← h.2]; omega, fun _ _ => h⟩
    simp only [h6E, if_false] at h ⊢
    by_cases h74 : c = 0x74
    · simp only [h74, if_true] at h ⊢
      cases hp : expect [0x72, 0x75, 0x65] rest with
      | none => simp [hp] at h
      | some r1 =>
        simp only [hp, Option.some.injEq, Prod.mk.injEq] at h ⊢
        have := expect_length _ rest r1 hp
        refine ⟨by rw [← h.2]; omega, fun _ _ => h⟩
    simp only [h74, if_false] at h ⊢
    by_cases h66 : c = 0x66
    · simp only [h66, if_true] at h ⊢
      cases hp : expect [0x61, 0x6C, 0x73, 0x65] rest with
      | none => simp [hp] at h
      | some r1 =>
        simp only [hp, Option.some.injEq, Prod.mk.injEq] at h ⊢
        have := expect_length _ rest r1 hp
        refine ⟨by rw [← h.2]; omega, fun _ _ => h⟩
    simp only [h66, if_false] at h ⊢
    cases hp : lexNumber (c :: rest) with
    | none => simp [hp] at h
    | some p =>
      obtain ⟨l, r1⟩ := p
      simp only [hp, Option.some.injEq, Prod.mk.injEq] at h ⊢
      have := lexNumber_length _ l r1 hp
      simp only [List.length_cons] at this
      refine ⟨by rw [← h.2]; omega, fun _ _ => h⟩

theorem elementsStep_transfer (pv pv' : Text → Option (Json Text × Text))
    (pe pe' : Text → Option (List (Json Text) × Text)) (s : Text) (xs : List (Json Text))
    (r : Text) (hpv : Shrinks pv) (hpe : Shrinks pe)
    (h : elementsStep pv pe s = some (xs, r)) :
    r.length + 1 < s.length ∧
      ((∀ v r1, r.length < r1.length → pv s = some (v, r1) → pv' s = some (v, r1)) →
        (∀ t vs, t.length + 1 < s.length → pe t = some (vs, r) → pe' t = some (vs, r)) →
        elementsStep pv' pe' s = some (xs, r)) := by
  unfold elementsStep at h ⊢
  cases hv : pv s with
  | none => simp [hv] at h
  | some p =>
    obtain ⟨v, r1⟩ := p
    have hr1 := hpv _ _ _ hv
    simp only [hv] at h
    cases hs : skipWs r1 with
    | nil => simp [hs] at h
    | cons c rest =>
      have hrest := skipWs_eq_cons_length r1 c rest hs
      simp only [hs] at h
      by_cases h2C : c = 0x2C
      · simp only [h2C, if_true] at h
        cases hm : pe rest with
        | none => simp [hm] at h
        | some p =>
          obtain ⟨vs, r2⟩ := p
          simp only [hm, Option.some.injEq, Prod.mk.injEq] at h
          obtain ⟨hx, hr⟩ := h
          subst hr
          have hlen := hpe _ _ _ hm
          refine ⟨by omega, fun hpv' hpe' => ?_⟩
          rw [hpv' v r1 (by omega) rfl]
          simp only [hs, h2C, if_true]
          rw [hpe' rest vs (by omega) hm]
          simp [hx]
      · simp only [h2C, if_false] at h
        by_cases h5D : c = 0x5D
        · simp only [h5D, if_true, Option.some.injEq, Prod.mk.injEq] at h
          obtain ⟨hx, hr⟩ := h
          subst hr
          refine ⟨by omega, fun hpv' _ => ?_⟩
          rw [hpv' v r1 (by omega) rfl]
          simp only [hs, h2C, h5D, if_true, if_false]
          simp [hx]
        · simp [h5D] at h

theorem membersStep_transfer (pv pv' : Text → Option (Json Text × Text))
    (pm pm' : Text → Option (List (Text × Json Text) × Text)) (s : Text)
    (kvs : List (Text × Json Text)) (r : Text) (hpv : Shrinks pv) (hpm : Shrinks pm)
    (h : membersStep pv pm s = some (kvs, r)) :
    r.length + 1 < s.length ∧
      ((∀ t v r1, t.length < s.length → r.length < r1.length → pv t = some (v, r1) →
          pv' t = some (v, r1)) →
        (∀ t vs, t.length + 1 < s.length → pm t = some (vs, r) → pm' t = some (vs, r)) →
        membersStep pv' pm' s = some (kvs, r)) := by
  unfold membersStep at h ⊢
  cases hs : skipWs s with
  | nil => simp [hs] at h
  | cons q s1 =>
    have hs1 := skipWs_eq_cons_length s q s1 hs
    simp only [hs] at h ⊢
    by_cases hq : q = 0x22
    · simp only [hq, if_true] at h ⊢
      cases hp : parseString s1 with
      | none => simp [hp] at h
      | some p =>
        obtain ⟨k, s2⟩ := p
        have hs2 := parseString_length s1.length s1 k s2 (Nat.le_refl _) hp
        simp only [hp] at h ⊢
        cases hc : skipWs s2 with
        | nil => simp [hc] at h
        | cons col s3 =>
          have hs3 := skipWs_eq_cons_length s2 col s3 hc
          simp only [hc] at h ⊢
          by_cases hcol : col = 0x3A
          · simp only [hcol, if_true] at h ⊢
            cases hv : pv s3 with
            | none => simp [hv] at h
            | some p =>
              obtain ⟨v, r1⟩ := p
              have hr1 := hpv _ _ _ hv
              simp only [hv] at h
              cases hw : skipWs r1 with
              | nil => simp [hw] at h
              | cons c rest =>
                have hrest := skipWs_eq_cons_length r1 c rest hw
                simp only [hw] at h
                by_cases h2C : c = 0x2C
                · simp only [h2C, if_true] at h
                  cases hm : pm rest with
                  | none => simp [hm] at h
                  | some p =>
                    obtain ⟨vs, r2⟩ := p
                    simp only [hm, Option.some.injEq, Prod.mk.injEq] at h
                    obtain ⟨hx, hr⟩ := h
                    subst hr
                    have hlen := hpm _ _ _ hm
                    refine ⟨by omega, fun hpv' hpm' => ?_⟩
                    rw [hpv' s3 v r1 (by omega) (by omega) hv]
                    simp only [hw, h2C, if_true]
                    rw [hpm' rest vs (by omega) hm]
                    simp [hx]
                · simp only [h2C, if_false] at h
                  by_cases h7D : c = 0x7D
                  · simp only [h7D, if_true, Option.some.injEq, Prod.mk.injEq] at h
                    obtain ⟨hx, hr⟩ := h
                    subst hr
                    refine ⟨by omega, fun hpv' _ => ?_⟩
                    rw [hpv' s3 v r1 (by omega) (by omega) hv]
                    simp only [hw, h2C, h7D, if_true, if_false]
                    simp [hx]
                  · simp [h7D] at h
          · simp [hcol] at h
    · simp [hq] at h


theorem shrinks_of_fuelFree {α : Type} (p : Nat → Text → Option (α × Text)) (f : Nat)
    (h : FuelFree p f) : Shrinks (p f) :=
  fun t x r ht => (h t x r ht).1

theorem fuelFree_all : ∀ (f : Nat),
    FuelFree parseValue f ∧ FuelFree parseElements f ∧ FuelFree parseMembers f := by
  intro f
  induction f with
  | zero =>
    refine ⟨?_, ?_, ?_⟩
    · intro s x r h
      rw [parseValue.eq_1] at h
      cases h
    · intro s x r h
      rw [parseElements.eq_1] at h
      cases h
    · intro s x r h
      rw [parseMembers.eq_1] at h
      cases h
  | succ f ih =>
    obtain ⟨ihv, ihe, ihm⟩ := ih
    have sv := shrinks_of_fuelFree parseValue f ihv
    have se := shrinks_of_fuelFree parseElements f ihe
    have sm := shrinks_of_fuelFree parseMembers f ihm
    refine ⟨?_, ?_, ?_⟩
    · intro s v r h
      rw [parseValue_succ] at h
      refine ⟨(valueStep_transfer _ (parseElements 0) _ (parseMembers 0) s v r se sm h).1, ?_⟩
      intro g hg
      have hlen := (valueStep_transfer _ (parseElements 0) _ (parseMembers 0) s v r se sm h).1
      obtain ⟨g', rfl⟩ : ∃ g', g = g' + 1 := ⟨g - 1, by omega⟩
      rw [parseValue_succ]
      apply (valueStep_transfer _ (parseElements g') _ (parseMembers g') s v r se sm h).2
      · intro t xs ht hp
        have := ihe t xs r hp
        exact this.2 g' (by omega)
      · intro t kvs ht hp
        have := ihm t kvs r hp
        exact this.2 g' (by omega)
    · intro s xs r h
      rw [parseElements_succ] at h
      have hlen := (elementsStep_transfer _ (parseValue 0) _ (parseElements 0) s xs r sv se h).1
      refine ⟨by omega, ?_⟩
      intro g hg
      obtain ⟨g', rfl⟩ : ∃ g', g = g' + 1 := ⟨g - 1, by omega⟩
      rw [parseElements_succ]
      apply (elementsStep_transfer _ (parseValue g') _ (parseElements g') s xs r sv se h).2
      · intro v r1 hr1 hp
        have := ihv s v r1 hp
        exact this.2 g' (by omega)
      · intro t vs ht hp
        have := ihe t vs r hp
        exact this.2 g' (by omega)
    · intro s kvs r h
      rw [parseMembers_succ] at h
      have hlen := (membersStep_transfer _ (parseValue 0) _ (parseMembers 0) s kvs r sv sm h).1
      refine ⟨by omega, ?_⟩
      intro g hg
      obtain ⟨g', rfl⟩ : ∃ g', g = g' + 1 := ⟨g - 1, by omega⟩
      rw [parseMembers_succ]
      apply (membersStep_transfer _ (parseValue g') _ (parseMembers g') s kvs r sv sm h).2
      · intro t v r1 ht hr1 hp
        have := ihv t v r1 hp
        exact this.2 g' (by omega)
      · intro t vs ht hp
        have := ihm t vs r hp
        exact this.2 g' (by omega)

/-- The fuel that `parseSyntax` starts with is enough: a text that reads as a
JSON value with some fuel, up to trailing whitespace, is accepted. -/
theorem parseSyntax_complete (f : Nat) (s : Text) (v : Json Text) (rest : Text)
    (h : parseValue f s = some (v, rest)) (hr : skipWs rest = []) : parseSyntax s = some v := by
  have := ((fuelFree_all f).1 s v rest h).2 (s.length + 1) (by omega)
  unfold parseSyntax
  rw [this]
  simp [hr]

/-- A text that `parseSyntax` rejects is not JSON with any amount of fuel. -/
theorem parseSyntax_none (s : Text) (h : parseSyntax s = none) (f : Nat) (v : Json Text)
    (rest : Text) (hp : parseValue f s = some (v, rest)) : skipWs rest ≠ [] := by
  intro hr
  rw [parseSyntax_complete f s v rest hp hr] at h
  cases h


/-! ### The fuel of a global replace is always enough -/

theorem replaceAll_fuel (m : Text → Option (Text × Text)) (hm : Shrinks m) :
    ∀ (f g : Nat) (s : Text), s.length ≤ f → s.length ≤ g →
      replaceAll m f s = replaceAll m g s := by
  intro f
  induction f with
  | zero =>
    intro g s hf _
    have : s = [] := List.length_eq_zero.mp (Nat.le_zero.mp hf)
    subst this
    cases g <;> simp [replaceAll]
  | succ f ih =>
    intro g s hf hg
    cases s with
    | nil => cases g <;> simp [replaceAll]
    | cons c cs =>
      simp only [List.length_cons] at hf hg
      obtain ⟨g', rfl⟩ : ∃ g', g = g' + 1 := ⟨g - 1, by omega⟩
      simp only [replaceAll]
      cases hmc : m (c :: cs) with
      | none =>
        simp only
        rw [ih g' cs (by omega) (by omega)]
      | some p =>
        obtain ⟨rep, rest⟩ := p
        have := hm _ _ _ hmc
        simp only [List.length_cons] at this
        simp only
        rw [ih g' rest (by omega) (by omega)]

/-- With more fuel than the length of the text a global replace gives the same
result. -/
theorem replaceG_fuel (m : Text → Option (Text × Text)) (hm : Shrinks m) (s : Text) (g : Nat)
    (hg : s.length ≤ g) : replaceAll m g s = replaceG m s :=
  (replaceAll_fuel m hm s.length g s (Nat.le_refl _) hg).symm

theorem skipSpaces_length_le (s : Text) : (skipSpaces s).length ≤ s.length := by
  induction s with
  | nil => simp [skipSpaces]
  | cons c s ih =>
    simp only [skipSpaces]
    by_cases h : isSpace c = true
    · rw [if_pos h]
      simp only [List.length_cons]
      omega
    · rw [if_neg h]

theorem spanWord_length_le (s : Text) : (spanWord s).2.length ≤ s.length := by
  induction s with
  | nil => simp [spanWord]
  | cons c s ih =>
    simp only [spanWord]
    by_cases h : isWord c = true
    · rw [if_pos h]
      simp only [List.length_cons]
      omega
    · rw [if_neg h]

theorem skipLine_length_le (s : Text) : (skipLine s).length ≤ s.length := by
  induction s with
  | nil => simp [skipLine]
  | cons c s ih =>
    simp only [skipLine]
    by_cases h : isLineTerminator c = true
    · rw [if_pos h]
    · rw [if_neg h]
      simp only [List.length_cons]
      omega

theorem afterBlockEnd_length_le (s r : Text) (h : afterBlockEnd s = some r) :
    r.length ≤ s.length := by
  induction s with
  | nil => simp [afterBlockEnd] at h
  | cons c s ih =>
    simp only [afterBlockEnd] at h
    by_cases hc : c = 0x2A ∧ startsWith s 0x2F = true
    · rw [if_pos hc] at h
      simp only [Option.some.injEq] at h
      rw [← h]
      simp only [List.length_tail, List.length_cons]
      omega
    · rw [if_neg hc] at h
      have := ih h
      simp only [List.length_cons]
      omega

theorem shrinks_matchTrailingComma : Shrinks matchTrailingComma := by
  intro t x r h
  cases t with
  | nil => simp [matchTrailingComma] at h
  | cons c s =>
    simp only [matchTrailingComma] at h
    by_cases hc : c = 0x2C
    · rw [if_pos hc] at h
      have hl := skipSpaces_length_le s
      cases hs : skipSpaces s with
      | nil => simp [hs] at h
      | cons d r1 =>
        rw [hs] at hl
        simp only [hs] at h
        by_cases hd : d = 0x5D ∨ d = 0x7D
        · rw [if_pos hd] at h
          simp only [Option.some.injEq, Prod.mk.injEq] at h
          rw [← h.2]
          simp only [List.length_cons] at hl ⊢
          omega
        · rw [if_neg hd] at h
          cases h
    · rw [if_neg hc] at h
      cases h

theorem shrinks_matchSingleQuote : Shrinks matchSingleQuote := by
  intro t x r h
  cases t with
  | nil => simp [matchSingleQuote] at h
  | cons c s =>
    simp only [matchSingleQuote] at h
    by_cases hc : c = 0x27
    · rw [if_pos hc] at h
      simp only [Option.some.injEq, Prod.mk.injEq] at h
      rw [← h.2]
      simp
    · rw [if_neg hc] at h
      cases h

theorem shrinks_matchBareKey (o : Nat) : Shrinks (matchBareKey o) := by
  intro t x r h
  cases t with
  | nil => simp [matchBareKey] at h
  | cons c s =>
    simp only [matchBareKey] at h
    by_cases hc : c = o
    · rw [if_pos hc] at h
      by_cases hw : (spanWord (skipSpaces s)).1 = []
      · rw [if_pos hw] at h
        cases h
      · rw [if_neg hw] at h
        have h1 := skipSpaces_length_le s
        have h2 := spanWord_length_le (skipSpaces s)
        have h3 := skipSpaces_length_le (spanWord (skipSpaces s)).2
        cases hs : skipSpaces (spanWord (skipSpaces s)).2 with
        | nil => simp [hs] at h
        | cons d r1 =>
          rw [hs] at h3
          simp only [hs] at h
          by_cases hd : d = 0x3A
          · rw [if_pos hd] at h
            simp only [Option.some.injEq, Prod.mk.injEq] at h
            rw [← h.2]
            simp only [List.length_cons] at h3 ⊢
            omega
          · rw [if_neg hd] at h
            cases h
    · rw [if_neg hc] at h
      cases h

theorem shrinks_matchLineComment : Shrinks matchLineComment := by
  intro t x r h
  cases t with
  | nil => simp [matchLineComment] at h
  | cons c s =>
    simp only [matchLineComment] at h
    by_cases hc : c = 0x2F ∧ startsWith s 0x2F = true
    · rw [if_pos hc] at h
      simp only [Option.some.injEq, Prod.mk.injEq] at h
      rw [← h.2]
      have := skipLine_length_le s.tail
      simp only [List.length_tail, List.length_cons] at this ⊢
      omega
    · rw [if_neg hc] at h
      cases h

theorem shrinks_matchBlockComment : Shrinks matchBlockComment := by
  intro t x r h
  cases t with
  | nil => simp [matchBlockComment] at h
  | cons c s =>
    simp only [matchBlockComment] at h
    by_cases hc : c = 0x2F ∧ startsWith s 0x2A = true
    · rw [if_pos hc] at h
      cases ha : afterBlockEnd s.tail with
      | none => simp [ha] at h
      | some r1 =>
        simp only [ha, Option.some.injEq, Prod.mk.injEq] at h
        rw [← h.2]
        have := afterBlockEnd_length_le s.tail r1 ha
        simp only [List.length_tail, List.length_cons] at this ⊢
        omega
    · rw [if_neg hc] at h
      cases h

theorem shrinks_matchMissingComma (o : Nat) : Shrinks (matchMissingComma o) := by
  intro t x r h
  cases t with
  | nil => simp [matchMissingComma] at h
  | cons c s =>
    simp only [matchMissingComma] at h
    by_cases hc : c = o ∧ spacesHaveNewline s = true
    · rw [if_pos hc] at h
      have hl := skipSpaces_length_le s
      cases hs : skipSpaces s with
      | nil => simp [hs] at h
      | cons d r1 =>
        rw [hs] at hl
        simp only [hs] at h
        by_cases hd : d = 0x22
        · rw [if_pos hd] at h
          simp only [Option.some.injEq, Prod.mk.injEq] at h
          rw [← h.2]
          simp only [List.length_cons] at hl ⊢
          omega
        · rw [if_neg hd] at h
          cases h
    · rw [if_neg hc] at h
      cases h


/-! ### The position of a parse error -/

theorem foldl_lineColStep (s : Text) (h : 0x0A ∉ s) (l c : Nat) :
    s.foldl lineColStep (l, c) = (l, c + s.length) := by
  induction s generalizing c with
  | nil => rfl
  | cons x xs ih =>
    have hx : x ≠ 0x0A := fun e => h (by simp [e])
    have hxs : 0x0A ∉ xs := fun e => h (List.mem_cons_of_mem _ e)
    simp only [List.foldl_cons, lineColStep, if_neg hx, List.length_cons]
    rw [ih hxs]
    congr 1
    omega

theorem lineCol_single_line (raw : Text) (h : 0x0A ∉ raw) (p : Nat) :
    lineCol raw (p : Int) = (1, min p raw.length + 1) := by
  unfold lineCol
  rw [if_pos (by omega)]
  have ht : 0x0A ∉ raw.take (min (p : Int).toNat raw.length) :=
    fun e => h (List.mem_of_mem_take e)
  rw [foldl_lineColStep _ ht]
  simp only [Int.toNat_ofNat, List.length_take]
  congr 1
  omega

/-- C11, as stated, fails: for the one-line text `\x7b` and a message that
reports `column 2`, the offset extracted is 2 and the computed position is
line 1, column 2, not column 3. -/
theorem showJsonError_offset_past_end :
    showJsonError (utf16 "\x7b")
        (utf16 "JSON.parse: end of data while reading object contents at line 1 column 2 of the JSON data")
      = { position := 2, lineNum := 1, colNum := 2 } ∧
    (0x0A : Nat) ∉ utf16 "\x7b" ∧
    (showJsonError (utf16 "\x7b")
        (utf16 "JSON.parse: end of data while reading object contents at line 1 column 2 of the JSON data")).colNum
      ≠ 2 + 1 := by
  refine ⟨by rfl, by decide, by decide⟩

/-- C11, amended: for a text with no line break and an offset `p` extracted
from the message, `showJsonError` computes line 1 and column
`min p raw.length + 1`; that is column `p + 1` when the offset lies within
the text or at its end. -/
theorem showJsonError_single_line (raw errMsg : Text) (p : Nat)
    (hnl : 0x0A ∉ raw) (hp : errorPosition errMsg = (p : Int)) :
    showJsonError raw errMsg
        = { position := (p : Int), lineNum := 1, colNum := min p raw.length + 1 } ∧
      (p ≤ raw.length → (showJsonError raw errMsg).colNum = p + 1) := by
  have h := lineCol_single_line raw hnl p
  refine ⟨?_, ?_⟩
  · simp only [showJsonError, hp, h]
  · intro hle
    simp only [showJsonError, hp, h]
    omega

/-- Witness of C11 amended: the text `[1,]` and a message that reports
`position 3`. -/
theorem showJsonError_single_line_witness :
    (0x0A : Nat) ∉ utf16 "[1,]" ∧
      errorPosition (utf16 "Unexpected token ] in JSON at position 3") = ((3 : Nat) : Int) ∧
      showJsonError (utf16 "[1,]") (utf16 "Unexpected token ] in JSON at position 3")
        = { position := ((3 : Nat) : Int), lineNum := 1,
            colNum := min 3 (utf16 "[1,]").length + 1 } ∧
      (showJsonError (utf16 "[1,]") (utf16 "Unexpected token ] in JSON at position 3")).colNum
        = 3 + 1 :=
  ⟨by decide, by rfl,
    (showJsonError_single_line (utf16 "[1,]") (utf16 "Unexpected token ] in JSON at position 3") 3
      (by decide) (by rfl)).1,
    (showJsonError_single_line (utf16 "[1,]") (utf16 "Unexpected token ] in JSON at position 3") 3
      (by decide) (by rfl)).2 (by decide)⟩


/-! ### The first rule that qualifies wins -/

theorem jsonParse_nil (M : NumModel) : jsonParse M [] = none := rfl

theorem tryAutoFix_eq (M : NumModel) (raw : Text) :
    tryAutoFix M raw =
      match trySingle M raw fixes with
      | some r => some r
      | none => tryCombined M raw := rfl

/-- A rule that does not qualify is passed over by the first loop. -/
theorem trySingle_skip (M : NumModel) (raw : Text) (g : Fix) (rest : List Fix)
    (h : ∀ w, ¬ Qualifies M raw g w) : trySingle M raw (g :: rest) = trySingle M raw rest := by
  rw [trySingle]
  cases hu : usable (g.fn raw) raw with
  | none => rfl
  | some r =>
    simp only []
    cases hp : jsonParse M r with
    | none => rfl
    | some v =>
      exfalso
      apply h v
      unfold usable at hu
      cases hf : g.fn raw with
      | none => simp [hf] at hu
      | some r1 =>
        simp only [hf] at hu
        by_cases hc : r1 ≠ [] ∧ r1 ≠ raw
        · rw [if_pos hc] at hu
          have e : r1 = r := by injection hu
          subst e
          exact ⟨r1, hf, hc.2, hp⟩
        · rw [if_neg hc] at hu
          cases hu

/-- A rule that qualifies ends the first loop. -/
theorem trySingle_hit (M : NumModel) (raw : Text) (fix : Fix) (rest : List Fix) (v : Json M.Num)
    (h : Qualifies M raw fix v) :
    trySingle M raw (fix :: rest) = some { result := stringify2 M v, description := fix.desc } := by
  obtain ⟨r, hf, hne, hp⟩ := h
  have hnil : r ≠ [] := by
    intro e
    rw [e, jsonParse_nil] at hp
    cases hp
  have hu : usable (fix.fn raw) raw = some r := by
    unfold usable
    rw [hf]
    simp only []
    rw [if_pos ⟨hnil, hne⟩]
  rw [trySingle]
  simp only [hu, hp]

theorem trySingle_first (M : NumModel) (raw : Text) (pre : List Fix) (fix : Fix)
    (post : List Fix) (v : Json M.Num) (hpre : ∀ g ∈ pre, ∀ w, ¬ Qualifies M raw g w)
    (h : Qualifies M raw fix v) :
    trySingle M raw (pre ++ fix :: post)
      = some { result := stringify2 M v, description := fix.desc } := by
  induction pre with
  | nil => exact trySingle_hit M raw fix post v h
  | cons g pre ih =>
    rw [List.cons_append, trySingle_skip M raw g _ (hpre g (List.mem_cons_self _ _))]
    exact ih (fun g1 hg1 => hpre g1 (List.mem_cons_of_mem _ hg1))

theorem trySingle_none (M : NumModel) (raw : Text) (fs : List Fix)
    (h : ∀ g ∈ fs, ∀ w, ¬ Qualifies M raw g w) : trySingle M raw fs = none := by
  induction fs with
  | nil => rfl
  | cons g fs ih =>
    rw [trySingle_skip M raw g _ (h g (List.mem_cons_self _ _))]
    exact ih (fun g1 hg1 => h g1 (List.mem_cons_of_mem _ hg1))

/-- Among the rules of a list of which one qualifies there is a first one. -/
theorem first_qualifying (M : NumModel) (raw : Text) (fs : List Fix)
    (h : ∃ g ∈ fs, ∃ w, Qualifies M raw g w) :
    ∃ pre fix post v, fs = pre ++ fix :: post ∧ (∀ g ∈ pre, ∀ w, ¬ Qualifies M raw g w) ∧
      Qualifies M raw fix v := by
  induction fs with
  | nil =>
    obtain ⟨g, hg, _⟩ := h
    cases hg
  | cons g fs ih =>
    by_cases hq : ∃ w, Qualifies M raw g w
    · obtain ⟨w, hw⟩ := hq
      exact ⟨[], g, fs, w, rfl, fun _ hx => absurd hx (List.not_mem_nil _), hw⟩
    · have hq1 : ∀ w, ¬ Qualifies M raw g w := fun w hw => hq ⟨w, hw⟩
      obtain ⟨g1, hg1, w1, hw1⟩ := h
      have hmem : g1 ∈ fs := by
        rcases List.mem_cons.mp hg1 with e | e
        · subst e
          exact absurd hw1 (hq1 w1)
        · exact e
      obtain ⟨pre, fix, post, v, e, hpre, hv⟩ := ih ⟨g1, hmem, w1, hw1⟩
      refine ⟨g :: pre, fix, post, v, by rw [e]; rfl, ?_, hv⟩
      intro g2 hg2
      rcases List.mem_cons.mp hg2 with e2 | e2
      · subst e2
        exact hq1
      · exact hpre g2 e2


/-- C13: the rules are tried alone on `raw` in the order trailing commas,
single quotes, unquoted keys, comments, missing commas, bracket completion.
When some rule qualifies (its output differs from `raw` and parses as JSON),
`tryAutoFix` returns the 2-space serialization of the value parsed from the
output of the first rule that qualifies, with that rule's description; rules
before it, whose output equals `raw`, is missing or does not parse, are passed
over.  When no rule qualifies, `tryAutoFix` returns what the cumulative pass
gives. -/
theorem tryAutoFix_first_qualifying (M : NumModel) (raw : Text) :
    fixes.map Fix.fn = [fixTrailingComma, fixSingleQuotes, fixBareKeys, fixComments,
        fixMissingCommas, fixBrackets] ∧
      (∀ (pre post : List Fix) (fix : Fix) (v : Json M.Num), fixes = pre ++ fix :: post →
        (∀ g ∈ pre, ∀ w, ¬ Qualifies M raw g w) → Qualifies M raw fix v →
        tryAutoFix M raw = some { result := stringify2 M v, description := fix.desc }) ∧
      ((∃ g ∈ fixes, ∃ w, Qualifies M raw g w) →
        ∃ pre fix post v, fixes = pre ++ fix :: post ∧
          (∀ g ∈ pre, ∀ w, ¬ Qualifies M raw g w) ∧ Qualifies M raw fix v ∧
          tryAutoFix M raw = some { result := stringify2 M v, description := fix.desc }) ∧
      ((∀ g ∈ fixes, ∀ w, ¬ Qualifies M raw g w) → tryAutoFix M raw = tryCombined M raw) := by
  have key : ∀ (pre post : List Fix) (fix : Fix) (v : Json M.Num), fixes = pre ++ fix :: post →
      (∀ g ∈ pre, ∀ w, ¬ Qualifies M raw g w) → Qualifies M raw fix v →
      tryAutoFix M raw = some { result := stringify2 M v, description := fix.desc } := by
    intro pre post fix v hf hpre hq
    rw [tryAutoFix_eq, hf, trySingle_first M raw pre fix post v hpre hq]
  refine ⟨rfl, key, ?_, ?_⟩
  · intro h
    obtain ⟨pre, fix, post, v, hf, hpre, hq⟩ := first_qualifying M raw fixes h
    exact ⟨pre, fix, post, v, hf, hpre, hq, key pre post fix v hf hpre hq⟩
  · intro h
    rw [tryAutoFix_eq, trySingle_none M raw fixes h]

/-- Witness of C13: on the input `{'a':1}` the trailing-comma rule changes
nothing and is passed over, and the single-quote rule, the second, gives the
fix. -/
theorem tryAutoFix_first_qualifying_witness :
    fixTrailingComma (utf16 "\x7b'a':1\x7d") = some (utf16 "\x7b'a':1\x7d") ∧
      fixSingleQuotes (utf16 "\x7b'a':1\x7d") = some (utf16 "\x7b\"a\":1\x7d") ∧
      tryAutoFix literalNumbers (utf16 "\x7b'a':1\x7d")
        = some { result := utf16 "\x7b\n  \"a\": 1\n\x7d",
                 description := utf16 "将单引号替换为标准的双引号" } :=
  ⟨by rfl, by rfl,
    (tryAutoFix_first_qualifying literalNumbers (utf16 "\x7b'a':1\x7d")).2.1
      [{ name := utf16 "移除尾部逗号", fn := fixTrailingComma,
         desc := utf16 "移除了对象/数组末尾多余的逗号" }]
      (fixes.drop 2)
      { name := utf16 "单引号→双引号", fn := fixSingleQuotes,
        desc := utf16 "将单引号替换为标准的双引号" }
      (Json.obj [(utf16 "a", Json.num (utf16 "1"))])
      (by rfl)
      (by
        intro g hg w hq
        rw [List.mem_singleton] at hg
        subst hg
        obtain ⟨r, hf, hne, _⟩ := hq
        have e : fixTrailingComma (utf16 "\x7b'a':1\x7d") = some (utf16 "\x7b'a':1\x7d") := by rfl
        have e2 : some (utf16 "\x7b'a':1\x7d") = some r := e.symm.trans hf
        exact hne (Option.some.inj e2).symm)
      ⟨utf16 "\x7b\"a\":1\x7d", by rfl, by decide, by rfl⟩⟩


/-! ### The parser does not look at trailing space -/

theorem isSpace_of_isJsonWs (c : Nat) (h : isJsonWs c = true) : isSpace c = true := by
  simp only [isJsonWs, Bool.or_eq_true, decide_eq_true_eq] at h
  rcases h with ((h | h) | h) | h <;> subst h <;> rfl

theorem isSpace_of_isDigit (c : Nat) (h : isDigit c = true) : isSpace c = false := by
  simp only [isDigit, Bool.and_eq_true, decide_eq_true_eq] at h
  simp only [isSpace, Bool.or_eq_false_iff, Bool.and_eq_false_iff, decide_eq_false_iff_not]
  omega

theorem allSpace_nil : AllSpace [] := fun _ h => by cases h

theorem allSpace_of_allWs (w : Text) (h : AllWs w) : AllSpace w :=
  fun c hc => isSpace_of_isJsonWs c (h c hc)

/-- A character that is not space at the head of `s ++ w` is the head of `s`. -/
theorem cons_of_append (w : Text) (hw : AllSpace w) (s : Text) (a : Nat) (x : Text)
    (h : s ++ w = a :: x) (ha : isSpace a = false) : ∃ s', s = a :: s' ∧ x = s' ++ w := by
  cases s with
  | nil =>
    simp only [List.nil_append] at h
    have : isSpace a = true := hw a (by rw [h]; exact List.mem_cons_self _ _)
    rw [ha] at this
    cases this
  | cons b s' =>
    simp only [List.cons_append, List.cons.injEq] at h
    exact ⟨s', by rw [h.1], h.2.symm⟩

theorem skipWs_subset (w : Text) (c : Nat) (h : c ∈ skipWs w) : c ∈ w := by
  induction w with
  | nil => simp [skipWs] at h
  | cons a w ih =>
    simp only [skipWs] at h
    by_cases ha : isJsonWs a = true
    · rw [if_pos ha] at h
      exact List.mem_cons_of_mem _ (ih h)
    · rw [if_neg ha] at h
      exact h

theorem skipWs_strip (w : Text) (hw : AllSpace w) (s : Text) (c : Nat) (x : Text)
    (h : skipWs (s ++ w) = c :: x) (hc : isSpace c = false) :
    ∃ x', x = x' ++ w ∧ skipWs s = c :: x' := by
  induction s with
  | nil =>
    simp only [List.nil_append] at h
    have hmem : c ∈ w := skipWs_subset w c (by rw [h]; exact List.mem_cons_self _ _)
    have := hw c hmem
    rw [hc] at this
    cases this
  | cons a s ih =>
    simp only [List.cons_append, skipWs] at h ⊢
    by_cases ha : isJsonWs a = true
    · rw [if_pos ha] at h ⊢
      exact ih h
    · rw [if_neg ha] at h ⊢
      simp only [List.cons.injEq] at h
      exact ⟨s, h.2.symm, by rw [h.1]⟩

theorem skipWs_nil_of_append (a b : Text) (h : skipWs (a ++ b) = []) : skipWs a = [] := by
  induction a with
  | nil => rfl
  | cons c a ih =>
    simp only [List.cons_append, skipWs] at h ⊢
    by_cases hc : isJsonWs c = true
    · rw [if_pos hc] at h ⊢
      exact ih h
    · rw [if_neg hc] at h
      cases h

theorem spanDigits_allSpace (w : Text) (hw : AllSpace w) : spanDigits w = ([], w) := by
  cases w with
  | nil => rfl
  | cons a w =>
    have ha : isSpace a = true := hw a (List.mem_cons_self _ _)
    have hd : ¬ isDigit a = true := by
      intro hd
      rw [isSpace_of_isDigit a hd] at ha
      cases ha
    simp only [spanDigits, if_neg hd]

theorem spanDigits_strip (w : Text) (hw : AllSpace w) (s : Text) :
    spanDigits (s ++ w) = ((spanDigits s).1, (spanDigits s).2 ++ w) := by
  induction s with
  | nil =>
    simp only [List.nil_append, spanDigits]
    exact spanDigits_allSpace w hw
  | cons a s ih =>
    rw [List.cons_append]
    simp only [spanDigits]
    by_cases ha : isDigit a = true
    · rw [if_pos ha, if_pos ha, ih]
    · rw [if_neg ha, if_neg ha]
      rfl

theorem expect_strip (w : Text) (hw : AllSpace w) :
    ∀ (k : Text), (∀ c ∈ k, isSpace c = false) → ∀ (s r : Text),
      expect k (s ++ w) = some r → ∃ r', r = r' ++ w ∧ expect k s = some r'
  | [], _, s, r, h => by
    simp only [expect, Option.some.injEq] at h
    exact ⟨s, h.symm, rfl⟩
  | k :: ks, hk, s, r, h => by
    cases hsw : s ++ w with
    | nil =>
      rw [hsw] at h
      simp [expect] at h
    | cons a x =>
      rw [hsw] at h
      simp only [expect] at h
      by_cases hka : k = a
      · rw [if_pos hka] at h
        have hak : isSpace a = false := by
          rw [← hka]
          exact hk k (List.mem_cons_self _ _)
        obtain ⟨s', hs', hx⟩ := cons_of_append w hw s a x hsw hak
        rw [hx] at h
        obtain ⟨r', hr', he⟩ := expect_strip w hw ks
          (fun c hc => hk c (List.mem_cons_of_mem _ hc)) s' r h
        refine ⟨r', hr', ?_⟩
        rw [hs']
        simp only [expect, if_pos hka]
        exact he
      · rw [if_neg hka] at h
        cases h


theorem lexInt_allSpace (w : Text) (hw : AllSpace w) : lexInt w = none := by
  cases w with
  | nil => rfl
  | cons a w =>
    have ha : isSpace a = true := hw a (List.mem_cons_self _ _)
    have h0 : a ≠ 0x30 := by
      intro e
      subst e
      cases ha
    have hd : ¬ isDigit a = true := by
      intro hd
      rw [isSpace_of_isDigit a hd] at ha
      cases ha
    simp only [lexInt, if_neg h0, if_neg hd]

theorem strips_lexInt (w : Text) (hw : AllSpace w) : Strips w lexInt := by
  intro s i r h
  cases s with
  | nil =>
    rw [List.nil_append, lexInt_allSpace w hw] at h
    cases h
  | cons a s =>
    rw [List.cons_append] at h
    simp only [lexInt] at h ⊢
    by_cases h0 : a = 0x30
    · rw [if_pos h0] at h ⊢
      simp only [Option.some.injEq, Prod.mk.injEq] at h
      exact ⟨s, h.2.symm, by rw [h.1]⟩
    · rw [if_neg h0] at h ⊢
      by_cases hd : isDigit a = true
      · rw [if_pos hd] at h ⊢
        rw [spanDigits_strip w hw s] at h
        simp only [Option.some.injEq, Prod.mk.injEq] at h
        exact ⟨(spanDigits s).2, h.2.symm, by rw [h.1]⟩
      · rw [if_neg hd] at h
        cases h

theorem strips_lexFrac (w : Text) (hw : AllSpace w) : Strips w lexFrac := by
  intro s f r h
  cases s with
  | nil =>
    rw [List.nil_append] at h
    cases w with
    | nil =>
      simp only [lexFrac, Option.some.injEq, Prod.mk.injEq] at h
      exact ⟨[], by rw [← h.2]; rfl, by rw [← h.1]; rfl⟩
    | cons a w =>
      have ha : isSpace a = true := hw a (List.mem_cons_self _ _)
      have hdot : a ≠ 0x2E := by
        intro e
        subst e
        cases ha
      simp only [lexFrac, if_neg hdot, Option.some.injEq, Prod.mk.injEq] at h
      exact ⟨[], by rw [← h.2]; rfl, by rw [← h.1]; rfl⟩
  | cons c s =>
    rw [List.cons_append] at h
    simp only [lexFrac] at h ⊢
    by_cases hdot : c = 0x2E
    · rw [if_pos hdot] at h ⊢
      rw [spanDigits_strip w hw s] at h
      by_cases he : (spanDigits s).1 = []
      · rw [if_pos he] at h
        cases h
      · rw [if_neg he] at h ⊢
        simp only [Option.some.injEq, Prod.mk.injEq] at h
        exact ⟨(spanDigits s).2, h.2.symm, by rw [h.1]⟩
    · rw [if_neg hdot] at h ⊢
      simp only [Option.some.injEq, Prod.mk.injEq] at h
      exact ⟨c :: s, by rw [← h.2]; rfl, by rw [h.1]⟩

theorem strips_lexExp (w : Text) (hw : AllSpace w) : Strips w lexExp := by
  intro s f r h
  cases s with
  | nil =>
    rw [List.nil_append] at h
    cases w with
    | nil =>
      simp only [lexExp, Option.some.injEq, Prod.mk.injEq] at h
      exact ⟨[], by rw [← h.2]; rfl, by rw [← h.1]; rfl⟩
    | cons a w =>
      have ha : isSpace a = true := hw a (List.mem_cons_self _ _)
      have hne : ¬ (a = 0x65 ∨ a = 0x45) := by
        intro e
        rcases e with e | e <;> subst e <;> cases ha
      simp only [lexExp, if_neg hne, Option.some.injEq, Prod.mk.injEq] at h
      exact ⟨[], by rw [← h.2]; rfl, by rw [← h.1]; rfl⟩
  | cons c s =>
    rw [List.cons_append] at h
    simp only [lexExp] at h ⊢
    by_cases hce : c = 0x65 ∨ c = 0x45
    · rw [if_pos hce] at h ⊢
      cases s with
      | nil =>
        rw [List.nil_append] at h
        cases w with
        | nil => cases h
        | cons g w1 =>
          exfalso
          have hg : isSpace g = true := hw g (List.mem_cons_self _ _)
          have hsign : ¬ (g = 0x2B ∨ g = 0x2D) := by
            intro e
            rcases e with e | e <;> subst e <;> cases hg
          simp only [if_neg hsign] at h
          rw [spanDigits_allSpace (g :: w1) hw] at h
          simp at h
      | cons g s1 =>
        rw [List.cons_append] at h
        simp only at h ⊢
        by_cases hsign : g = 0x2B ∨ g = 0x2D
        · rw [if_pos hsign] at h ⊢
          rw [spanDigits_strip w hw s1] at h
          by_cases he : (spanDigits s1).1 = []
          · rw [if_pos he] at h
            cases h
          · rw [if_neg he] at h ⊢
            simp only [Option.some.injEq, Prod.mk.injEq] at h
            exact ⟨(spanDigits s1).2, h.2.symm, by rw [h.1]⟩
        · rw [if_neg hsign] at h ⊢
          rw [← List.cons_append, spanDigits_strip w hw (g :: s1)] at h
          by_cases he : (spanDigits (g :: s1)).1 = []
          · rw [if_pos he] at h
            cases h
          · rw [if_neg he] at h ⊢
            simp only [Option.some.injEq, Prod.mk.injEq] at h
            exact ⟨(spanDigits (g :: s1)).2, h.2.symm, by rw [h.1]⟩
    · rw [if_neg hce] at h ⊢
      simp only [Option.some.injEq, Prod.mk.injEq] at h
      exact ⟨c :: s, by rw [← h.2]; rfl, by rw [h.1]⟩

theorem strips_lexUnsigned (w : Text) (hw : AllSpace w) : Strips w lexUnsigned := by
  intro s l r h
  unfold lexUnsigned at h ⊢
  cases hi : lexInt (s ++ w) with
  | none => simp [hi] at h
  | some p =>
    obtain ⟨i, r1⟩ := p
    simp only [hi] at h
    obtain ⟨r1', e1, hi'⟩ := strips_lexInt w hw s i r1 hi
    subst e1
    cases hf : lexFrac (r1' ++ w) with
    | none => simp [hf] at h
    | some p =>
      obtain ⟨f, r2⟩ := p
      simp only [hf] at h
      obtain ⟨r2', e2, hf'⟩ := strips_lexFrac w hw r1' f r2 hf
      subst e2
      cases he : lexExp (r2' ++ w) with
      | none => simp [he] at h
      | some p =>
        obtain ⟨e, r3⟩ := p
        simp only [he, Option.some.injEq, Prod.mk.injEq] at h
        obtain ⟨r3', e3, he'⟩ := strips_lexExp w hw r2' e r3 he
        subst e3
        refine ⟨r3', h.2.symm, ?_⟩
        simp only [hi', hf', he', h.1]

theorem strips_lexNumber (w : Text) (hw : AllSpace w) : Strips w lexNumber := by
  intro s l r h
  cases s with
  | nil =>
    exfalso
    rw [List.nil_append] at h
    cases w with
    | nil => simp [lexNumber] at h
    | cons a w1 =>
      have ha : isSpace a = true := hw a (List.mem_cons_self _ _)
      have hm : a ≠ 0x2D := by
        intro e
        subst e
        cases ha
      simp only [lexNumber, if_neg hm] at h
      unfold lexUnsigned at h
      rw [lexInt_allSpace (a :: w1) hw] at h
      cases h
  | cons c s =>
    rw [List.cons_append] at h
    simp only [lexNumber] at h ⊢
    by_cases hm : c = 0x2D
    · rw [if_pos hm] at h ⊢
      cases hu : lexUnsigned (s ++ w) with
      | none => simp [hu] at h
      | some p =>
        obtain ⟨l1, r1⟩ := p
        simp only [hu, Option.some.injEq, Prod.mk.injEq] at h
        obtain ⟨r1', e1, hu'⟩ := strips_lexUnsigned w hw s l1 r1 hu
        refine ⟨r1', by rw [← h.2]; exact e1, ?_⟩
        simp only [hu', h.1]
    · rw [if_neg hm] at h ⊢
      rw [← List.cons_append] at h
      exact strips_lexUnsigned w hw (c :: s) l r h


theorem consUnit_some_eq (u : Nat) (o : Option (Text × Text)) (str r : Text)
    (h : consUnit u o = some (str, r)) : ∃ str', o = some (str', r) ∧ str = u :: str' := by
  cases o with
  | none => simp [consUnit] at h
  | some p =>
    obtain ⟨a, b⟩ := p
    simp only [consUnit, Option.some.injEq, Prod.mk.injEq] at h
    exact ⟨a, by rw [h.2], h.1.symm⟩

theorem isSpace_of_hexVal (a v : Nat) (h : hexVal a = some v) : isSpace a = false := by
  unfold hexVal at h
  simp only [isSpace, Bool.or_eq_false_iff, Bool.and_eq_false_iff, decide_eq_false_iff_not]
  by_cases h1 : 0x30 ≤ a ∧ a ≤ 0x39
  · omega
  · rw [if_neg h1] at h
    by_cases h2 : 0x41 ≤ a ∧ a ≤ 0x46
    · omega
    · rw [if_neg h2] at h
      by_cases h3 : 0x61 ≤ a ∧ a ≤ 0x66
      · omega
      · rw [if_neg h3] at h
        cases h

theorem hex4_some (a b c d u : Nat) (h : hex4 a b c d = some u) :
    isSpace a = false ∧ isSpace b = false ∧ isSpace c = false ∧ isSpace d = false := by
  unfold hex4 at h
  cases ha : hexVal a with
  | none => simp [ha] at h
  | some x =>
    cases hb : hexVal b with
    | none => simp [ha, hb] at h
    | some y =>
      cases hc : hexVal c with
      | none => simp [ha, hb, hc] at h
      | some z =>
        cases hd : hexVal d with
        | none => simp [ha, hb, hc, hd] at h
        | some t =>
          exact ⟨isSpace_of_hexVal a x ha, isSpace_of_hexVal b y hb, isSpace_of_hexVal c z hc,
            isSpace_of_hexVal d t hd⟩

theorem unescape_space (e : Nat) (h : isSpace e = true) : e ≠ 0x75 ∧ unescape e = none := by
  have h1 : e ≠ 0x75 := by intro x; subst x; cases h
  have h2 : e ≠ 0x22 := by intro x; subst x; cases h
  have h3 : e ≠ 0x5C := by intro x; subst x; cases h
  have h4 : e ≠ 0x2F := by intro x; subst x; cases h
  have h5 : e ≠ 0x62 := by intro x; subst x; cases h
  have h6 : e ≠ 0x66 := by intro x; subst x; cases h
  have h7 : e ≠ 0x6E := by intro x; subst x; cases h
  have h8 : e ≠ 0x72 := by intro x; subst x; cases h
  have h9 : e ≠ 0x74 := by intro x; subst x; cases h
  refine ⟨h1, ?_⟩
  simp only [unescape, if_neg h2, if_neg h3, if_neg h4, if_neg h5, if_neg h6, if_neg h7,
    if_neg h8, if_neg h9]

theorem parseString_allSpace (w : Text) (hw : AllSpace w) : parseString w = none := by
  induction w with
  | nil => rw [parseString.eq_def]
  | cons a w ih =>
    have ha : isSpace a = true := hw a (List.mem_cons_self _ _)
    have h1 : a ≠ 0x22 := by intro x; subst x; cases ha
    have h2 : a ≠ 0x5C := by intro x; subst x; cases ha
    have hw' : AllSpace w := fun c hc => hw c (List.mem_cons_of_mem _ hc)
    by_cases h3 : a < 0x20
    · rw [parseString.eq_def]
      simp only [if_neg h1, if_neg h2, if_pos h3]
    · rw [parseString_plain a w h1 h2 h3, ih hw']
      rfl

theorem parseString_strip (w : Text) (hw : AllSpace w) (n : Nat) :
    ∀ (s str r : Text), s.length ≤ n → parseString (s ++ w) = some (str, r) →
      ∃ r', r = r' ++ w ∧ parseString s = some (str, r') := by
  induction n with
  | zero =>
    intro s str r hs h
    have : s = [] := List.length_eq_zero.mp (Nat.le_zero.mp hs)
    subst this
    rw [List.nil_append, parseString_allSpace w hw] at h
    cases h
  | succ n ih =>
    intro s str r hs h
    cases s with
    | nil =>
      rw [List.nil_append, parseString_allSpace w hw] at h
      cases h
    | cons c rest =>
      simp only [List.length_cons] at hs
      rw [List.cons_append] at h
      by_cases h22 : c = 0x22
      · subst h22
        rw [parseString_quoteChar] at h ⊢
        simp only [Option.some.injEq, Prod.mk.injEq] at h
        exact ⟨rest, h.2.symm, by rw [h.1]⟩
      by_cases h5C : c = 0x5C
      · subst h5C
        cases rest with
        | nil =>
          exfalso
          rw [List.nil_append] at h
          cases w with
          | nil =>
            rw [parseString.eq_def] at h
            simp at h
          | cons e w1 =>
            have he := unescape_space e (hw e (List.mem_cons_self _ _))
            rw [parseString.eq_def] at h
            simp only [show (0x5C : Nat) ≠ 0x22 by decide, if_false, if_true, if_neg he.1,
              he.2] at h
            cases h
        | cons e rest1 =>
          simp only [List.length_cons] at hs
          rw [List.cons_append] at h
          by_cases hu : e = 0x75
          · subst hu
            match hrw : rest1 ++ w, h with
            | a :: b :: c1 :: d :: rest2, h' =>
              rw [parseString_u] at h'
              cases h4 : hex4 a b c1 d with
              | none => simp [h4] at h'
              | some u =>
                simp only [h4] at h'
                obtain ⟨ha, hb, hc, hd⟩ := hex4_some a b c1 d u h4
                obtain ⟨s1, e1, x1⟩ := cons_of_append w hw rest1 a _ hrw ha
                obtain ⟨s2, e2, x2⟩ := cons_of_append w hw s1 b _ x1.symm hb
                obtain ⟨s3, e3, x3⟩ := cons_of_append w hw s2 c1 _ x2.symm hc
                obtain ⟨s4, e4, x4⟩ := cons_of_append w hw s3 d _ x3.symm hd
                rw [x4] at h'
                obtain ⟨str', hp, hstr⟩ := consUnit_some_eq _ _ _ _ h'
                have hlen : s4.length ≤ n := by
                  rw [e1, e2, e3, e4] at hs
                  simp only [List.length_cons] at hs
                  omega
                obtain ⟨r', hr', hp'⟩ := ih s4 str' r hlen hp
                refine ⟨r', hr', ?_⟩
                rw [e1, e2, e3, e4, parseString_u, h4]
                simp only [hp', consUnit, hstr]
            | [], h' => rw [parseString.eq_def] at h'; cases h'
            | [_], h' => rw [parseString.eq_def] at h'; cases h'
            | [_, _], h' => rw [parseString.eq_def] at h'; cases h'
            | [_, _, _], h' => rw [parseString.eq_def] at h'; cases h'
          · cases hun : unescape e with
            | none =>
              rw [parseString.eq_def] at h
              simp only [show (0x5C : Nat) ≠ 0x22 by decide, if_false, if_true, if_neg hu,
                hun] at h
              cases h
            | some u =>
              rw [parseString_escape e u _ hun] at h ⊢
              obtain ⟨str', hp, hstr⟩ := consUnit_some_eq _ _ _ _ h
              obtain ⟨r', hr', hp'⟩ := ih rest1 str' r (by omega) hp
              refine ⟨r', hr', ?_⟩
              simp only [hp', consUnit, hstr]
      by_cases hlt : c < 0x20
      · rw [parseString.eq_def] at h
        simp only [if_neg h22, if_neg h5C, if_pos hlt] at h
        cases h
      · rw [parseString_plain c _ h22 h5C hlt] at h ⊢
        obtain ⟨str', hp, hstr⟩ := consUnit_some_eq _ _ _ _ h
        obtain ⟨r', hr', hp'⟩ := ih rest str' r (by omega) hp
        refine ⟨r', hr', ?_⟩
        simp only [hp', consUnit, hstr]

theorem strips_parseString (w : Text) (hw : AllSpace w) : Strips w parseString :=
  fun s str r h => parseString_strip w hw s.length s str r (Nat.le_refl _) h


theorem allSpace_skipWs (w : Text) (hw : AllSpace w) : AllSpace (skipWs w) :=
  fun c hc => hw c (skipWs_subset w c hc)

/-- What `skipWs` leaves of `x ++ w`: either what it leaves of `x`, and `w`, or
only space. -/
theorem skipWs_append_cases (w : Text) (hw : AllSpace w) (x : Text) (c : Nat) (y : Text)
    (h : skipWs (x ++ w) = c :: y) :
    (∃ y', y = y' ++ w ∧ skipWs x = c :: y') ∨ (skipWs x = [] ∧ AllSpace (c :: y)) := by
  induction x with
  | nil =>
    right
    rw [List.nil_append] at h
    refine ⟨rfl, ?_⟩
    rw [← h]
    exact allSpace_skipWs w hw
  | cons a x ih =>
    simp only [List.cons_append, skipWs] at h ⊢
    by_cases ha : isJsonWs a = true
    · rw [if_pos ha] at h ⊢
      exact ih h
    · rw [if_neg ha] at h ⊢
      simp only [List.cons.injEq] at h
      left
      exact ⟨x, h.2.symm, by rw [h.1]⟩

theorem lexNumber_allSpace (w : Text) (hw : AllSpace w) : lexNumber w = none := by
  cases w with
  | nil => simp [lexNumber]
  | cons a w1 =>
    have ha : isSpace a = true := hw a (List.mem_cons_self _ _)
    have hm : a ≠ 0x2D := by
      intro e
      subst e
      cases ha
    simp only [lexNumber, if_neg hm]
    unfold lexUnsigned
    rw [lexInt_allSpace (a :: w1) hw]

theorem valueStep_allSpace (pe : Text → Option (List (Json Text) × Text))
    (pm : Text → Option (List (Text × Json Text) × Text)) (w : Text) (hw : AllSpace w) :
    valueStep pe pm w = none := by
  unfold valueStep
  cases hs : skipWs w with
  | nil => rfl
  | cons c rest =>
    have hsp : AllSpace (c :: rest) := by
      rw [← hs]
      exact allSpace_skipWs w hw
    have hc : isSpace c = true := hsp c (List.mem_cons_self _ _)
    have h1 : c ≠ 0x7B := by intro x; subst x; cases hc
    have h2 : c ≠ 0x5B := by intro x; subst x; cases hc
    have h3 : c ≠ 0x22 := by intro x; subst x; cases hc
    have h4 : c ≠ 0x6E := by intro x; subst x; cases hc
    have h5 : c ≠ 0x74 := by intro x; subst x; cases hc
    have h6 : c ≠ 0x66 := by intro x; subst x; cases hc
    simp only [if_neg h1, if_neg h2, if_neg h3, if_neg h4, if_neg h5, if_neg h6,
      lexNumber_allSpace (c :: rest) hsp]

theorem failsOnSpace_parseValue (f : Nat) : FailsOnSpace (parseValue f) := by
  intro w hw
  cases f with
  | zero => rw [parseValue.eq_1]
  | succ f => rw [parseValue_succ, valueStep_allSpace _ _ w hw]

theorem failsOnSpace_parseElements (f : Nat) : FailsOnSpace (parseElements f) := by
  intro w hw
  cases f with
  | zero => rw [parseElements.eq_1]
  | succ f =>
    rw [parseElements_succ]
    unfold elementsStep
    rw [failsOnSpace_parseValue f w hw]

theorem failsOnSpace_parseMembers (f : Nat) : FailsOnSpace (parseMembers f) := by
  intro w hw
  cases f with
  | zero => rw [parseMembers.eq_1]
  | succ f =>
    rw [parseMembers_succ]
    unfold membersStep
    cases hs : skipWs w with
    | nil => rfl
    | cons q s1 =>
      have hq : isSpace q = true :=
        allSpace_skipWs w hw q (by rw [hs]; exact List.mem_cons_self _ _)
      have h1 : q ≠ 0x22 := by intro x; subst x; cases hq
      simp only [if_neg h1]


theorem allWs_of_skipWs_nil (t : Text) (h : skipWs t = []) : AllWs t := by
  induction t with
  | nil => exact allWs_nil
  | cons a t ih =>
    simp only [skipWs] at h
    by_cases ha : isJsonWs a = true
    · rw [if_pos ha] at h
      exact allWs_cons ha (ih h)
    · rw [if_neg ha] at h
      cases h

theorem allSpace_append {a b : Text} (ha : AllSpace a) (hb : AllSpace b) : AllSpace (a ++ b) := by
  intro c hc
  rcases List.mem_append.mp hc with h | h
  · exact ha c h
  · exact hb c h

theorem valueStep_strip (w : Text) (hw : AllSpace w)
    (pe : Text → Option (List (Json Text) × Text))
    (pm : Text → Option (List (Text × Json Text) × Text))
    (hpe : Strips w pe) (hpm : Strips w pm) (fpe : FailsOnSpace pe) (fpm : FailsOnSpace pm) :
    Strips w (valueStep pe pm) := by
  intro s v r h
  cases hs : skipWs (s ++ w) with
  | nil =>
    unfold valueStep at h
    simp [hs] at h
  | cons c rest =>
    rcases skipWs_append_cases w hw s c rest hs with ⟨rest', hrest, hs'⟩ | ⟨hs', _⟩
    swap
    · exfalso
      have hsw : AllSpace (s ++ w) := allSpace_append (allSpace_of_allWs s (allWs_of_skipWs_nil s hs')) hw
      rw [valueStep_allSpace pe pm (s ++ w) hsw] at h
      cases h
    subst hrest
    unfold valueStep at h ⊢
    simp only [hs] at h
    simp only [hs']
    by_cases h7B : c = 0x7B
    · simp only [h7B, if_true] at h ⊢
      cases hs1 : skipWs (rest' ++ w) with
      | nil => simp [hs1] at h
      | cons d rest1 =>
        simp only [hs1] at h
        rcases skipWs_append_cases w hw rest' d rest1 hs1 with ⟨rest1', hrest1, hs1'⟩ | ⟨_, hsp⟩
        · subst hrest1
          simp only [hs1']
          by_cases h7D : d = 0x7D
          · simp only [h7D, if_true, Option.some.injEq, Prod.mk.injEq] at h ⊢
            exact ⟨rest1', h.2.symm, h.1, rfl⟩
          · simp only [h7D, if_false] at h ⊢
            cases hm : pm (d :: (rest1' ++ w)) with
            | none => simp [hm] at h
            | some p =>
              obtain ⟨kvs, r1⟩ := p
              simp only [hm, Option.some.injEq, Prod.mk.injEq] at h
              obtain ⟨r1', hr1, hm'⟩ := hpm (d :: rest1') _ _ hm
              refine ⟨r1', by rw [← h.2]; exact hr1, ?_⟩
              simp only [hm', h.1]
        · exfalso
          have hd : isSpace d = true := hsp d (List.mem_cons_self _ _)
          have h7D : d ≠ 0x7D := by intro x; subst x; cases hd
          simp only [if_neg h7D, fpm (d :: rest1) hsp] at h
          cases h
    simp only [h7B, if_false] at h ⊢
    by_cases h5B : c = 0x5B
    · simp only [h5B, if_true] at h ⊢
      cases hs1 : skipWs (rest' ++ w) with
      | nil => simp [hs1] at h
      | cons d rest1 =>
        simp only [hs1] at h
        rcases skipWs_append_cases w hw rest' d rest1 hs1 with ⟨rest1', hrest1, hs1'⟩ | ⟨_, hsp⟩
        · subst hrest1
          simp only [hs1']
          by_cases h5D : d = 0x5D
          · simp only [h5D, if_true, Option.some.injEq, Prod.mk.injEq] at h ⊢
            exact ⟨rest1', h.2.symm, h.1, rfl⟩
          · simp only [h5D, if_false] at h ⊢
            cases hm : pe (d :: (rest1' ++ w)) with
            | none => simp [hm] at h
            | some p =>
              obtain ⟨xs, r1⟩ := p
              simp only [hm, Option.some.injEq, Prod.mk.injEq] at h
              obtain ⟨r1', hr1, hm'⟩ := hpe (d :: rest1') _ _ hm
              refine ⟨r1', by rw [← h.2]; exact hr1, ?_⟩
              simp only [hm', h.1]
        · exfalso
          have hd : isSpace d = true := hsp d (List.mem_cons_self _ _)
          have h5D : d ≠ 0x5D := by intro x; subst x; cases hd
          simp only [if_neg h5D, fpe (d :: rest1) hsp] at h
          cases h
    simp only [h5B, if_false] at h ⊢
    by_cases h22 : c = 0x22
    · simp only [h22, if_true] at h ⊢
      cases hp : parseString (rest' ++ w) with
      | none => simp [hp] at h
      | some p =>
        obtain ⟨str, r1⟩ := p
        simp only [hp, Option.some.injEq, Prod.mk.injEq] at h
        obtain ⟨r1', hr1, hp'⟩ := strips_parseString w hw _ _ _ hp
        refine ⟨r1', by rw [← h.2]; exact hr1, ?_⟩
        simp only [hp', h.1]
    simp only [h22, if_false] at h ⊢
    by_cases h6E : c = 0x6E
    · simp only [h6E, if_true] at h ⊢
      cases hp : expect [0x75, 0x6C, 0x6C] (rest' ++ w) with
      | none => simp [hp] at h
      | some r1 =>
        simp only [hp, Option.some.injEq, Prod.mk.injEq] at h
        obtain ⟨r1', hr1, hp'⟩ := expect_strip w hw _ (by decide) _ _ hp
        refine ⟨r1', by rw [← h.2]; exact hr1, ?_⟩
        simp only [hp', h.1]
    simp only [h6E, if_false] at h ⊢
    by_cases h74 : c = 0x74
    · simp only [h74, if_true] at h ⊢
      cases hp : expect [0x72, 0x75, 0x65] (rest' ++ w) with
      | none => simp [hp] at h
      | some r1 =>
        simp only [hp, Option.some.injEq, Prod.mk.injEq] at h
        obtain ⟨r1', hr1, hp'⟩ := expect_strip w hw _ (by decide) _ _ hp
        refine ⟨r1', by rw [← h.2]; exact hr1, ?_⟩
        simp only [hp', h.1]
    simp only [h74, if_false] at h ⊢
    by_cases h66 : c = 0x66
    · simp only [h66, if_true] at h ⊢
      cases hp : expect [0x61, 0x6C, 0x73, 0x65] (rest' ++ w) with
      | none => simp [hp] at h
      | some r1 =>
        simp only [hp, Option.some.injEq, Prod.mk.injEq] at h
        obtain ⟨r1', hr1, hp'⟩ := expect_strip w hw _ (by decide) _ _ hp
        refine ⟨r1', by rw [← h.2]; exact hr1, ?_⟩
        simp only [hp', h.1]
    simp only [h66, if_false] at h ⊢
    cases hp : lexNumber (c :: (rest' ++ w)) with
    | none => simp [hp] at h
    | some p =>
      obtain ⟨l, r1⟩ := p
      simp only [hp, Option.some.injEq, Prod.mk.injEq] at h
      obtain ⟨r1', hr1, hp'⟩ := strips_lexNumber w hw (c :: rest') _ _ hp
      refine ⟨r1', by rw [← h.2]; exact hr1, ?_⟩
      simp only [hp', h.1]

theorem elementsStep_strip (w : Text) (hw : AllSpace w) (pv : Text → Option (Json Text × Text))
    (pe : Text → Option (List (Json Text) × Text)) (hpv : Strips w pv) (hpe : Strips w pe) :
    Strips w (elementsStep pv pe) := by
  intro s xs r h
  unfold elementsStep at h ⊢
  cases hv : pv (s ++ w) with
  | none => simp [hv] at h
  | some p =>
    obtain ⟨v, r1⟩ := p
    simp only [hv] at h
    obtain ⟨r1', hr1, hv'⟩ := hpv _ _ _ hv
    subst hr1
    simp only [hv']
    cases hs : skipWs (r1' ++ w) with
    | nil => simp [hs] at h
    | cons c rest =>
      simp only [hs] at h
      rcases skipWs_append_cases w hw r1' c rest hs with ⟨rest', hrest, hs'⟩ | ⟨_, hsp⟩
      · subst hrest
        simp only [hs']
        by_cases h2C : c = 0x2C
        · simp only [h2C, if_true] at h ⊢
          cases hm : pe (rest' ++ w) with
          | none => simp [hm] at h
          | some p =>
            obtain ⟨vs, r2⟩ := p
            simp only [hm, Option.some.injEq, Prod.mk.injEq] at h
            obtain ⟨r2', hr2, hm'⟩ := hpe _ _ _ hm
            refine ⟨r2', by rw [← h.2]; exact hr2, ?_⟩
            simp only [hm', h.1]
        · simp only [h2C, if_false] at h ⊢
          by_cases h5D : c = 0x5D
          · simp only [h5D, if_true, Option.some.injEq, Prod.mk.injEq] at h ⊢
            exact ⟨rest', h.2.symm, h.1, rfl⟩
          · simp [h5D] at h
      · exfalso
        have hc : isSpace c = true := hsp c (List.mem_cons_self _ _)
        have h2C : c ≠ 0x2C := by intro x; subst x; cases hc
        have h5D : c ≠ 0x5D := by intro x; subst x; cases hc
        simp only [if_neg h2C, if_neg h5D] at h
        cases h

theorem membersStep_strip (w : Text) (hw : AllSpace w) (pv : Text → Option (Json Text × Text))
    (pm : Text → Option (List (Text × Json Text) × Text)) (hpv : Strips w pv)
    (hpm : Strips w pm) : Strips w (membersStep pv pm) := by
  intro s kvs r h
  unfold membersStep at h ⊢
  cases hs : skipWs (s ++ w) with
  | nil => simp [hs] at h
  | cons q s1 =>
    simp only [hs] at h
    by_cases hq : q = 0x22
    swap
    · simp [hq] at h
    have hqs : isSpace q = false := by rw [hq]; rfl
    obtain ⟨s1', hs1, hs'⟩ := skipWs_strip w hw s q s1 hs hqs
    subst hs1
    simp only [hs']
    simp only [hq, if_true] at h ⊢
    cases hp : parseString (s1' ++ w) with
    | none => simp [hp] at h
    | some p =>
      obtain ⟨k, s2⟩ := p
      simp only [hp] at h
      obtain ⟨s2', hs2, hp'⟩ := strips_parseString w hw _ _ _ hp
      subst hs2
      simp only [hp']
      cases hc : skipWs (s2' ++ w) with
      | nil => simp [hc] at h
      | cons col s3 =>
        simp only [hc] at h
        by_cases hcol : col = 0x3A
        swap
        · simp [hcol] at h
        have hcs : isSpace col = false := by rw [hcol]; rfl
        obtain ⟨s3', hs3, hc'⟩ := skipWs_strip w hw s2' col s3 hc hcs
        subst hs3
        simp only [hc']
        simp only [hcol, if_true] at h ⊢
        cases hv : pv (s3' ++ w) with
        | none => simp [hv] at h
        | some p =>
          obtain ⟨v, r1⟩ := p
          simp only [hv] at h
          obtain ⟨r1', hr1, hv'⟩ := hpv _ _ _ hv
          subst hr1
          simp only [hv']
          cases hx : skipWs (r1' ++ w) with
          | nil => simp [hx] at h
          | cons c rest =>
            simp only [hx] at h
            rcases skipWs_append_cases w hw r1' c rest hx with ⟨rest', hrest, hx'⟩ | ⟨_, hsp⟩
            · subst hrest
              simp only [hx']
              by_cases h2C : c = 0x2C
              · simp only [h2C, if_true] at h ⊢
                cases hm : pm (rest' ++ w) with
                | none => simp [hm] at h
                | some p =>
                  obtain ⟨vs, r2⟩ := p
                  simp only [hm, Option.some.injEq, Prod.mk.injEq] at h
                  obtain ⟨r2', hr2, hm'⟩ := hpm _ _ _ hm
                  refine ⟨r2', by rw [← h.2]; exact hr2, ?_⟩
                  simp only [hm', h.1]
              · simp only [h2C, if_false] at h ⊢
                by_cases h7D : c = 0x7D
                · simp only [h7D, if_true, Option.some.injEq, Prod.mk.injEq] at h ⊢
                  exact ⟨rest', h.2.symm, h.1, rfl⟩
                · simp [h7D] at h
            · exfalso
              have hcc : isSpace c = true := hsp c (List.mem_cons_self _ _)
              have h2C : c ≠ 0x2C := by intro x; subst x; cases hcc
              have h7D : c ≠ 0x7D := by intro x; subst x; cases hcc
              simp only [if_neg h2C, if_neg h7D] at h
              cases h

/-- The parser does not look at trailing space: a value read from `s ++ w`,
with `w` made of space, is read from `s` just the same. -/
theorem strips_all (w : Text) (hw : AllSpace w) : ∀ (f : Nat),
    Strips w (parseValue f) ∧ Strips w (parseElements f) ∧ Strips w (parseMembers f) := by
  intro f
  induction f with
  | zero =>
    refine ⟨?_, ?_, ?_⟩
    · intro s x r h
      rw [parseValue.eq_1] at h
      cases h
    · intro s x r h
      rw [parseElements.eq_1] at h
      cases h
    · intro s x r h
      rw [parseMembers.eq_1] at h
      cases h
  | succ f ih =>
    obtain ⟨ihv, ihe, ihm⟩ := ih
    refine ⟨?_, ?_, ?_⟩
    · intro s x r h
      rw [parseValue_succ] at h ⊢
      exact valueStep_strip w hw _ _ ihe ihm (failsOnSpace_parseElements f)
        (failsOnSpace_parseMembers f) s x r h
    · intro s x r h
      rw [parseElements_succ] at h ⊢
      exact elementsStep_strip w hw _ _ ihv ihe s x r h
    · intro s x r h
      rw [parseMembers_succ] at h ⊢
      exact membersStep_strip w hw _ _ ihv ihm s x r h


/-! ### Trimming a JSON text -/

theorem trimStart_split (s : Text) : ∃ lead, s = lead ++ trimStart s ∧ AllSpace lead := by
  induction s with
  | nil => exact ⟨[], rfl, allSpace_nil⟩
  | cons a s ih =>
    simp only [trimStart]
    by_cases ha : isSpace a = true
    · rw [if_pos ha]
      obtain ⟨lead, e, hl⟩ := ih
      refine ⟨a :: lead, by rw [List.cons_append, ← e], ?_⟩
      intro c hc
      rcases List.mem_cons.mp hc with h | h
      · rw [h]; exact ha
      · exact hl c h
    · rw [if_neg ha]
      exact ⟨[], rfl, allSpace_nil⟩

/-- What `trimStart` leaves is what `trim` leaves and a run of space. -/
theorem trim_split (s : Text) : ∃ trail, trimStart s = trim s ++ trail ∧ AllSpace trail := by
  obtain ⟨lead, e, hl⟩ := trimStart_split (trimStart s).reverse
  refine ⟨lead.reverse, ?_, ?_⟩
  · have := congrArg List.reverse e
    rw [List.reverse_reverse, List.reverse_append] at this
    exact this
  · intro c hc
    exact hl c (List.mem_reverse.mp hc)

theorem trimStart_eq_skipWs (s : Text) (c : Nat) (x : Text) (h : skipWs s = c :: x)
    (hc : isSpace c = false) : trimStart s = c :: x := by
  induction s with
  | nil => simp [skipWs] at h
  | cons a s ih =>
    simp only [skipWs] at h
    simp only [trimStart]
    by_cases ha : isJsonWs a = true
    · rw [if_pos ha] at h
      rw [if_pos (isSpace_of_isJsonWs a ha)]
      exact ih h
    · rw [if_neg ha] at h
      simp only [List.cons.injEq] at h
      have hsa : ¬ isSpace a = true := by
        rw [h.1, hc]
        simp
      rw [if_neg hsa, h.1, h.2]

theorem skipWs_idem (s : Text) : skipWs (skipWs s) = skipWs s := by
  induction s with
  | nil => rfl
  | cons a s ih =>
    simp only [skipWs]
    by_cases ha : isJsonWs a = true
    · rw [if_pos ha]
      exact ih
    · rw [if_neg ha]
      simp only [skipWs, if_neg ha]

theorem parseValue_skipWs (f : Nat) (s : Text) : parseValue f (skipWs s) = parseValue f s := by
  cases f with
  | zero => rw [parseValue.eq_1, parseValue.eq_1]
  | succ f =>
    rw [parseValue_succ, parseValue_succ]
    unfold valueStep
    rw [skipWs_idem]

/-- A text that reads as a JSON value begins, after JSON whitespace, with a
character that is neither space nor `<`. -/
theorem parseValue_head (f : Nat) (s : Text) (t : Json Text) (r : Text)
    (h : parseValue f s = some (t, r)) :
    ∃ c x, skipWs s = c :: x ∧ isSpace c = false ∧ c ≠ 0x3C := by
  cases f with
  | zero =>
    rw [parseValue.eq_1] at h
    cases h
  | succ f =>
    rw [parseValue_succ] at h
    unfold valueStep at h
    cases hs : skipWs s with
    | nil => simp [hs] at h
    | cons c rest =>
      refine ⟨c, rest, rfl, ?_⟩
      simp only [hs] at h
      by_cases h7B : c = 0x7B
      · subst h7B; exact ⟨rfl, by decide⟩
      by_cases h5B : c = 0x5B
      · subst h5B; exact ⟨rfl, by decide⟩
      by_cases h22 : c = 0x22
      · subst h22; exact ⟨rfl, by decide⟩
      by_cases h6E : c = 0x6E
      · subst h6E; exact ⟨rfl, by decide⟩
      by_cases h74 : c = 0x74
      · subst h74; exact ⟨rfl, by decide⟩
      by_cases h66 : c = 0x66
      · subst h66; exact ⟨rfl, by decide⟩
      simp only [if_neg h7B, if_neg h5B, if_neg h22, if_neg h6E, if_neg h74, if_neg h66] at h
      by_cases hm : c = 0x2D
      · subst hm; exact ⟨rfl, by decide⟩
      cases hl : lexNumber (c :: rest) with
      | none => simp [hl] at h
      | some p =>
        simp only [lexNumber, if_neg hm] at hl
        unfold lexUnsigned at hl
        cases hi : lexInt (c :: rest) with
        | none => simp [hi] at hl
        | some q =>
          simp only [lexInt] at hi
          have hd : isDigit c = true := by
            by_cases h0 : c = 0x30
            · subst h0; rfl
            · by_cases hd : isDigit c = true
              · exact hd
              · simp [h0, hd] at hi
          refine ⟨isSpace_of_isDigit c hd, ?_⟩
          intro e
          subst e
          cases hd

/-- Trimming a JSON text leaves a JSON text with the same parse tree. -/
theorem parseSyntax_trim (s : Text) (t : Json Text) (h : parseSyntax s = some t) :
    parseSyntax (trim s) = some t := by
  unfold parseSyntax at h
  cases hp : parseValue (s.length + 1) s with
  | none => simp [hp] at h
  | some p =>
    obtain ⟨v, rest⟩ := p
    simp only [hp] at h
    by_cases hr : skipWs rest = []
    swap
    · rw [if_neg hr] at h
      cases h
    rw [if_pos hr] at h
    simp only [Option.some.injEq] at h
    subst h
    obtain ⟨c, x, hs, hc, _⟩ := parseValue_head _ s v rest hp
    obtain ⟨trail, htrim, htrail⟩ := trim_split s
    have hstart : trimStart s = skipWs s := by
      rw [trimStart_eq_skipWs s c x hs hc, hs]
    have hp2 : parseValue (s.length + 1) (trim s ++ trail) = some (v, rest) := by
      rw [← htrim, hstart, parseValue_skipWs]
      exact hp
    obtain ⟨r', hr', hp3⟩ := (strips_all trail htrail (s.length + 1)).1 (trim s) v rest hp2
    have hr2 : skipWs r' = [] := by
      rw [hr'] at hr
      exact skipWs_nil_of_append r' trail hr
    exact parseSyntax_complete (s.length + 1) (trim s) v r' hp3 hr2

theorem jsonParse_trim (M : NumModel) (s : Text) (v : Json M.Num)
    (h : jsonParse M s = some v) : jsonParse M (trim s) = some v := by
  unfold jsonParse at h ⊢
  cases hp : parseSyntax s with
  | none => simp [hp] at h
  | some t =>
    rw [parseSyntax_trim s t hp]
    simpa [hp] using h

theorem detectType_json (M : NumModel) (s : Text) (v : Json M.Num)
    (h : jsonParse M s = some v) : detectType M s = DocType.json := by
  have hx : ∃ c x, trimStart s = c :: x ∧ c ≠ 0x3C := by
    unfold jsonParse at h
    cases hp : parseSyntax s with
    | none => simp [hp] at h
    | some t =>
      unfold parseSyntax at hp
      cases hv : parseValue (s.length + 1) s with
      | none => simp [hv] at hp
      | some p =>
        obtain ⟨t1, r⟩ := p
        obtain ⟨c, x, hs, hc, hne⟩ := parseValue_head _ s t1 r hv
        exact ⟨c, x, trimStart_eq_skipWs s c x hs hc, hne⟩
  obtain ⟨c, x, hts, hne⟩ := hx
  unfold detectType
  have h1 : startsWith (trimStart s) 0x3C = false := by
    rw [hts]
    simp [startsWith, hne]
  rw [h1]
  simp only [Bool.false_eq_true, if_false, h]
  split <;> rfl


/-! ### Format, minify, format -/

theorem trim_ne_nil (M : NumModel) (s : Text) (v : Json M.Num) (h : jsonParse M s = some v) :
    trim s ≠ [] := by
  intro e
  have := jsonParse_trim M s v h
  rw [e, jsonParse_nil] at this
  cases this

/-- On a JSON text `doFormat` writes the 2-space serialization of its value. -/
theorem doFormat_json (M : NumModel) (formatXml : Text → Text) (s : Text) (v : Json M.Num)
    (h : jsonParse M s = some v) : doFormat M formatXml s = stringify2 M v := by
  unfold doFormat
  rw [if_neg (trim_ne_nil M s v h), detectType_json M (trim s) v (jsonParse_trim M s v h)]
  simp only [jsonParse_trim M s v h]

/-- On a JSON text `doMinify` writes the compact serialization of its value. -/
theorem doMinify_json (M : NumModel) (s : Text) (v : Json M.Num)
    (h : jsonParse M s = some v) : doMinify M s = stringify M v := by
  unfold doMinify
  rw [if_neg (trim_ne_nil M s v h), detectType_json M (trim s) v (jsonParse_trim M s v h)]
  simp only [jsonParse_trim M s v h]

theorem jsonParse_serialize_eq (M : NumModel) (gap : Text) (hgap : AllWs gap) (w : Json M.Num) :
    jsonParse M (serialize M gap [] w) = some (internalize M (syn M w)) := by
  unfold jsonParse
  rw [parseSyntax_serialize M gap hgap w]

mutual
/-- Reading a serialization back is idempotent on values. -/
theorem reread_idem (M : NumModel) : ∀ (w : Json M.Num), WellFormed w →
    internalize M (syn M (internalize M (syn M w))) = internalize M (syn M w)
  | Json.null, _ => rfl
  | Json.bool _, _ => rfl
  | Json.num n, _ => by
    cases h : M.toText n with
    | none => simp [syn, internalize, h]
    | some t => simp [syn, internalize, h, M.toText_ofLit n t h]
  | Json.str _, _ => rfl
  | Json.arr xs, hw => by
    have h := rereadList_idem M xs (by simpa [WellFormed] using hw)
    simp only [syn, internalize]
    rw [h]
  | Json.obj kvs, hw => by
    simp only [WellFormed] at hw
    have h := rereadMembers_idem M kvs hw.2
    have hk := keys_internalizeMembers_synMembers M kvs
    have hb := buildProps_eq_self (internalizeMembers M (synMembers M kvs))
      (by rw [hk]; exact hw.1)
    have hk2 := keys_internalizeMembers_synMembers M (internalizeMembers M (synMembers M kvs))
    have hb2 := buildProps_eq_self
      (internalizeMembers M (synMembers M (internalizeMembers M (synMembers M kvs))))
      (by rw [hk2, hk]; exact hw.1)
    simp only [syn, internalize]
    rw [hb, hb2, h]
theorem rereadList_idem (M : NumModel) : ∀ (xs : List (Json M.Num)), WellFormedList xs →
    internalizeList M (synList M (internalizeList M (synList M xs)))
      = internalizeList M (synList M xs)
  | [], _ => rfl
  | x :: xs, hw => by
    simp only [WellFormedList] at hw
    simp only [synList, internalizeList]
    rw [reread_idem M x hw.1, rereadList_idem M xs hw.2]
theorem rereadMembers_idem (M : NumModel) :
    ∀ (kvs : List (Text × Json M.Num)), WellFormedMembers kvs →
    internalizeMembers M (synMembers M (internalizeMembers M (synMembers M kvs)))
      = internalizeMembers M (synMembers M kvs)
  | [], _ => rfl
  | (k, v) :: kvs, hw => by
    simp only [WellFormedMembers] at hw
    simp only [synMembers, internalizeMembers]
    rw [reread_idem M v hw.1, rereadMembers_idem M kvs hw.2]
end

mutual
/-- A value whose numbers read back is the value its serialization parses to. -/
theorem reread_eq (M : NumModel) : ∀ (w : Json M.Num), WellFormed w → NumbersReadBack M w →
    internalize M (syn M w) = w
  | Json.null, _, _ => rfl
  | Json.bool _, _, _ => rfl
  | Json.num n, _, hn => by
    simp only [NumbersReadBack] at hn
    obtain ⟨t, ht, hl⟩ := hn
    simp only [syn, ht, internalize, hl]
  | Json.str _, _, _ => rfl
  | Json.arr xs, hw, hn => by
    have h := rereadList_eq M xs (by simpa [WellFormed] using hw)
      (by simpa [NumbersReadBack] using hn)
    simp only [syn, internalize]
    rw [h]
  | Json.obj kvs, hw, hn => by
    simp only [WellFormed] at hw
    have h := rereadMembers_eq M kvs hw.2 (by simpa [NumbersReadBack] using hn)
    have hk := keys_internalizeMembers_synMembers M kvs
    have hb := buildProps_eq_self (internalizeMembers M (synMembers M kvs))
      (by rw [hk]; exact hw.1)
    simp only [syn, internalize]
    rw [hb, h]
theorem rereadList_eq (M : NumModel) : ∀ (xs : List (Json M.Num)), WellFormedList xs →
    NumbersReadBackList M xs → internalizeList M (synList M xs) = xs
  | [], _, _ => rfl
  | x :: xs, hw, hn => by
    simp only [WellFormedList] at hw
    simp only [NumbersReadBackList] at hn
    simp only [synList, internalizeList]
    rw [reread_eq M x hw.1 hn.1, rereadList_eq M xs hw.2 hn.2]
theorem rereadMembers_eq (M : NumModel) :
    ∀ (kvs : List (Text × Json M.Num)), WellFormedMembers kvs →
    NumbersReadBackMembers M kvs → internalizeMembers M (synMembers M kvs) = kvs
  | [], _, _ => rfl
  | (k, v) :: kvs, hw, hn => by
    simp only [WellFormedMembers] at hw
    simp only [NumbersReadBackMembers] at hn
    simp only [synMembers, internalizeMembers]
    rw [reread_eq M v hw.1 hn.1, rereadMembers_eq M kvs hw.2 hn.2]
end


/-- Counterexample to C12: the JSON text `1e999` denotes an infinity, which is
written `null`; after format, minify and format the text is `null`, whose
value is not the value of the original text. -/
theorem format_minify_format_overflow :
    jsonParse rangedNumbers (utf16 "1e999") = some (Json.num (RangedNum.infinite false)) ∧
      doFormat rangedNumbers id (utf16 "1e999") = utf16 "null" ∧
      doMinify rangedNumbers (utf16 "null") = utf16 "null" ∧
      doFormat rangedNumbers id (utf16 "null") = utf16 "null" ∧
      jsonParse rangedNumbers
          (doFormat rangedNumbers id
            (doMinify rangedNumbers (doFormat rangedNumbers id (utf16 "1e999"))))
        = some Json.null ∧
      (Json.null : Json rangedNumbers.Num) ≠ Json.num (RangedNum.infinite false) :=
  ⟨by rfl, by rfl, by rfl, by rfl, by rfl, fun h => Json.noConfusion h⟩

/-- C12, amended: for every JSON text, with value `v`, `doFormat` writes the
2-space serialization of `v`; that text, the text `doMinify` makes of it and
the text `doFormat` makes of that are each valid JSON and parse to one and the
same value `v1`; the second formatting gives the first formatted text again;
and `v1` is `v` when every number of `v` prints as a literal that reads back
as the same number. -/
theorem format_minify_format (M : NumModel) (formatXml : Text → Text) (s : Text)
    (v : Json M.Num) (h : jsonParse M s = some v) :
    ∃ v1,
      doFormat M formatXml s = stringify2 M v ∧
      jsonParse M (doFormat M formatXml s) = some v1 ∧
      doMinify M (doFormat M formatXml s) = stringify M v1 ∧
      jsonParse M (doMinify M (doFormat M formatXml s)) = some v1 ∧
      doFormat M formatXml (doMinify M (doFormat M formatXml s)) = doFormat M formatXml s ∧
      jsonParse M (doFormat M formatXml (doMinify M (doFormat M formatXml s))) = some v1 ∧
      (NumbersReadBack M v → v1 = v) := by
  have hw : WellFormed v := wellFormed_jsonParse M s v h
  have e1 : doFormat M formatXml s = stringify2 M v := doFormat_json M formatXml s v h
  have p1 : jsonParse M (stringify2 M v) = some (internalize M (syn M v)) :=
    jsonParse_serialize_eq M [0x20, 0x20] allWs_gap2 v
  have hw1 : WellFormed (internalize M (syn M v)) := wellFormed_jsonParse M _ _ p1
  have e2 : doMinify M (stringify2 M v) = stringify M (internalize M (syn M v)) :=
    doMinify_json M _ _ p1
  have p2 : jsonParse M (stringify M (internalize M (syn M v)))
      = some (internalize M (syn M v)) := by
    have := jsonParse_serialize_eq M [] allWs_nil (internalize M (syn M v))
    rw [reread_idem M v hw] at this
    exact this
  have e3 : doFormat M formatXml (stringify M (internalize M (syn M v))) = stringify2 M v := by
    rw [doFormat_json M formatXml _ _ p2]
    exact serialize_reparse M [0x20, 0x20] v [] hw
  refine ⟨internalize M (syn M v), e1, ?_, ?_, ?_, ?_, ?_, ?_⟩
  · rw [e1]; exact p1
  · rw [e1]; exact e2
  · rw [e1, e2]; exact p2
  · rw [e1, e2]; exact e3
  · rw [e1, e2, e3]; exact p1
  · exact reread_eq M v hw

/-- Witness of C12 amended: the text ` {"b":[1,2.5e3],"a":"x"} `. -/
theorem format_minify_format_witness :
    jsonParse literalNumbers (utf16 " \x7b\"b\":[1,2.5e3],\"a\":\"x\"\x7d ")
        = some (Json.obj [(utf16 "b", Json.arr [Json.num (utf16 "1"), Json.num (utf16 "2.5e3")]),
            (utf16 "a", Json.str (utf16 "x"))]) ∧
      doFormat literalNumbers id (utf16 " \x7b\"b\":[1,2.5e3],\"a\":\"x\"\x7d ")
        = utf16 "\x7b\n  \"b\": [\n    1,\n    2.5e3\n  ],\n  \"a\": \"x\"\n\x7d" ∧
      doMinify literalNumbers
          (doFormat literalNumbers id (utf16 " \x7b\"b\":[1,2.5e3],\"a\":\"x\"\x7d "))
        = utf16 "\x7b\"b\":[1,2.5e3],\"a\":\"x\"\x7d" ∧
      jsonParse literalNumbers
          (doFormat literalNumbers id
            (doMinify literalNumbers
              (doFormat literalNumbers id (utf16 " \x7b\"b\":[1,2.5e3],\"a\":\"x\"\x7d "))))
        = some (Json.obj [(utf16 "b", Json.arr [Json.num (utf16 "1"), Json.num (utf16 "2.5e3")]),
            (utf16 "a", Json.str (utf16 "x"))]) := by
  refine ⟨by rfl, by rfl, by rfl, ?_⟩
  obtain ⟨v1, _, _, _, _, _, h6, h7⟩ :=
    format_minify_format literalNumbers id (utf16 " \x7b\"b\":[1,2.5e3],\"a\":\"x\"\x7d ")
      (Json.obj [(utf16 "b", Json.arr [Json.num (utf16 "1"), Json.num (utf16 "2.5e3")]),
        (utf16 "a", Json.str (utf16 "x"))]) (by rfl)
  rw [h6, h7]
  simp only [NumbersReadBack, NumbersReadBackMembers, NumbersReadBackList, and_true]
  exact ⟨⟨utf16 "1", by rfl, rfl⟩, ⟨utf16 "2.5e3", by rfl, rfl⟩⟩


end JsonFormatter
